import Mathlib

/-!
# Verification of the B-tree set (`src/btree-set/btreeset.py`)

Shallow embedding of the B-tree based ordered set.  Keys are modelled as
natural numbers (the Python code is generic over any totally ordered key
type; `Nat` is the canonical instance used throughout this development).

In the Python source every `Node` stores `maxkeys`, asserted to satisfy
`maxkeys >= 3` and `maxkeys % 2 == 1`, and defines
`min_keys() = maxkeys // 2`.  Writing `mk` for `min_keys()`, these
assertions give `maxkeys = 2*mk + 1` and `mk >= 1`.  The Lean functions on
nodes therefore take the single parameter `mk` (the node's `min_keys()`)
and write the node's `maxkeys` as `2*mk + 1`.

Python lists mutated in place become rebuilt Lean lists; the imperative
walk-down loops become recursive functions (ownership of the tree is
exclusive, so this is behaviour-preserving).
-/

set_option maxRecDepth 4000

namespace BTree

/-- A B-tree node: a leaf holds only keys; an internal node holds keys and
children (in the source: `children is None` exactly for leaves). -/
inductive Node : Type where
  | leaf (keys : List Nat) : Node
  | internal (keys : List Nat) (children : List Node) : Node

namespace Node

/-- `self.keys` accessor. -/
def keys : Node → List Nat
  | .leaf ks => ks
  | .internal ks _ => ks

/-- `self.children` accessor (leaves have no children list; we return `[]`,
which is only ever consulted behind `isLeaf` tests). -/
def children : Node → List Node
  | .leaf _ => []
  | .internal _ cs => cs

/-- `Node.is_leaf`: whether `self.children is None`. -/
def isLeaf : Node → Bool
  | .leaf _ => true
  | .internal _ _ => false

@[simp] theorem keys_leaf (ks : List Nat) : (Node.leaf ks).keys = ks := rfl
@[simp] theorem keys_internal (ks : List Nat) (cs : List Node) :
    (Node.internal ks cs).keys = ks := rfl
@[simp] theorem children_leaf (ks : List Nat) : (Node.leaf ks).children = [] := rfl
@[simp] theorem children_internal (ks : List Nat) (cs : List Node) :
    (Node.internal ks cs).children = cs := rfl
@[simp] theorem isLeaf_leaf (ks : List Nat) : (Node.leaf ks).isLeaf = true := rfl
@[simp] theorem isLeaf_internal (ks : List Nat) (cs : List Node) :
    (Node.internal ks cs).isLeaf = false := rfl

theorem sizeOf_lt_of_mem {c : Node} {cs : List Node} (h : c ∈ cs) :
    sizeOf c < sizeOf cs := by
  induction cs with
  | nil => cases h
  | cons a l ih =>
    rcases List.mem_cons.mp h with rfl | h
    · simp; omega
    · have := ih h; simp; omega

theorem sizeOf_getD_lt (cs : List Node) (i : Nat) (ks : List Nat) :
    sizeOf (cs.getD i (Node.leaf [])) < sizeOf (Node.internal ks cs) := by
  have hk : 1 ≤ sizeOf ks := by cases ks <;> simp_arith
  by_cases hi : i < cs.length
  · rw [List.getD_eq_getElem cs _ hi]
    have := sizeOf_lt_of_mem (List.getElem_mem hi)
    simp only [Node.internal.sizeOf_spec]
    omega
  · rw [List.getD_eq_default cs _ (by omega)]
    have hc : 1 ≤ sizeOf cs := by cases cs <;> simp_arith
    simp only [Node.leaf.sizeOf_spec, Node.internal.sizeOf_spec, List.nil.sizeOf_spec]
    omega

mutual

/-- In-order list of all keys of the subtree, mutually with the interleaving
of a children list `c0 k0 c1 k1 ... k(n-1) cn`. -/
def toList : Node → List Nat
  | .leaf ks => ks
  | .internal ks cs => inorder cs ks

/-- Interleave children with separating keys, in order. -/
def inorder : List Node → List Nat → List Nat
  | [], ks => ks
  | c :: _, [] => toList c
  | c :: cs, k :: ks => toList c ++ k :: inorder cs ks

end

@[simp] theorem toList_leaf (ks : List Nat) : (Node.leaf ks).toList = ks := by
  simp [toList]
@[simp] theorem toList_internal (ks : List Nat) (cs : List Node) :
    (Node.internal ks cs).toList = inorder cs ks := by
  simp [toList]
@[simp] theorem inorder_nil (ks : List Nat) : inorder [] ks = ks := by
  simp [inorder]
@[simp] theorem inorder_cons_nil (c : Node) (cs : List Node) :
    inorder (c :: cs) [] = c.toList := by
  simp [inorder]
@[simp] theorem inorder_cons_cons (c : Node) (cs : List Node) (k : Nat) (ks : List Nat) :
    inorder (c :: cs) (k :: ks) = c.toList ++ k :: inorder cs ks := by
  rw [inorder]

mutual

/-- Height of a node (leaves have height 0), mutually with the maximum
height over a list of children. -/
def height : Node → Nat
  | .leaf _ => 0
  | .internal _ cs => heightL cs + 1

def heightL : List Node → Nat
  | [] => 0
  | c :: cs => max (height c) (heightL cs)

end

@[simp] theorem height_leaf (ks : List Nat) : (Node.leaf ks).height = 0 := by
  simp [height]
@[simp] theorem height_internal (ks : List Nat) (cs : List Node) :
    (Node.internal ks cs).height = heightL cs + 1 := by
  simp [height]
@[simp] theorem heightL_nil : heightL [] = 0 := by simp [heightL]
@[simp] theorem heightL_cons (c : Node) (cs : List Node) :
    heightL (c :: cs) = max c.height (heightL cs) := by
  rw [heightL]

theorem height_le_heightL_of_mem {c : Node} {cs : List Node} (h : c ∈ cs) :
    c.height ≤ heightL cs := by
  induction cs with
  | nil => cases h
  | cons a l ih =>
    rcases List.mem_cons.mp h with rfl | h
    · simp
    · simp [Nat.le_max_right]; exact Or.inr (ih h)

theorem height_getD_le (cs : List Node) (i : Nat) :
    (cs.getD i (Node.leaf [])).height ≤ heightL cs := by
  by_cases hi : i < cs.length
  · rw [List.getD_eq_getElem _ _ hi]
    exact height_le_heightL_of_mem (List.getElem_mem hi)
  · rw [List.getD_eq_default _ _ (by omega)]
    simp

/-- `Node.search`, the linear scan: returns `(true, i)` if `obj == keys[i]`,
else `(false, i)` with `i` the index where the scan stopped. -/
def searchGo (obj : Nat) : List Nat → Nat → Bool × Nat
  | [], i => (false, i)
  | k :: ks, i =>
      if obj = k then (true, i)
      else if obj > k then searchGo obj ks (i + 1)
      else (false, i)

/-- `Node.search(obj)`. -/
def search (n : Node) (obj : Nat) : Bool × Nat :=
  searchGo obj n.keys 0

theorem sizeOf_take_le (l : List Node) (n : Nat) : sizeOf (l.take n) ≤ sizeOf l := by
  induction l generalizing n with
  | nil => simp [List.take]
  | cons a t ih =>
    cases n with
    | zero => simp; cases t <;> simp_arith
    | succ m => simp [List.take]; have := ih m; omega

theorem sizeOf_drop_le (l : List Node) (n : Nat) : sizeOf (l.drop n) ≤ sizeOf l := by
  induction l generalizing n with
  | nil => simp [List.drop]
  | cons a t ih =>
    cases n with
    | zero => simp
    | succ m => simp [List.drop]; have := ih m; omega

theorem sizeOf_take_le_nat (l : List Nat) (n : Nat) : sizeOf (l.take n) ≤ sizeOf l := by
  induction l generalizing n with
  | nil => simp [List.take]
  | cons a t ih =>
    cases n with
    | zero => simp; cases t <;> simp_arith
    | succ m => simp [List.take]; have := ih m; omega

theorem sizeOf_drop_le_nat (l : List Nat) (n : Nat) : sizeOf (l.drop n) ≤ sizeOf l := by
  induction l generalizing n with
  | nil => simp [List.drop]
  | cons a t ih =>
    cases n with
    | zero => simp
    | succ m => simp [List.drop]; have := ih m; omega

/-- `Node.split`, success path.  The Python method mutates `self` into the
left half and returns `(middlekey, rightnode)`; here the triple
`(left, middlekey, right)` is returned.  `mk` is `min_keys() = maxkeys // 2`:
`middlekey = keys[mk]`, the right node takes `keys[mk+1:]` (and, if
internal, `children[mk+1:]`), and the left keeps `keys[:mk]` (and
`children[:mk+1]`). -/
def splitNode (mk : Nat) : Node → Node × Nat × Node
  | .leaf ks =>
      (.leaf (ks.take mk), ks.getD mk 0, .leaf (ks.drop (mk + 1)))
  | .internal ks cs =>
      (.internal (ks.take mk) (cs.take (mk + 1)), ks.getD mk 0,
       .internal (ks.drop (mk + 1)) (cs.drop (mk + 1)))

/-- `Node.split` with the source's guard: raises (`none`) unless
`len(keys) == maxkeys = 2*mk+1`. -/
def split (mk : Nat) (n : Node) : Option (Node × Nat × Node) :=
  if n.keys.length = 2 * mk + 1 then some (splitNode mk n) else none

theorem sizeOf_splitNode_left (mk : Nat) (n : Node) :
    sizeOf (splitNode mk n).1 ≤ sizeOf n := by
  cases n with
  | leaf ks =>
      simp only [splitNode, Node.leaf.sizeOf_spec]
      have := sizeOf_take_le_nat ks mk; omega
  | internal ks cs =>
      simp only [splitNode, Node.internal.sizeOf_spec]
      have := sizeOf_take_le_nat ks mk
      have := sizeOf_take_le cs (mk + 1); omega

theorem sizeOf_splitNode_right (mk : Nat) (n : Node) :
    sizeOf (splitNode mk n).2.2 ≤ sizeOf n := by
  cases n with
  | leaf ks =>
      simp only [splitNode, Node.leaf.sizeOf_spec]
      have := sizeOf_drop_le_nat ks (mk + 1); omega
  | internal ks cs =>
      simp only [splitNode, Node.internal.sizeOf_spec]
      have := sizeOf_drop_le_nat ks (mk + 1)
      have := sizeOf_drop_le cs (mk + 1); omega

/-- `Node.merge_children`, success path.  Merges the child at `index+1`
into the child at `index`: the merged left child becomes
`leftkeys ++ separator :: rightkeys` (and, if internal, the concatenated
children lists), the separator `keys[index]` is removed from the parent and
so is the child slot `index+1`. -/
def mergeChildrenCore (n : Node) (index : Nat) : Node :=
  match n with
  | .leaf _ => n
  | .internal ks cs =>
      let left := cs.getD index (.leaf [])
      let right := cs.getD (index + 1) (.leaf [])
      let sep := ks.getD index 0
      let merged : Node :=
        match left, right with
        | .leaf lks, .leaf rks => .leaf (lks ++ sep :: rks)
        | .internal lks lcs, .internal rks rcs =>
            .internal (lks ++ sep :: rks) (lcs ++ rcs)
        | _, _ => left
      .internal (ks.eraseIdx index) ((cs.set index merged).eraseIdx (index + 1))

/-- `Node.merge_children` with the source's guards, in source order: a
`RuntimeError` if this node is a leaf or empty; a `ValueError` from
unpacking `children[index : index+2]` if fewer than two children remain
from `index`; a `RuntimeError` unless both children hold exactly
`min_keys()` keys; an `IndexError` from `remove_key` if `index` is not a
valid key index.  Errors are modelled as `none`. -/
def mergeChildren (mk : Nat) (n : Node) (index : Nat) : Option Node :=
  if n.isLeaf || n.keys.length == 0 then none
  else if n.children.length < index + 2 then none
  else if !((n.children.getD index (.leaf [])).keys.length == mk
            && (n.children.getD (index + 1) (.leaf [])).keys.length == mk) then none
  else if n.keys.length ≤ index then none
  else some (mergeChildrenCore n index)

/-- `Node.ensure_child_remove(index)`, success path.  Returns the updated
parent together with the position, in the updated parent, of the node that
now occupies the queried subtree slot (the Python method returns that node
by reference: position `index` in all cases except the merge-into-left
case, where it is `index - 1`).  The Python asserts (parent internal,
sibling of the same kind as the child) are unreachable on well-formed
trees; the corresponding degenerate Lean cases return junk. -/
def ensureChildRemove (mk : Nat) : Node → Nat → Node × Nat
  | .leaf ks, index => (.leaf ks, index)
  | .internal ks cs, index =>
      let child := cs.getD index (.leaf [])
      if mk < child.keys.length then (.internal ks cs, index)
      else
        let left := cs.getD (index - 1) (.leaf [])
        let right := cs.getD (index + 1) (.leaf [])
        if 1 ≤ index ∧ mk < left.keys.length then
          -- Steal rightmost item from left sibling.
          let child' : Node :=
            match child with
            | .leaf cks => .leaf (ks.getD (index - 1) 0 :: cks)
            | .internal cks ccs =>
                .internal (ks.getD (index - 1) 0 :: cks)
                  (left.children.getLastD (.leaf []) :: ccs)
          let left' : Node :=
            match left with
            | .leaf lks => .leaf lks.dropLast
            | .internal lks lcs => .internal lks.dropLast lcs.dropLast
          (.internal (ks.set (index - 1) (left.keys.getLastD 0))
             ((cs.set (index - 1) left').set index child'), index)
        else if index < ks.length ∧ mk < right.keys.length then
          -- Steal leftmost item from right sibling.
          let child' : Node :=
            match child with
            | .leaf cks => .leaf (cks ++ [ks.getD index 0])
            | .internal cks ccs =>
                .internal (cks ++ [ks.getD index 0])
                  (ccs ++ [right.children.getD 0 (.leaf [])])
          let right' : Node :=
            match right with
            | .leaf rks => .leaf rks.tail
            | .internal rks rcs => .internal rks.tail rcs.tail
          (.internal (ks.set index (right.keys.getD 0 0))
             ((cs.set index child').set (index + 1) right'), index)
        else if 1 ≤ index then
          -- Merge child into left sibling.
          (mergeChildrenCore (.internal ks cs) (index - 1), index - 1)
        else
          -- Merge right sibling into child.
          (mergeChildrenCore (.internal ks cs) index, index)

theorem getD_set_self (l : List Node) (i : Nat) (x d : Node) (h : i < l.length) :
    (l.set i x).getD i d = x := by
  rw [List.getD_eq_getElem _ _ (by simpa using h)]
  simp [List.getElem_set]

theorem getD_eraseIdx_lt (l : List Node) (i j : Nat) (d : Node) (h : j < i) :
    (l.eraseIdx i).getD j d = l.getD j d := by
  simp [List.getD_eq_getElem?_getD, List.getElem?_eraseIdx_of_lt _ _ _ h]

theorem heightL_append (l1 l2 : List Node) :
    heightL (l1 ++ l2) = max (heightL l1) (heightL l2) := by
  induction l1 with
  | nil => simp
  | cons a t ih => simp [ih, Nat.max_assoc]

theorem height_getLastD_le (cs : List Node) (d : Node) :
    (cs.getLastD d).height ≤ max d.height (heightL cs) := by
  induction cs generalizing d with
  | nil => simp [List.getLastD]
  | cons a t ih =>
    have := ih a
    simp only [List.getLastD_cons, heightL_cons]
    omega

/-- The child slot `i` of a merged parent is no taller than the tallest
original child. -/
theorem height_mergeCore_getD_le (ks : List Nat) (cs : List Node) (i : Nat) :
    (((mergeChildrenCore (.internal ks cs) i).children).getD i (.leaf [])).height
      ≤ heightL cs := by
  simp only [mergeChildrenCore, children_internal]
  by_cases hi : i < cs.length
  · rw [getD_eraseIdx_lt _ _ _ _ (Nat.lt_succ_self i)]
    rw [getD_set_self _ _ _ _ (by simpa using hi)]
    have hl := height_getD_le cs i
    have hr := height_getD_le cs (i + 1)
    rcases hL : cs.getD i (Node.leaf []) with lks | ⟨lks, lcs⟩
    · rcases hR : cs.getD (i + 1) (Node.leaf []) with rks | ⟨rks, rcs⟩
      · simp
      · simp
    · rw [hL] at hl
      rcases hR : cs.getD (i + 1) (Node.leaf []) with rks | ⟨rks, rcs⟩
      · simpa using hl
      · rw [hR] at hr
        simp only [height_internal, heightL_append] at hl hr ⊢
        omega
  · rw [List.getD_eq_default]
    · simp
    · rw [List.length_eraseIdx, List.length_set]
      split <;> omega

theorem getD_set_ne (l : List Node) (i j : Nat) (x d : Node) (h : i ≠ j) :
    (l.set j x).getD i d = l.getD i d := by
  simp [List.getD_eq_getElem?_getD, List.getElem?_set_ne (Ne.symm h)]

/-- The node returned by `ensure_child_remove` is strictly lower than the
parent it was taken from (no well-formedness needed): it is built only from
children of the parent and pieces of their subtrees. -/
theorem height_ensure_getD_lt (mk : Nat) (ks : List Nat) (cs : List Node) (index : Nat) :
    (((ensureChildRemove mk (.internal ks cs) index).1).children.getD
        (ensureChildRemove mk (.internal ks cs) index).2 (.leaf [])).height
      < (Node.internal ks cs).height := by
  rw [height_internal]
  simp only [ensureChildRemove]
  split
  · simp only [children_internal]
    exact Nat.lt_succ_of_le (height_getD_le cs index)
  · split
    · -- steal rightmost item from left sibling; returned child sits at `index`
      simp only [children_internal]
      by_cases hi : index < cs.length
      · rw [getD_set_self _ _ _ _ (by simpa using hi)]
        have hc := height_getD_le cs index
        have hlf := height_getD_le cs (index - 1)
        rcases hC : cs.getD index (Node.leaf []) with cks | ⟨cks, ccs⟩
        · simp
        · rw [hC] at hc
          simp only [height_internal, heightL_cons] at hc ⊢
          have hlast : ((cs.getD (index - 1) (Node.leaf [])).children.getLastD
              (Node.leaf [])).height + 1 ≤ heightL cs := by
            rcases hL : cs.getD (index - 1) (Node.leaf []) with lks | ⟨lks, lcs⟩
            · simp [List.getLastD]; omega
            · rw [hL] at hlf
              simp only [height_internal] at hlf
              have := height_getLastD_le lcs (Node.leaf [])
              simp only [children_internal, height_leaf] at this ⊢
              omega
          omega
      · rw [List.getD_eq_default _ _ (by simp; omega)]
        simp
    · split
      · -- steal leftmost item from right sibling; returned child sits at `index`
        simp only [children_internal]
        by_cases hi : index < cs.length
        · rw [getD_set_ne _ _ _ _ _ (by omega)]
          rw [getD_set_self _ _ _ _ (by simpa using hi)]
          have hc := height_getD_le cs index
          have hrt := height_getD_le cs (index + 1)
          rcases hC : cs.getD index (Node.leaf []) with cks | ⟨cks, ccs⟩
          · simp
          · rw [hC] at hc
            simp only [height_internal, heightL_cons] at hc ⊢
            have hfst : ((cs.getD (index + 1) (Node.leaf [])).children.getD 0
                (Node.leaf [])).height + 1 ≤ heightL cs := by
              rcases hR : cs.getD (index + 1) (Node.leaf []) with rks | ⟨rks, rcs⟩
              · simp; omega
              · rw [hR] at hrt
                simp only [height_internal] at hrt
                have := height_getD_le rcs 0
                simp only [children_internal] at this ⊢
                omega
            simp only [heightL_append, heightL_cons, heightL_nil]
            omega
        · rw [List.getD_eq_default _ _ (by simp; omega)]
          simp
      · split
        · -- merge child into left sibling; returned node sits at `index - 1`
          exact Nat.lt_succ_of_le (height_mergeCore_getD_le ks cs (index - 1))
        · -- merge right sibling into child; returned node sits at `index`
          exact Nat.lt_succ_of_le (height_mergeCore_getD_le ks cs index)

/-- The walk-down loop of `BTreeSet.__contains__`: search at the current
node; found means `True`; at a leaf not-found means `False`; otherwise
descend into `children[index]`. -/
def containsGo : Node → Nat → Bool
  | .leaf ks, obj => (searchGo obj ks 0).1
  | .internal ks cs, obj =>
      match searchGo obj ks 0 with
      | (true, _) => true
      | (false, index) => containsGo (cs.getD index (.leaf [])) obj
termination_by n => sizeOf n
decreasing_by exact sizeOf_getD_lt cs index ks

/-- The walk-down loop of `BTreeSet.add` (entered once the root is known
not to be full).  Returns the updated node and whether a key was inserted
(`self.size += 1`).  At an internal node whose selected child is full, the
child is split first: the promoted middle key joins this node's keys, the
new right sibling joins its children, and the walk continues into the left
or right half (or stops if `obj` equals the promoted key). -/
def addGo (mk : Nat) : Node → Nat → Node × Bool
  | .leaf ks, obj =>
      let fi := searchGo obj ks 0
      if fi.1 then (.leaf ks, false)
      else (.leaf (ks.insertIdx fi.2 obj), true)
  | .internal ks cs, obj =>
      let fi := searchGo obj ks 0
      if fi.1 then (.internal ks cs, false)
      else
        let index := fi.2
        let child := cs.getD index (.leaf [])
        if child.keys.length = 2 * mk + 1 then
          let sp := splitNode mk child
          let ks1 := ks.insertIdx index sp.2.1
          let cs1 := (cs.set index sp.1).insertIdx (index + 1) sp.2.2
          if obj = sp.2.1 then (.internal ks1 cs1, false)
          else if obj > sp.2.1 then
            let rb := addGo mk sp.2.2 obj
            (.internal ks1 (cs1.set (index + 1) rb.1), rb.2)
          else
            let lb := addGo mk sp.1 obj
            (.internal ks1 (cs1.set index lb.1), lb.2)
        else
          let cb := addGo mk child obj
          (.internal ks (cs.set index cb.1), cb.2)
termination_by n => sizeOf n
decreasing_by
  · exact Nat.lt_of_le_of_lt (sizeOf_splitNode_right _ _) (sizeOf_getD_lt cs _ ks)
  · exact Nat.lt_of_le_of_lt (sizeOf_splitNode_left _ _) (sizeOf_getD_lt cs _ ks)
  · exact sizeOf_getD_lt cs _ ks

/-- Replace the child at position `j` (in-place child mutation in the
source becomes rebuilding the parent here). -/
def setChildAt (n : Node) (j : Nat) (c : Node) : Node :=
  match n with
  | .leaf ks => .leaf ks
  | .internal ks cs => .internal ks (cs.set j c)

@[simp] theorem setChildAt_leaf (ks : List Nat) (j : Nat) (c : Node) :
    setChildAt (.leaf ks) j c = .leaf ks := rfl
@[simp] theorem setChildAt_internal (ks : List Nat) (cs : List Node) (j : Nat) (c : Node) :
    setChildAt (.internal ks cs) j c = .internal ks (cs.set j c) := rfl

/-- `Node.remove_max()`: descend along the rightmost spine, applying
`ensure_child_remove` at every internal hop, then pop the last key at the
rightmost leaf.  Returns the rebuilt node and the removed key. -/
def removeMax (mk : Nat) : Node → Node × Nat
  | .leaf ks => (.leaf (ks.eraseIdx (ks.length - 1)), ks.getD (ks.length - 1) 0)
  | .internal ks cs =>
      let ej := ensureChildRemove mk (.internal ks cs) (cs.length - 1)
      let c := ej.1.children.getD ej.2 (.leaf [])
      let ck := removeMax mk c
      (setChildAt ej.1 ej.2 ck.1, ck.2)
termination_by n => n.height
decreasing_by
  exact height_ensure_getD_lt mk _ _ _

/-- `Node.remove_min()`: descend along the leftmost spine, applying
`ensure_child_remove` at every internal hop, then pop the first key at the
leftmost leaf. -/
def removeMin (mk : Nat) : Node → Node × Nat
  | .leaf ks => (.leaf (ks.eraseIdx 0), ks.getD 0 0)
  | .internal ks cs =>
      let ej := ensureChildRemove mk (.internal ks cs) 0
      let c := ej.1.children.getD ej.2 (.leaf [])
      let ck := removeMin mk c
      (setChildAt ej.1 ej.2 ck.1, ck.2)
termination_by n => n.height
decreasing_by
  exact height_ensure_getD_lt mk _ _ _

/-- Iterations `>= 2` of the `BTreeSet._remove` walk-down loop (the first
iteration, where `node is root` and the root-collapse checks can fire, is
`removeRoot` below; from the second iteration on the collapse condition is
provably never true, see the source's loop invariant asserts).  State
`(found, index)` is the current search result for `obj` in this node.
Returns the rebuilt node and whether a key was removed. -/
def removeAux (mk : Nat) : Node → Bool → Nat → Nat → Node × Bool
  | .leaf ks, found, index, _ =>
      if found then (.leaf (ks.eraseIdx index), true) else (.leaf ks, false)
  | .internal ks cs, found, index, obj =>
      if found then
        let left := cs.getD index (.leaf [])
        let right := cs.getD (index + 1) (.leaf [])
        if mk < left.keys.length then
          -- Replace key with predecessor.
          let lk := removeMax mk left
          (.internal (ks.set index lk.2) (cs.set index lk.1), true)
        else if mk < right.keys.length then
          -- Replace key with successor.
          let rk := removeMin mk right
          (.internal (ks.set index rk.2) (cs.set (index + 1) rk.1), true)
        else
          -- Merge key and right child into left child, then recurse there;
          -- the key index inside the merged node is known to be `minkeys`.
          let node' := mergeChildrenCore (.internal ks cs) index
          let merged := node'.children.getD index (.leaf [])
          let mb := removeAux mk merged true mk obj
          (setChildAt node' index mb.1, mb.2)
      else
        let ej := ensureChildRemove mk (.internal ks cs) index
        let child := ej.1.children.getD ej.2 (.leaf [])
        let fi := child.search obj
        let cb := removeAux mk child fi.1 fi.2 obj
        (setChildAt ej.1 ej.2 cb.1, cb.2)
termination_by n => n.height
decreasing_by
  · exact Nat.lt_of_le_of_lt (height_mergeCore_getD_le _ _ _) (by simp)
  · exact height_ensure_getD_lt mk _ _ _

/-- The first iteration of the `BTreeSet._remove` loop, where `node` is the
root: same cases as `removeAux`, plus the two root-collapse checks
(`node is root and len(root.keys) == 0`) that replace the root by its sole
remaining merged child, decrementing the tree height. -/
def removeRoot (mk : Nat) (root : Node) (obj : Nat) : Node × Bool :=
  let fi := root.search obj
  match root with
  | .leaf ks =>
      if fi.1 then (.leaf (ks.eraseIdx fi.2), true) else (.leaf ks, false)
  | .internal ks cs =>
      let index := fi.2
      if fi.1 then
        let left := cs.getD index (.leaf [])
        let right := cs.getD (index + 1) (.leaf [])
        if mk < left.keys.length then
          let lk := removeMax mk left
          (.internal (ks.set index lk.2) (cs.set index lk.1), true)
        else if mk < right.keys.length then
          let rk := removeMin mk right
          (.internal (ks.set index rk.2) (cs.set (index + 1) rk.1), true)
        else
          let node' := mergeChildrenCore (.internal ks cs) index
          let merged := node'.children.getD index (.leaf [])
          let mb := removeAux mk merged true mk obj
          if node'.keys.length = 0 then (mb.1, mb.2)
          else (setChildAt node' index mb.1, mb.2)
      else
        let ej := ensureChildRemove mk (.internal ks cs) index
        let child := ej.1.children.getD ej.2 (.leaf [])
        let fi2 := child.search obj
        let cb := removeAux mk child fi2.1 fi2.2 obj
        if ej.1.keys.length = 0 then (cb.1, cb.2)
        else (setChildAt ej.1 ej.2 cb.1, cb.2)

/-- `push_left_path(node)` from `BTreeSet.__iter__`: push `(node, 0)` frames
while descending into first children; the deepest (leftmost leaf) frame ends
up on top of the stack (head of the list). -/
def pushLeftPath : Node → List (Node × Nat) → List (Node × Nat)
  | .leaf ks, st => (.leaf ks, 0) :: st
  | .internal ks cs, st => pushLeftPath (cs.getD 0 (.leaf [])) ((.internal ks cs, 0) :: st)
termination_by n => sizeOf n
decreasing_by exact sizeOf_getD_lt _ 0 _

theorem sizeOf_children_lt (ks : List Nat) (cs : List Node) :
    sizeOf cs < sizeOf (Node.internal ks cs) := by
  simp only [Node.internal.sizeOf_spec]
  have h1 : 1 ≤ sizeOf ks := by cases ks <;> simp_arith
  omega

mutual

/-- Termination measure for the iterator: an upper bound for the total
measure of the frames `push_left_path` pushes for a node. -/
def measureS : Node → Nat
  | .leaf _ => 1
  | .internal ks cs =>
      2 * ks.length + 2 + measureSL (cs.drop 1) + measureS (cs.getD 0 (.leaf []))
termination_by n => sizeOf n
decreasing_by
  · exact Nat.lt_of_le_of_lt (sizeOf_drop_le _ 1) (sizeOf_children_lt _ _)
  · exact sizeOf_getD_lt _ 0 _

def measureSL : List Node → Nat
  | [] => 0
  | c :: cs => measureS c + measureSL cs
termination_by cs => sizeOf cs
decreasing_by
  all_goals (simp only [List.cons.sizeOf_spec]; omega)

end

@[simp] theorem measureS_leaf (ks : List Nat) : measureS (.leaf ks) = 1 := by
  rw [measureS]

@[simp] theorem measureS_internal (ks : List Nat) (cs : List Node) :
    measureS (.internal ks cs) =
      2 * ks.length + 2 + measureSL (cs.drop 1) + measureS (cs.getD 0 (.leaf [])) := by
  rw [measureS]

@[simp] theorem measureSL_nil : measureSL [] = 0 := by rw [measureSL]

@[simp] theorem measureSL_cons (c : Node) (cs : List Node) :
    measureSL (c :: cs) = measureS c + measureSL cs := by rw [measureSL]

/-- Measure of a single iterator stack frame `(node, index)`. -/
def frameM : Node × Nat → Nat
  | (.leaf _, _) => 1
  | (.internal ks cs, i) => 2 * (ks.length - i) + 2 + measureSL (cs.drop (i + 1))

/-- Measure of an iterator stack. -/
def stackM (st : List (Node × Nat)) : Nat := (st.map frameM).sum

@[simp] theorem stackM_nil : stackM [] = 0 := rfl
@[simp] theorem stackM_cons (f : Node × Nat) (st : List (Node × Nat)) :
    stackM (f :: st) = frameM f + stackM st := by
  simp [stackM]

theorem measureS_pos (n : Node) : 1 ≤ measureS n := by
  cases n <;> simp [measureS] <;> omega

theorem stackM_pushLeftPath (n : Node) (st : List (Node × Nat)) :
    stackM (pushLeftPath n st) = measureS n + stackM st := by
  induction n, st using pushLeftPath.induct with
  | case1 ks st => simp [pushLeftPath, measureS, frameM]
  | case2 ks cs st ih =>
    rw [pushLeftPath, ih]
    simp [measureS, frameM]
    omega

theorem measureSL_drop_getD (cs : List Node) (i : Nat) (h : i < cs.length) :
    measureSL (cs.drop i) = measureS (cs.getD i (.leaf [])) + measureSL (cs.drop (i + 1)) := by
  rw [List.getD_eq_getElem _ _ h]
  rw [List.drop_eq_getElem_cons h]
  rw [measureSL]

theorem measureS_getD_le_drop (cs : List Node) (i : Nat) :
    measureS (cs.getD i (.leaf [])) ≤ measureSL (cs.drop i) + 1 := by
  by_cases h : i < cs.length
  · rw [measureSL_drop_getD cs i h]; omega
  · rw [List.getD_eq_default _ _ (by omega)]
    simp [measureS]

/-- The generator loop of `BTreeSet.__iter__` as a function from the
explicit stack of `(node, next-index)` frames to the list of yielded keys:
pop a frame; a leaf yields all its keys; an internal node yields
`keys[index]`, re-pushes `(node, index+1)` when more keys remain, and
pushes the left path of `children[index+1]`. -/
def iterGo : List (Node × Nat) → List Nat
  | [] => []
  | (.leaf ks, _) :: st => ks ++ iterGo st
  | (.internal ks cs, i) :: st =>
      ks.getD i 0 ::
        iterGo (pushLeftPath (cs.getD (i + 1) (.leaf []))
          (if i + 1 < ks.length then (.internal ks cs, i + 1) :: st else st))
termination_by st => stackM st
decreasing_by
  · simp [frameM]
  · rw [stackM_pushLeftPath]
    by_cases hlt : i + 1 < ks.length
    · rw [dif_pos hlt]
      simp only [stackM_cons, frameM]
      have hle := measureS_getD_le_drop cs (i + 1)
      have hdr : measureSL (cs.drop (i + 1)) ≥ measureSL (cs.drop (i + 1 + 1)) := by
        by_cases h : i + 1 < cs.length
        · rw [measureSL_drop_getD cs (i + 1) h]
          have := measureS_pos (cs.getD (i + 1) (.leaf []))
          omega
        · rw [List.drop_eq_nil_of_le (by omega), List.drop_eq_nil_of_le (by omega)]
      by_cases h : i + 1 < cs.length
      · rw [measureSL_drop_getD cs (i + 1) h]
        omega
      · have h0 : measureS (cs.getD (i + 1) (.leaf [])) = 1 := by
          rw [List.getD_eq_default _ _ (by omega)]; simp [measureS]
        omega
    · rw [dif_neg hlt]
      simp only [stackM_cons, frameM]
      have hle := measureS_getD_le_drop cs (i + 1)
      have := measureS_pos (cs.getD (i + 1) (.leaf []))
      omega

/-- `x < y` on Python's `None`-extended bounds: `None` (infinity) compares
true against everything. -/
def optLt : Option Nat → Option Nat → Bool
  | some a, some b => decide (a < b)
  | _, _ => true

/-- The ordering check of `Node.check_structure` on
`tempkeys = [min] + keys + [max]`: every adjacent present pair must be
strictly increasing. -/
def chainLt : Option Nat → List Nat → Option Nat → Bool
  | lo, [], hi => optLt lo hi
  | lo, k :: ks, hi => optLt lo (some k) && chainLt (some k) ks hi

@[simp] theorem chainLt_nil (lo hi : Option Nat) : chainLt lo [] hi = optLt lo hi := by
  rw [chainLt]
@[simp] theorem chainLt_cons (lo hi : Option Nat) (k : Nat) (ks : List Nat) :
    chainLt lo (k :: ks) hi = (optLt lo (some k) && chainLt (some k) ks hi) := by
  rw [chainLt]

/-- The per-node checks of `Node.check_structure` that do not recurse, in
source order: leaf/internal kind matches depth; key count at most `maxkeys`;
an internal root is not key-empty; a non-root has at least `min_keys()`
keys; keys strictly increasing within the inherited bounds. -/
def checkNodeBasic (mk : Nat) (isroot : Bool) (leafdepth : Nat) (lo hi : Option Nat)
    (n : Node) : Bool :=
  !(n.isLeaf != decide (leafdepth = 0)) &&
  !(decide (2 * mk + 1 < n.keys.length)) &&
  !(isroot && !n.isLeaf && n.keys.length == 0) &&
  !(!isroot && decide (n.keys.length < mk)) &&
  chainLt lo n.keys hi

mutual

/-- `Node.check_structure(isroot, leafdepth, min, max)`: returns the total
key count of the subtree on success, `none` when any `AssertionError` is
raised.  An internal node must additionally have `len(keys) + 1` children,
each checked recursively against the tightened bounds
`(tempkeys[i], tempkeys[i+1])`. -/
def checkStructure (mk : Nat) (isroot : Bool) (leafdepth : Nat) (lo hi : Option Nat) :
    Node → Option Nat
  | .leaf ks =>
      if checkNodeBasic mk isroot leafdepth lo hi (.leaf ks) then some ks.length else none
  | .internal ks cs =>
      if checkNodeBasic mk isroot leafdepth lo hi (.internal ks cs) then
        if cs.length = ks.length + 1 then
          match checkChildren mk (leafdepth - 1) lo ks hi cs with
          | some c => some (ks.length + c)
          | none => none
        else none
      else none

/-- The recursion of `check_structure` over children `i` with bounds
`(tempkeys[i], tempkeys[i+1])`; sums the children's key counts. -/
def checkChildren (mk : Nat) (leafdepth : Nat) :
    Option Nat → List Nat → Option Nat → List Node → Option Nat
  | lo, [], hi, [c] => checkStructure mk false leafdepth lo hi c
  | lo, k :: ks, hi, c :: cs =>
      match checkStructure mk false leafdepth lo (some k) c,
            checkChildren mk leafdepth (some k) ks hi cs with
      | some a, some b => some (a + b)
      | _, _ => none
  | _, _, _, _ => none

end

/-- The height computation of `BTreeSet.check_structure`: descend into one
(leftmost) branch. -/
def leftHeight : Node → Nat
  | .leaf _ => 0
  | .internal ks cs => leftHeight (cs.getD 0 (.leaf [])) + 1
termination_by n => sizeOf n
decreasing_by exact sizeOf_getD_lt _ 0 _


theorem getD_append_cons_length (a : List Nat) (b : Nat) (c : List Nat) (d : Nat) :
    (a ++ b :: c).getD a.length d = b := by
  simp [List.getD_eq_getElem?_getD, List.getElem?_append_right (Nat.le_refl _)]

/-- `removeAux` on a leaf. -/
theorem removeAux_leaf_eq (mk : Nat) (ks : List Nat) (found : Bool)
    (index obj : Nat) :
    removeAux mk (.leaf ks) found index obj
      = if found then (.leaf (ks.eraseIdx index), true) else (.leaf ks, false) := by
  rw [removeAux]

/-- `removeAux`, found branch, left child rich: replace key by predecessor. -/
theorem removeAux_found_left {mk : Nat} {ks : List Nat} {cs : List Node}
    {index obj : Nat}
    (h1 : mk < (cs.getD index (.leaf [])).keys.length) :
    removeAux mk (.internal ks cs) true index obj
      = (.internal (ks.set index (removeMax mk (cs.getD index (.leaf []))).2)
          (cs.set index (removeMax mk (cs.getD index (.leaf []))).1), true) := by
  rw [List.getD_eq_getElem?_getD] at h1
  rw [removeAux]
  simp [h1]

/-- `removeAux`, found branch, right child rich: replace key by successor. -/
theorem removeAux_found_right {mk : Nat} {ks : List Nat} {cs : List Node}
    {index obj : Nat}
    (h1 : ¬ mk < (cs.getD index (.leaf [])).keys.length)
    (h2 : mk < (cs.getD (index + 1) (.leaf [])).keys.length) :
    removeAux mk (.internal ks cs) true index obj
      = (.internal (ks.set index (removeMin mk (cs.getD (index + 1) (.leaf []))).2)
          (cs.set (index + 1)
            (removeMin mk (cs.getD (index + 1) (.leaf []))).1), true) := by
  rw [List.getD_eq_getElem?_getD] at h1 h2
  rw [removeAux]
  simp [h1, h2]

/-- `removeAux`, found branch, both children poor: merge and recurse. -/
theorem removeAux_found_merge {mk : Nat} {ks : List Nat} {cs : List Node}
    {index obj : Nat}
    (h1 : ¬ mk < (cs.getD index (.leaf [])).keys.length)
    (h2 : ¬ mk < (cs.getD (index + 1) (.leaf [])).keys.length) :
    removeAux mk (.internal ks cs) true index obj
      = (setChildAt (mergeChildrenCore (.internal ks cs) index) index
          (removeAux mk
            ((mergeChildrenCore (.internal ks cs) index).children.getD index
              (.leaf [])) true mk obj).1,
         (removeAux mk
            ((mergeChildrenCore (.internal ks cs) index).children.getD index
              (.leaf [])) true mk obj).2) := by
  rw [List.getD_eq_getElem?_getD] at h1 h2
  rw [removeAux]
  simp [h1, h2]

/-- `removeAux`, not-found branch: ensure the child, then recurse into it. -/
theorem removeAux_notfound (mk : Nat) (ks : List Nat) (cs : List Node)
    (index obj : Nat) :
    removeAux mk (.internal ks cs) false index obj
      = (setChildAt (ensureChildRemove mk (.internal ks cs) index).1
          (ensureChildRemove mk (.internal ks cs) index).2
          (removeAux mk
            ((ensureChildRemove mk (.internal ks cs) index).1.children.getD
              (ensureChildRemove mk (.internal ks cs) index).2 (.leaf []))
            (((ensureChildRemove mk (.internal ks cs) index).1.children.getD
              (ensureChildRemove mk (.internal ks cs) index).2
                (.leaf [])).search obj).1
            (((ensureChildRemove mk (.internal ks cs) index).1.children.getD
              (ensureChildRemove mk (.internal ks cs) index).2
                (.leaf [])).search obj).2 obj).1,
         (removeAux mk
            ((ensureChildRemove mk (.internal ks cs) index).1.children.getD
              (ensureChildRemove mk (.internal ks cs) index).2 (.leaf []))
            (((ensureChildRemove mk (.internal ks cs) index).1.children.getD
              (ensureChildRemove mk (.internal ks cs) index).2
                (.leaf [])).search obj).1
            (((ensureChildRemove mk (.internal ks cs) index).1.children.getD
              (ensureChildRemove mk (.internal ks cs) index).2
                (.leaf [])).search obj).2 obj).2) := by
  rw [removeAux]
  simp


/-- `removeRoot` on a leaf root. -/
theorem removeRoot_leaf_eq (mk : Nat) (ks : List Nat) (obj : Nat) :
    removeRoot mk (.leaf ks) obj
      = if (searchGo obj ks 0).1
        then (.leaf (ks.eraseIdx (searchGo obj ks 0).2), true)
        else (.leaf ks, false) := rfl

/-- `removeRoot`, found at the root, left child rich. -/
theorem removeRoot_found_left {mk : Nat} {ks : List Nat} {cs : List Node} {obj : Nat}
    (hf : (searchGo obj ks 0).1 = true)
    (h1 : mk < (cs.getD (searchGo obj ks 0).2 (.leaf [])).keys.length) :
    removeRoot mk (.internal ks cs) obj
      = (.internal
          (ks.set (searchGo obj ks 0).2
            (removeMax mk (cs.getD (searchGo obj ks 0).2 (.leaf []))).2)
          (cs.set (searchGo obj ks 0).2
            (removeMax mk (cs.getD (searchGo obj ks 0).2 (.leaf []))).1),
         true) := by
  rw [List.getD_eq_getElem?_getD] at h1
  rw [removeRoot]
  simp [search, hf, h1]

/-- `removeRoot`, found at the root, right child rich. -/
theorem removeRoot_found_right {mk : Nat} {ks : List Nat} {cs : List Node} {obj : Nat}
    (hf : (searchGo obj ks 0).1 = true)
    (h1 : ¬ mk < (cs.getD (searchGo obj ks 0).2 (.leaf [])).keys.length)
    (h2 : mk < (cs.getD ((searchGo obj ks 0).2 + 1) (.leaf [])).keys.length) :
    removeRoot mk (.internal ks cs) obj
      = (.internal
          (ks.set (searchGo obj ks 0).2
            (removeMin mk (cs.getD ((searchGo obj ks 0).2 + 1) (.leaf []))).2)
          (cs.set ((searchGo obj ks 0).2 + 1)
            (removeMin mk (cs.getD ((searchGo obj ks 0).2 + 1) (.leaf []))).1),
         true) := by
  rw [List.getD_eq_getElem?_getD] at h1 h2
  rw [removeRoot]
  simp [search, hf, h1, h2]

/-- `removeRoot`, found at the root, both children poor, root keeps a key. -/
theorem removeRoot_found_merge_keep {mk : Nat} {ks : List Nat} {cs : List Node}
    {obj : Nat}
    (hf : (searchGo obj ks 0).1 = true)
    (h1 : ¬ mk < (cs.getD (searchGo obj ks 0).2 (.leaf [])).keys.length)
    (h2 : ¬ mk < (cs.getD ((searchGo obj ks 0).2 + 1) (.leaf [])).keys.length)
    (hz : ¬ (mergeChildrenCore (.internal ks cs)
      (searchGo obj ks 0).2).keys.length = 0) :
    removeRoot mk (.internal ks cs) obj
      = (setChildAt (mergeChildrenCore (.internal ks cs) (searchGo obj ks 0).2)
          (searchGo obj ks 0).2
          (removeAux mk
            ((mergeChildrenCore (.internal ks cs)
              (searchGo obj ks 0).2).children.getD (searchGo obj ks 0).2
              (.leaf [])) true mk obj).1,
         (removeAux mk
            ((mergeChildrenCore (.internal ks cs)
              (searchGo obj ks 0).2).children.getD (searchGo obj ks 0).2
              (.leaf [])) true mk obj).2) := by
  rw [List.getD_eq_getElem?_getD] at h1 h2
  rw [removeRoot]
  simp [search, hf, h1, h2, hz]

/-- `removeRoot`, found at the root, both children poor, root collapses. -/
theorem removeRoot_found_merge_collapse {mk : Nat} {ks : List Nat} {cs : List Node}
    {obj : Nat}
    (hf : (searchGo obj ks 0).1 = true)
    (h1 : ¬ mk < (cs.getD (searchGo obj ks 0).2 (.leaf [])).keys.length)
    (h2 : ¬ mk < (cs.getD ((searchGo obj ks 0).2 + 1) (.leaf [])).keys.length)
    (hz : (mergeChildrenCore (.internal ks cs)
      (searchGo obj ks 0).2).keys.length = 0) :
    removeRoot mk (.internal ks cs) obj
      = ((removeAux mk
            ((mergeChildrenCore (.internal ks cs)
              (searchGo obj ks 0).2).children.getD (searchGo obj ks 0).2
              (.leaf [])) true mk obj).1,
         (removeAux mk
            ((mergeChildrenCore (.internal ks cs)
              (searchGo obj ks 0).2).children.getD (searchGo obj ks 0).2
              (.leaf [])) true mk obj).2) := by
  rw [List.getD_eq_getElem?_getD] at h1 h2
  rw [removeRoot]
  simp [search, hf, h1, h2, hz]

/-- `removeRoot`, key not at the root, root keeps a key after ensuring. -/
theorem removeRoot_notfound_keep {mk : Nat} {ks : List Nat} {cs : List Node}
    {obj : Nat}
    (hf : (searchGo obj ks 0).1 = false)
    (hz : ¬ (ensureChildRemove mk (.internal ks cs)
      (searchGo obj ks 0).2).1.keys.length = 0) :
    removeRoot mk (.internal ks cs) obj
      = (setChildAt
          (ensureChildRemove mk (.internal ks cs) (searchGo obj ks 0).2).1
          (ensureChildRemove mk (.internal ks cs) (searchGo obj ks 0).2).2
          (removeAux mk
            ((ensureChildRemove mk (.internal ks cs)
              (searchGo obj ks 0).2).1.children.getD
              (ensureChildRemove mk (.internal ks cs) (searchGo obj ks 0).2).2
              (.leaf []))
            (((ensureChildRemove mk (.internal ks cs)
              (searchGo obj ks 0).2).1.children.getD
              (ensureChildRemove mk (.internal ks cs) (searchGo obj ks 0).2).2
                (.leaf [])).search obj).1
            (((ensureChildRemove mk (.internal ks cs)
              (searchGo obj ks 0).2).1.children.getD
              (ensureChildRemove mk (.internal ks cs) (searchGo obj ks 0).2).2
                (.leaf [])).search obj).2 obj).1,
         (removeAux mk
            ((ensureChildRemove mk (.internal ks cs)
              (searchGo obj ks 0).2).1.children.getD
              (ensureChildRemove mk (.internal ks cs) (searchGo obj ks 0).2).2
              (.leaf []))
            (((ensureChildRemove mk (.internal ks cs)
              (searchGo obj ks 0).2).1.children.getD
              (ensureChildRemove mk (.internal ks cs) (searchGo obj ks 0).2).2
                (.leaf [])).search obj).1
            (((ensureChildRemove mk (.internal ks cs)
              (searchGo obj ks 0).2).1.children.getD
              (ensureChildRemove mk (.internal ks cs) (searchGo obj ks 0).2).2
                (.leaf [])).search obj).2 obj).2) := by
  rw [removeRoot]
  simp [search, hf, hz]

/-- `removeRoot`, key not at the root, root collapses after ensuring. -/
theorem removeRoot_notfound_collapse {mk : Nat} {ks : List Nat} {cs : List Node}
    {obj : Nat}
    (hf : (searchGo obj ks 0).1 = false)
    (hz : (ensureChildRemove mk (.internal ks cs)
      (searchGo obj ks 0).2).1.keys.length = 0) :
    removeRoot mk (.internal ks cs) obj
      = ((removeAux mk
            ((ensureChildRemove mk (.internal ks cs)
              (searchGo obj ks 0).2).1.children.getD
              (ensureChildRemove mk (.internal ks cs) (searchGo obj ks 0).2).2
              (.leaf []))
            (((ensureChildRemove mk (.internal ks cs)
              (searchGo obj ks 0).2).1.children.getD
              (ensureChildRemove mk (.internal ks cs) (searchGo obj ks 0).2).2
                (.leaf [])).search obj).1
            (((ensureChildRemove mk (.internal ks cs)
              (searchGo obj ks 0).2).1.children.getD
              (ensureChildRemove mk (.internal ks cs) (searchGo obj ks 0).2).2
                (.leaf [])).search obj).2 obj).1,
         (removeAux mk
            ((ensureChildRemove mk (.internal ks cs)
              (searchGo obj ks 0).2).1.children.getD
              (ensureChildRemove mk (.internal ks cs) (searchGo obj ks 0).2).2
              (.leaf []))
            (((ensureChildRemove mk (.internal ks cs)
              (searchGo obj ks 0).2).1.children.getD
              (ensureChildRemove mk (.internal ks cs) (searchGo obj ks 0).2).2
                (.leaf [])).search obj).1
            (((ensureChildRemove mk (.internal ks cs)
              (searchGo obj ks 0).2).1.children.getD
              (ensureChildRemove mk (.internal ks cs) (searchGo obj ks 0).2).2
                (.leaf [])).search obj).2 obj).2) := by
  rw [removeRoot]
  simp [search, hf, hz]

end Node

/-- The `BTreeSet` object: `minkeys = degree - 1`, `maxkeys = degree*2 - 1`,
a root node and the element count. -/
structure BTreeSet : Type where
  minkeys : Nat
  maxkeys : Nat
  root : Node
  size : Nat

namespace BTreeSet

/-- `BTreeSet.clear()`: reset to an empty leaf root and size `0`. -/
def clear (s : BTreeSet) : BTreeSet :=
  { s with root := .leaf [], size := 0 }

/-- The `BTreeSet(degree)` constructor (no initial collection); the source
raises unless `degree` is an integer `≥ 2`, so theorems carry `2 ≤ degree`. -/
def new (degree : Nat) : BTreeSet :=
  { minkeys := degree - 1, maxkeys := degree * 2 - 1, root := .leaf [], size := 0 }

/-- `BTreeSet.__contains__`. -/
def contains (s : BTreeSet) (obj : Nat) : Bool :=
  Node.containsGo s.root obj

/-- `BTreeSet.add(obj)`: if the root is full, split it and grow a new root
(height increment), then run the walk-down insertion loop. -/
def add (s : BTreeSet) (obj : Nat) : BTreeSet :=
  let root :=
    if s.root.keys.length = s.maxkeys then
      let sp := Node.splitNode s.minkeys s.root
      Node.internal [sp.2.1] [sp.1, sp.2.2]
    else s.root
  let rb := Node.addGo s.minkeys root obj
  { s with root := rb.1, size := if rb.2 then s.size + 1 else s.size }

/-- `BTreeSet._remove(obj)`: run the removal walk from the root; on success
decrement `size`.  Returns the new state and whether an object was
removed. -/
def removeCore (s : BTreeSet) (obj : Nat) : BTreeSet × Bool :=
  let rb := Node.removeRoot s.minkeys s.root obj
  ({ s with root := rb.1, size := if rb.2 then s.size - 1 else s.size }, rb.2)

/-- `BTreeSet.remove(obj)`: raises `KeyError` (modelled as `none`) when
`_remove` reports that nothing was removed. -/
def remove (s : BTreeSet) (obj : Nat) : Option BTreeSet :=
  let rb := removeCore s obj
  if rb.2 then some rb.1 else none

/-- `BTreeSet.discard(obj)`: `_remove` with the result ignored. -/
def discard (s : BTreeSet) (obj : Nat) : BTreeSet :=
  (removeCore s obj).1

/-- `BTreeSet.__iter__` run to exhaustion: the list of yielded keys. -/
def iter (s : BTreeSet) : List Nat :=
  Node.iterGo (Node.pushLeftPath s.root [])

/-- `BTreeSet.check_structure()`: `true` when no `AssertionError` is
raised.  (`size < 0` cannot occur for a `Nat` size, and the root is a
`Node` by construction, so those two parts of the source's first check are
omitted.) -/
def checkStructure (s : BTreeSet) : Bool :=
  if s.size > s.maxkeys && s.root.isLeaf then false
  else if s.size ≤ s.minkeys * 2 && (!s.root.isLeaf || s.root.keys.length != s.size) then
    false
  else
    match Node.checkStructure s.minkeys true (Node.leftHeight s.root) none none s.root with
    | some c => c == s.size
    | none => false

end BTreeSet

/-- One public mutating operation of the set. -/
inductive Op : Type where
  | add (k : Nat) : Op
  | remove (k : Nat) : Op
  | discard (k : Nat) : Op
  | clear : Op

/-- Apply one operation.  A failing `remove` raises `KeyError` *after*
`_remove` has already finished rebalancing, so the state evolution of
`remove` and `discard` is identical; the raised error is modelled
separately by `BTreeSet.remove`. -/
def applyOp (s : BTreeSet) : Op → BTreeSet
  | .add k => s.add k
  | .remove k => (s.removeCore k).1
  | .discard k => s.discard k
  | .clear => s.clear

/-- Apply a sequence of operations from left to right. -/
def applyOps (s : BTreeSet) : List Op → BTreeSet
  | [] => s
  | op :: ops => applyOps (applyOp s op) ops

/-- States reachable from a freshly constructed `BTreeSet(degree)`,
`degree ≥ 2`, by public operations. -/
def Reachable (s : BTreeSet) : Prop :=
  ∃ degree ops, 2 ≤ degree ∧ s = applyOps (BTreeSet.new degree) ops

/-! ## Chain-bound toolkit

`chainLt lo l hi` says `l` is strictly increasing and lies strictly
between the optional bounds.  These lemmas are the workhorse for all
sortedness reasoning below. -/

namespace Node

/-- `≤` for optional lower bounds (`none` is `-∞`). -/
def loLE : Option Nat → Option Nat → Bool
  | none, _ => true
  | some _, none => false
  | some a, some b => decide (a ≤ b)

/-- `≤` for optional upper bounds (`none` is `+∞`). -/
def hiLE : Option Nat → Option Nat → Bool
  | _, none => true
  | none, some _ => false
  | some a, some b => decide (a ≤ b)

@[simp] theorem optLt_none_left (x : Option Nat) : optLt none x = true := by
  cases x <;> rfl
@[simp] theorem optLt_none_right (x : Option Nat) : optLt x none = true := by
  cases x <;> rfl
@[simp] theorem optLt_some_some (a b : Nat) : optLt (some a) (some b) = decide (a < b) := rfl
@[simp] theorem loLE_none_left (x : Option Nat) : loLE none x = true := by cases x <;> rfl
@[simp] theorem loLE_some_some (a b : Nat) : loLE (some a) (some b) = decide (a ≤ b) := rfl
@[simp] theorem hiLE_none_right (x : Option Nat) : hiLE x none = true := by cases x <;> rfl
@[simp] theorem hiLE_some_some (a b : Nat) : hiLE (some a) (some b) = decide (a ≤ b) := rfl

theorem loLE_refl (x : Option Nat) : loLE x x = true := by cases x <;> simp [loLE]
theorem hiLE_refl (x : Option Nat) : hiLE x x = true := by cases x <;> simp [hiLE]

theorem optLt_trans_loLE {lo' lo x : Option Nat} (h1 : loLE lo' lo = true)
    (h2 : optLt lo x = true) : optLt lo' x = true := by
  cases lo' <;> cases lo <;> cases x <;> simp_all [loLE, optLt]
  omega

theorem optLt_trans_hiLE {x hi hi' : Option Nat} (h1 : optLt x hi = true)
    (h2 : hiLE hi hi' = true) : optLt x hi' = true := by
  cases x <;> cases hi <;> cases hi' <;> simp_all [hiLE, optLt]
  omega

theorem optLt_weaken {lo' lo hi hi' : Option Nat} (h : optLt lo hi = true)
    (h1 : loLE lo' lo = true) (h2 : hiLE hi hi' = true) : optLt lo' hi' = true := by
  cases lo' <;> cases lo <;> cases hi <;> cases hi' <;> simp_all [loLE, hiLE, optLt]
  omega

/-- Weaken both bounds of a chain. -/
theorem chainLt_weaken {lo lo' hi hi' : Option Nat} {l : List Nat}
    (h : chainLt lo l hi = true) (h1 : loLE lo' lo = true) (h2 : hiLE hi hi' = true) :
    chainLt lo' l hi' = true := by
  induction l generalizing lo lo' with
  | nil => simp only [chainLt_nil] at h ⊢; exact optLt_weaken h h1 h2
  | cons k ks ih =>
    simp only [chainLt_cons, Bool.and_eq_true] at h ⊢
    exact ⟨optLt_trans_loLE h1 h.1, ih h.2 (loLE_refl _)⟩

theorem chainLt_weaken_lo {lo lo' hi : Option Nat} {l : List Nat}
    (h : chainLt lo l hi = true) (h1 : loLE lo' lo = true) : chainLt lo' l hi = true :=
  chainLt_weaken h h1 (hiLE_refl _)

theorem chainLt_weaken_hi {lo hi hi' : Option Nat} {l : List Nat}
    (h : chainLt lo l hi = true) (h2 : hiLE hi hi' = true) : chainLt lo l hi' = true :=
  chainLt_weaken h (loLE_refl _) h2

theorem loLE_of_optLt {a : Option Nat} {b : Nat} (h : optLt a (some b) = true) :
    loLE a (some b) = true := by
  cases a <;> simp_all [optLt, loLE]; omega

/-- The bounds of a (possibly empty) chain compare. -/
theorem chainLt_optLt {lo hi : Option Nat} {l : List Nat}
    (h : chainLt lo l hi = true) : optLt lo hi = true := by
  induction l generalizing lo with
  | nil => simpa using h
  | cons k ks ih =>
    simp only [chainLt_cons, Bool.and_eq_true] at h
    exact optLt_weaken (ih h.2) (loLE_of_optLt h.1) (hiLE_refl _)

/-- Members of a chain lie strictly between the bounds. -/
theorem chainLt_mem_bounds {lo hi : Option Nat} {l : List Nat} {x : Nat}
    (h : chainLt lo l hi = true) (hx : x ∈ l) :
    optLt lo (some x) = true ∧ optLt (some x) hi = true := by
  induction l generalizing lo with
  | nil => cases hx
  | cons k ks ih =>
    simp only [chainLt_cons, Bool.and_eq_true] at h
    rcases List.mem_cons.mp hx with rfl | hx
    · exact ⟨h.1, chainLt_optLt h.2⟩
    · exact ⟨optLt_trans_loLE (loLE_of_optLt h.1) (ih h.2 hx).1, (ih h.2 hx).2⟩

/-- Splitting a chain at an interior element. -/
theorem chainLt_append_iff (lo hi : Option Nat) (l1 l2 : List Nat) (k : Nat) :
    chainLt lo (l1 ++ k :: l2) hi = true ↔
      chainLt lo l1 (some k) = true ∧ chainLt (some k) l2 hi = true := by
  induction l1 generalizing lo with
  | nil => simp
  | cons a l ih =>
    simp only [List.cons_append, chainLt_cons, Bool.and_eq_true, ih, and_assoc]

/-- Glue two chains that share only the interior bound `k` (the element
itself removed). -/
theorem chainLt_append_glue {lo hi : Option Nat} {l1 l2 : List Nat} {k : Nat}
    (h1 : chainLt lo l1 (some k) = true) (h2 : chainLt (some k) l2 hi = true) :
    chainLt lo (l1 ++ l2) hi = true := by
  induction l1 generalizing lo with
  | nil =>
    simp only [chainLt_nil] at h1
    simp only [List.nil_append]
    exact chainLt_weaken_lo h2 (by cases lo <;> simp_all [loLE, optLt]; omega)
  | cons a l ih =>
    simp only [chainLt_cons, Bool.and_eq_true, List.cons_append] at h1 ⊢
    exact ⟨h1.1, ih h1.2⟩

/-- A chain is strictly sorted. -/
theorem chainLt_pairwise {lo hi : Option Nat} {l : List Nat}
    (h : chainLt lo l hi = true) : l.Pairwise (· < ·) := by
  induction l generalizing lo with
  | nil => exact List.Pairwise.nil
  | cons k ks ih =>
    simp only [chainLt_cons, Bool.and_eq_true] at h
    refine List.Pairwise.cons ?h1 (ih h.2)
    intro b hb
    have := (chainLt_mem_bounds h.2 hb).1
    simpa using this

theorem chainLt_nodup {lo hi : Option Nat} {l : List Nat}
    (h : chainLt lo l hi = true) : l.Nodup :=
  (chainLt_pairwise h).imp Nat.ne_of_lt

/-- Two strictly sorted lists with the same members are equal. -/
theorem sorted_mem_ext {l1 l2 : List Nat} (h1 : l1.Pairwise (· < ·))
    (h2 : l2.Pairwise (· < ·)) (h : ∀ x, x ∈ l1 ↔ x ∈ l2) : l1 = l2 := by
  have hperm : l1.Perm l2 := by
    refine (List.perm_ext_iff_of_nodup ?n1 ?n2).mpr h
    · exact h1.imp Nat.ne_of_lt
    · exact h2.imp Nat.ne_of_lt
  exact hperm.eq_of_sorted (fun a b ha hb hab hba => Nat.le_antisymm hab hba)
    (h1.imp Nat.le_of_lt) (h2.imp Nat.le_of_lt)

/-! ## Well-formedness

`wfN mk h lo hi n`: `n` is a valid non-root B-tree node of height `h` whose
keys lie strictly between `lo` and `hi`: key count in `[mk, 2*mk+1]`, keys
strictly increasing within bounds, internal nodes have `len(keys)+1`
children, children are valid at height `h-1` with the tightened bounds, and
all leaves sit at depth exactly `h`.  `wfCs` walks a children list against
the separating keys.  These mirror what `Node.check_structure` verifies. -/

mutual

def wfN (mk h : Nat) (lo hi : Option Nat) : Node → Bool
  | .leaf ks => (h == 0) && (mk ≤ ks.length) && (ks.length ≤ 2 * mk + 1)
      && chainLt lo ks hi
  | .internal ks cs =>
      match h with
      | 0 => false
      | h' + 1 => (mk ≤ ks.length) && (ks.length ≤ 2 * mk + 1)
          && (cs.length == ks.length + 1) && wfCs mk h' lo ks hi cs

def wfCs (mk h : Nat) : Option Nat → List Nat → Option Nat → List Node → Bool
  | lo, [], hi, [c] => wfN mk h lo hi c
  | lo, k :: ks, hi, c :: cs => wfN mk h lo (some k) c && wfCs mk h (some k) ks hi cs
  | _, _, _, _ => false

end

/-- Like `wfN` but with the root's relaxed key-count bounds: a leaf may
hold any number of keys up to `maxkeys`; an internal node needs only one
key (`check_structure` forbids a key-empty internal root). -/
def wfTop (mk h : Nat) (lo hi : Option Nat) (n : Node) : Bool :=
  match n, h with
  | .leaf ks, 0 => (ks.length ≤ 2 * mk + 1) && chainLt lo ks hi
  | .internal ks cs, h' + 1 => (1 ≤ ks.length) && (ks.length ≤ 2 * mk + 1)
      && (cs.length == ks.length + 1) && wfCs mk h' lo ks hi cs
  | _, _ => false

/-- Well-formed `BTreeSet` state: valid degree-derived parameters, a valid
root for the tree's actual height, and an accurate size. -/
def WFS (s : BTreeSet) : Prop :=
  1 ≤ s.minkeys ∧ s.maxkeys = 2 * s.minkeys + 1 ∧
    wfTop s.minkeys s.root.height none none s.root = true ∧
    s.size = s.root.toList.length

@[simp] theorem wfN_leaf (mk h : Nat) (lo hi : Option Nat) (ks : List Nat) :
    wfN mk h lo hi (.leaf ks) =
      ((h == 0) && (mk ≤ ks.length) && (ks.length ≤ 2 * mk + 1) && chainLt lo ks hi) := by
  rw [wfN]

@[simp] theorem wfN_internal_zero (mk : Nat) (lo hi : Option Nat) (ks : List Nat)
    (cs : List Node) : wfN mk 0 lo hi (.internal ks cs) = false := by
  rw [wfN]

@[simp] theorem wfN_internal_succ (mk h : Nat) (lo hi : Option Nat) (ks : List Nat)
    (cs : List Node) :
    wfN mk (h + 1) lo hi (.internal ks cs) =
      ((mk ≤ ks.length) && (ks.length ≤ 2 * mk + 1) && (cs.length == ks.length + 1)
        && wfCs mk h lo ks hi cs) := by
  rw [wfN]

@[simp] theorem wfCs_nil_single (mk h : Nat) (lo hi : Option Nat) (c : Node) :
    wfCs mk h lo [] hi [c] = wfN mk h lo hi c := by
  rw [wfCs]

@[simp] theorem wfCs_cons_cons (mk h : Nat) (lo hi : Option Nat) (k : Nat) (ks : List Nat)
    (c : Node) (cs : List Node) :
    wfCs mk h lo (k :: ks) hi (c :: cs) =
      (wfN mk h lo (some k) c && wfCs mk h (some k) ks hi cs) := by
  rw [wfCs]

@[simp] theorem wfCs_nil_nil (mk h : Nat) (lo hi : Option Nat) :
    wfCs mk h lo [] hi [] = false := by
  rw [wfCs]
  · intro c h1 h2; exact List.noConfusion h2
  · intro k ks c cs h1 h2; exact List.noConfusion h1

@[simp] theorem wfTop_leaf (mk h : Nat) (lo hi : Option Nat) (ks : List Nat) :
    wfTop mk h lo hi (.leaf ks) =
      ((h == 0) && (ks.length ≤ 2 * mk + 1) && chainLt lo ks hi) := by
  cases h with
  | zero => simp [wfTop]
  | succ h => simp [wfTop]

@[simp] theorem wfTop_internal (mk h : Nat) (lo hi : Option Nat) (ks : List Nat)
    (cs : List Node) :
    wfTop mk h lo hi (.internal ks cs) =
      (match h with
       | 0 => false
       | h' + 1 => (1 ≤ ks.length) && (ks.length ≤ 2 * mk + 1)
           && (cs.length == ks.length + 1) && wfCs mk h' lo ks hi cs) := by
  cases h with
  | zero => simp [wfTop]
  | succ h => simp [wfTop]

/-- A valid non-root node is a valid top node (for `mk ≥ 1`). -/
theorem wfTop_of_wfN {mk h : Nat} {lo hi : Option Nat} {n : Node}
    (hmk : 1 ≤ mk) (h1 : wfN mk h lo hi n = true) : wfTop mk h lo hi n = true := by
  cases n with
  | leaf ks =>
    simp_all
    all_goals omega
  | internal ks cs =>
    cases h with
    | zero => simp_all
    | succ h' =>
      simp_all
      all_goals omega

/-- A valid top node with at least `mk` keys is a valid non-root node. -/
theorem wfN_of_wfTop {mk h : Nat} {lo hi : Option Nat} {n : Node}
    (h1 : wfTop mk h lo hi n = true) (h2 : mk ≤ n.keys.length) :
    wfN mk h lo hi n = true := by
  cases n with
  | leaf ks => simp_all
  | internal ks cs =>
    cases h with
    | zero => simp_all
    | succ h' => simp_all

@[simp] theorem wfCs_nil_two (mk h : Nat) (lo hi : Option Nat) (c c2 : Node)
    (cs2 : List Node) : wfCs mk h lo [] hi (c :: c2 :: cs2) = false := by
  rw [wfCs]
  · intro x h1 h2; simp at h2
  · intro k ks x xs h1 h2; simp at h1

@[simp] theorem wfCs_cons_nil (mk h : Nat) (lo hi : Option Nat) (k : Nat) (ks : List Nat) :
    wfCs mk h lo (k :: ks) hi [] = false := by
  rw [wfCs]
  · intro x h1 h2; simp at h1
  · intro k2 ks2 x xs h1 h2; simp at h2

/-- The in-order key list of a valid node is a chain within the bounds. -/
theorem wfN_chain {mk : Nat} : ∀ (h : Nat) {lo hi : Option Nat} {n : Node},
    wfN mk h lo hi n = true → chainLt lo n.toList hi = true := by
  intro h
  induction h with
  | zero =>
    intro lo hi n hwf
    cases n with
    | leaf ks => simp_all
    | internal ks cs => simp_all
  | succ h ih =>
    intro lo hi n hwf
    cases n with
    | leaf ks => simp_all
    | internal ks cs =>
      simp only [wfN_internal_succ, Bool.and_eq_true] at hwf
      obtain ⟨-, hcs⟩ := hwf
      simp only [toList_internal]
      induction cs generalizing lo ks with
      | nil => cases ks <;> simp_all
      | cons c cs ihc =>
        cases ks with
        | nil =>
          cases cs with
          | nil =>
            simp only [wfCs_nil_single] at hcs
            simpa using ih hcs
          | cons c2 cs2 => simp_all
        | cons k ks2 =>
          simp only [wfCs_cons_cons, Bool.and_eq_true] at hcs
          simp only [inorder_cons_cons]
          rw [chainLt_append_iff]
          exact ⟨ih hcs.1, ihc _ hcs.2⟩

/-- Same statement for a children segment. -/
theorem wfCs_chain {mk h : Nat} {lo hi : Option Nat} {ks : List Nat} {cs : List Node}
    (h1 : wfCs mk h lo ks hi cs = true) : chainLt lo (inorder cs ks) hi = true := by
  induction cs generalizing lo ks with
  | nil => cases ks <;> simp_all
  | cons c cs ihc =>
    cases ks with
    | nil =>
      cases cs with
      | nil =>
        simp only [wfCs_nil_single] at h1
        simpa using wfN_chain _ h1
      | cons c2 cs2 => simp_all
    | cons k ks2 =>
      simp only [wfCs_cons_cons, Bool.and_eq_true] at h1
      simp only [inorder_cons_cons]
      rw [chainLt_append_iff]
      exact ⟨wfN_chain _ h1.1, ihc h1.2⟩

/-- The separator keys of a valid children segment form a chain. -/
theorem wfCs_keys_chain {mk h : Nat} {lo hi : Option Nat} {ks : List Nat} {cs : List Node}
    (h1 : wfCs mk h lo ks hi cs = true) : chainLt lo ks hi = true := by
  induction cs generalizing lo ks with
  | nil => cases ks <;> simp_all
  | cons c cs ihc =>
    cases ks with
    | nil =>
      cases cs with
      | nil =>
        simp only [wfCs_nil_single] at h1
        simpa using chainLt_optLt (wfN_chain _ h1)
      | cons c2 cs2 => simp_all
    | cons k ks2 =>
      simp only [wfCs_cons_cons, Bool.and_eq_true] at h1
      simp only [chainLt_cons, Bool.and_eq_true]
      exact ⟨chainLt_optLt (wfN_chain _ h1.1), ihc h1.2⟩

/-- The keys of a valid node form a chain within the bounds. -/
theorem wfN_keys_chain {mk h : Nat} {lo hi : Option Nat} {n : Node}
    (h1 : wfN mk h lo hi n = true) : chainLt lo n.keys hi = true := by
  cases n with
  | leaf ks => simp_all
  | internal ks cs =>
    cases h with
    | zero => simp_all
    | succ h' =>
      simp only [wfN_internal_succ, Bool.and_eq_true, keys_internal] at h1 ⊢
      exact wfCs_keys_chain h1.2

/-- Same statement for a valid top (root) node. -/
theorem wfTop_chain {mk h : Nat} {lo hi : Option Nat} {n : Node}
    (h1 : wfTop mk h lo hi n = true) : chainLt lo n.toList hi = true := by
  cases n with
  | leaf ks => simp_all
  | internal ks cs =>
    cases h with
    | zero => simp_all
    | succ h' =>
      simp only [wfTop_internal, Bool.and_eq_true] at h1
      simpa using wfCs_chain h1.2

/-- The in-order list of a valid node is nonempty (for `mk ≥ 1`). -/
theorem wfN_toList_ne_nil {mk h : Nat} {lo hi : Option Nat} {n : Node}
    (hmk : 1 ≤ mk) (h1 : wfN mk h lo hi n = true) : n.toList ≠ [] := by
  cases n with
  | leaf ks =>
    simp_all
    intro hcon
    subst hcon
    simp_all
  | internal ks cs =>
    cases h with
    | zero => simp_all
    | succ h' =>
      simp only [wfN_internal_succ, Bool.and_eq_true] at h1
      obtain ⟨⟨⟨hk, -⟩, hlen⟩, hcs⟩ := h1
      simp only [toList_internal]
      cases cs with
      | nil => cases ks <;> simp_all
      | cons c cs2 =>
        cases ks with
        | nil => simp_all
        | cons k ks2 => simp

/-- Weaken both bounds of a valid node. -/
theorem wfN_weaken {mk : Nat} : ∀ (h : Nat) {lo lo' hi hi' : Option Nat} {n : Node},
    wfN mk h lo hi n = true → loLE lo' lo = true → hiLE hi hi' = true →
    wfN mk h lo' hi' n = true := by
  intro h
  induction h with
  | zero =>
    intro lo lo' hi hi' n hwf h1 h2
    cases n with
    | leaf ks =>
      simp only [wfN_leaf, Bool.and_eq_true] at hwf ⊢
      exact ⟨hwf.1, chainLt_weaken hwf.2 h1 h2⟩
    | internal ks cs => simp_all
  | succ h ih =>
    intro lo lo' hi hi' n hwf h1 h2
    cases n with
    | leaf ks =>
      simp only [wfN_leaf, Bool.and_eq_true] at hwf ⊢
      exact ⟨hwf.1, chainLt_weaken hwf.2 h1 h2⟩
    | internal ks cs =>
      simp only [wfN_internal_succ, Bool.and_eq_true] at hwf ⊢
      refine ⟨hwf.1, ?hcs⟩
      have hcs := hwf.2
      clear hwf
      induction cs generalizing lo lo' ks with
      | nil => cases ks <;> simp_all
      | cons c cs ihc =>
        cases ks with
        | nil =>
          cases cs with
          | nil =>
            simp only [wfCs_nil_single] at hcs ⊢
            exact ih hcs h1 h2
          | cons c2 cs2 => simp_all
        | cons k ks2 =>
          simp only [wfCs_cons_cons, Bool.and_eq_true] at hcs ⊢
          exact ⟨ih hcs.1 h1 (hiLE_refl _), ihc (loLE_refl _) _ hcs.2⟩

theorem wfCs_weaken {mk h : Nat} {lo lo' hi hi' : Option Nat} {ks : List Nat}
    {cs : List Node} (hcs : wfCs mk h lo ks hi cs = true) (h1 : loLE lo' lo = true)
    (h2 : hiLE hi hi' = true) : wfCs mk h lo' ks hi' cs = true := by
  induction cs generalizing lo lo' ks with
  | nil => cases ks <;> simp_all
  | cons c cs ihc =>
    cases ks with
    | nil =>
      cases cs with
      | nil =>
        simp only [wfCs_nil_single] at hcs ⊢
        exact wfN_weaken _ hcs h1 h2
      | cons c2 cs2 => simp_all
    | cons k ks2 =>
      simp only [wfCs_cons_cons, Bool.and_eq_true] at hcs ⊢
      exact ⟨wfN_weaken _ hcs.1 h1 (hiLE_refl _), ihc hcs.2 (loLE_refl _)⟩

/-- Decomposition of a list at a valid index. -/
theorem getD_decomp {α : Type} (l : List α) (i : Nat) (d : α) (h : i < l.length) :
    l = l.take i ++ l.getD i d :: l.drop (i + 1) := by
  rw [List.getD_eq_getElem _ _ h]
  conv_lhs => rw [← List.take_append_drop i l]
  rw [List.drop_eq_getElem_cons h]

theorem set_decomp {α : Type} (l : List α) (i : Nat) (a : α) (h : i < l.length) :
    l.set i a = l.take i ++ a :: l.drop (i + 1) :=
  List.set_eq_take_cons_drop a h

/-- Tighten the upper bound of a nonempty chain whose members all satisfy
the new bound. -/
theorem chainLt_rebound_hi {lo hi hi' : Option Nat} {l : List Nat}
    (h : chainLt lo l hi = true) (hne : l ≠ [])
    (hm : ∀ x ∈ l, optLt (some x) hi' = true) : chainLt lo l hi' = true := by
  induction l generalizing lo with
  | nil => exact absurd rfl hne
  | cons k ks ih =>
    simp only [chainLt_cons, Bool.and_eq_true] at h ⊢
    refine ⟨h.1, ?rest⟩
    cases ks with
    | nil =>
      simp only [chainLt_nil]
      exact hm k (by simp)
    | cons b bs =>
      exact ih h.2 (by simp) (fun x hx => hm x (List.mem_cons_of_mem _ hx))

/-- Tighten the lower bound of a chain whose members all satisfy the new
bound; for an empty chain require the bounds to compare directly. -/
theorem chainLt_rebound_lo {lo lo' hi : Option Nat} {l : List Nat}
    (h : chainLt lo l hi = true) (hne : l ≠ [])
    (hm : ∀ x ∈ l, optLt lo' (some x) = true) : chainLt lo' l hi = true := by
  cases l with
  | nil => exact absurd rfl hne
  | cons k ks =>
    simp only [chainLt_cons, Bool.and_eq_true] at h ⊢
    exact ⟨hm k (by simp), h.2⟩

/-- Tighten the upper bound of a valid node: every key in the subtree must
satisfy the new bound (`mk ≥ 1` keeps key lists nonempty). -/
theorem wfN_rebound_hi {mk : Nat} (hmk : 1 ≤ mk) :
    ∀ (h : Nat) {lo hi hi' : Option Nat} {n : Node},
    wfN mk h lo hi n = true → (∀ x ∈ n.toList, optLt (some x) hi' = true) →
    wfN mk h lo hi' n = true := by
  intro h
  induction h with
  | zero =>
    intro lo hi hi' n hwf hm
    cases n with
    | leaf ks =>
      simp only [wfN_leaf, Bool.and_eq_true] at hwf ⊢
      refine ⟨hwf.1, chainLt_rebound_hi hwf.2 ?ne (by simpa using hm)⟩
      intro hcon
      subst hcon
      have h2 := hwf.1.1.2
      simp at h2
      omega
    | internal ks cs => simp_all
  | succ h ih =>
    intro lo hi hi' n hwf hm
    cases n with
    | leaf ks =>
      simp only [wfN_leaf, Bool.and_eq_true] at hwf
      have hcon := hwf.1.1.1
      simp at hcon
    | internal ks cs =>
      simp only [wfN_internal_succ, Bool.and_eq_true, toList_internal] at hwf hm ⊢
      refine ⟨hwf.1, ?hcs⟩
      have hcs := hwf.2
      clear hwf
      have haux : ∀ (cs2 : List Node) (lo2 : Option Nat) (ks2 : List Nat),
          wfCs mk h lo2 ks2 hi cs2 = true →
          (∀ x ∈ inorder cs2 ks2, optLt (some x) hi' = true) →
          wfCs mk h lo2 ks2 hi' cs2 = true := by
        intro cs2
        induction cs2 with
        | nil => intro lo2 ks2 hcs2 hm2; cases ks2 <;> simp_all
        | cons c cs3 ihc =>
          intro lo2 ks2 hcs2 hm2
          cases ks2 with
          | nil =>
            cases cs3 with
            | nil =>
              simp only [wfCs_nil_single] at hcs2 ⊢
              exact ih hcs2 (by simpa using hm2)
            | cons c2 cs4 => simp_all
          | cons k ks3 =>
            simp only [wfCs_cons_cons, Bool.and_eq_true] at hcs2 ⊢
            refine ⟨hcs2.1, ihc _ _ hcs2.2 ?hm⟩
            intro x hx
            exact hm2 x (by simp [hx])
      exact haux cs lo ks hcs hm

/-- Tighten the lower bound of a valid node. -/
theorem wfN_rebound_lo {mk : Nat} (hmk : 1 ≤ mk) :
    ∀ (h : Nat) {lo lo' hi : Option Nat} {n : Node},
    wfN mk h lo hi n = true → (∀ x ∈ n.toList, optLt lo' (some x) = true) →
    wfN mk h lo' hi n = true := by
  intro h
  induction h with
  | zero =>
    intro lo lo' hi n hwf hm
    cases n with
    | leaf ks =>
      simp only [wfN_leaf, Bool.and_eq_true] at hwf ⊢
      refine ⟨hwf.1, chainLt_rebound_lo hwf.2 ?ne (by simpa using hm)⟩
      intro hcon
      subst hcon
      have h2 := hwf.1.1.2
      simp at h2
      omega
    | internal ks cs => simp_all
  | succ h ih =>
    intro lo lo' hi n hwf hm
    cases n with
    | leaf ks =>
      simp only [wfN_leaf, Bool.and_eq_true] at hwf
      have hcon := hwf.1.1.1
      simp at hcon
    | internal ks cs =>
      simp only [wfN_internal_succ, Bool.and_eq_true, toList_internal] at hwf hm ⊢
      refine ⟨hwf.1, ?hcs⟩
      have hcs := hwf.2
      cases cs with
      | nil => cases ks <;> simp_all
      | cons c cs2 =>
        cases ks with
        | nil =>
          cases cs2 with
          | nil =>
            simp only [wfCs_nil_single] at hcs ⊢
            exact ih hcs (by simpa using hm)
          | cons c2 cs3 => simp_all
        | cons k ks2 =>
          simp only [wfCs_cons_cons, Bool.and_eq_true] at hcs ⊢
          refine ⟨ih hcs.1 ?hm, wfCs_weaken hcs.2 (loLE_refl _) (hiLE_refl _)⟩
          intro x hx
          exact hm x (by simp [hx])

/-- Python's `tempkeys[j]` — the lower bound handed to child `j`. -/
def tA (lo : Option Nat) (ks : List Nat) : Nat → Option Nat
  | 0 => lo
  | j + 1 => some (ks.getD j 0)

/-- Python's `tempkeys[j+1]` — the upper bound handed to child `j`. -/
def tB (ks : List Nat) (hi : Option Nat) (j : Nat) : Option Nat :=
  if j < ks.length then some (ks.getD j 0) else hi

@[simp] theorem tA_zero (lo : Option Nat) (ks : List Nat) : tA lo ks 0 = lo := rfl
@[simp] theorem tA_succ (lo : Option Nat) (ks : List Nat) (j : Nat) :
    tA lo ks (j + 1) = some (ks.getD j 0) := rfl

theorem tA_cons_succ (lo : Option Nat) (k : Nat) (ks : List Nat) (j : Nat) :
    tA lo (k :: ks) (j + 1) = tA (some k) ks j := by
  cases j <;> simp [tA]

theorem tB_cons_succ (k : Nat) (ks : List Nat) (hi : Option Nat) (j : Nat) :
    tB (k :: ks) hi (j + 1) = tB ks hi j := by
  simp only [tB, List.length_cons]
  by_cases hj : j < ks.length
  · rw [if_pos (by omega), if_pos hj]
    simp
  · rw [if_neg (by omega), if_neg hj]

/-- The child at slot `j` of a valid children segment is valid between the
`tempkeys` bounds. -/
theorem wfCs_getD {mk h : Nat} {lo hi : Option Nat} {ks : List Nat} {cs : List Node}
    (hcs : wfCs mk h lo ks hi cs = true) (hlen : cs.length = ks.length + 1) :
    ∀ j, j ≤ ks.length →
      wfN mk h (tA lo ks j) (tB ks hi j) (cs.getD j (.leaf [])) = true := by
  induction cs generalizing lo ks with
  | nil => cases ks <;> simp_all
  | cons c cs ihc =>
    intro j hj
    cases ks with
    | nil =>
      cases cs with
      | nil =>
        have hj0 : j = 0 := by simpa using hj
        subst hj0
        simpa [tB] using hcs
      | cons c2 cs2 => simp at hcs
    | cons k ks2 =>
      simp only [wfCs_cons_cons, Bool.and_eq_true] at hcs
      cases j with
      | zero =>
        simpa [tB] using hcs.1
      | succ j =>
        rw [tA_cons_succ, tB_cons_succ]
        simp only [List.getD_cons_succ]
        simp only [List.length_cons] at hlen hj
        exact ihc hcs.2 (by omega) j (by omega)

/-- Split a valid children segment at the separator key `i`. -/
theorem wfCs_split {mk h : Nat} {lo hi : Option Nat} {ks : List Nat} {cs : List Node}
    (hcs : wfCs mk h lo ks hi cs = true) (hlen : cs.length = ks.length + 1) :
    ∀ i, i < ks.length →
      wfCs mk h lo (ks.take i) (some (ks.getD i 0)) (cs.take (i + 1)) = true ∧
      wfCs mk h (some (ks.getD i 0)) (ks.drop (i + 1)) hi (cs.drop (i + 1)) = true := by
  induction cs generalizing lo ks with
  | nil => cases ks <;> simp_all
  | cons c cs ihc =>
    intro i hi2
    cases ks with
    | nil => simp at hi2
    | cons k ks2 =>
      simp only [wfCs_cons_cons, Bool.and_eq_true] at hcs
      cases i with
      | zero =>
        exact ⟨by simpa using hcs.1, by simpa using hcs.2⟩
      | succ i =>
        simp only [List.length_cons] at hlen hi2
        have hih := ihc hcs.2 (by omega) i (by omega)
        refine ⟨?hx, by simpa using hih.2⟩
        simp only [List.take_succ_cons, List.getD_cons_succ, wfCs_cons_cons,
          Bool.and_eq_true]
        exact ⟨hcs.1, hih.1⟩

/-- Join two valid children segments sharing the separator `m`. -/
theorem wfCs_join {mk h : Nat} {lo hi : Option Nat} {m : Nat} {ks1 ks2 : List Nat}
    {cs1 cs2 : List Node} (h1 : wfCs mk h lo ks1 (some m) cs1 = true)
    (h2 : wfCs mk h (some m) ks2 hi cs2 = true) :
    wfCs mk h lo (ks1 ++ m :: ks2) hi (cs1 ++ cs2) = true := by
  induction cs1 generalizing lo ks1 with
  | nil => cases ks1 <;> simp_all
  | cons c cs ihc =>
    cases ks1 with
    | nil =>
      cases cs with
      | nil =>
        simp only [wfCs_nil_single] at h1
        cases cs2 with
        | nil => cases ks2 <;> simp_all
        | cons c2 cs3 =>
          simp only [List.nil_append, List.singleton_append, wfCs_cons_cons,
            Bool.and_eq_true]
          exact ⟨h1, h2⟩
      | cons c2 cs3 => simp at h1
    | cons k ks3 =>
      simp only [wfCs_cons_cons, Bool.and_eq_true, List.cons_append] at h1 ⊢
      exact ⟨h1.1, ihc h1.2⟩

/-- Replace the child at slot `j` by another node valid for the same
bounds. -/
theorem wfCs_set {mk h : Nat} {lo hi : Option Nat} {ks : List Nat} {cs : List Node}
    (hcs : wfCs mk h lo ks hi cs = true) (hlen : cs.length = ks.length + 1)
    {c' : Node} :
    ∀ j, j ≤ ks.length → wfN mk h (tA lo ks j) (tB ks hi j) c' = true →
      wfCs mk h lo ks hi (cs.set j c') = true := by
  induction cs generalizing lo ks with
  | nil => cases ks <;> simp_all
  | cons c cs ihc =>
    intro j hj hc'
    cases ks with
    | nil =>
      cases cs with
      | nil =>
        have hj0 : j = 0 := by simpa using hj
        subst hj0
        simpa [tB] using hc'
      | cons _ _ => simp at hcs
    | cons k ks2 =>
      simp only [wfCs_cons_cons, Bool.and_eq_true] at hcs
      cases j with
      | zero =>
        simp only [List.set_cons_zero, wfCs_cons_cons, Bool.and_eq_true]
        refine ⟨?hc, hcs.2⟩
        simpa [tB] using hc'
      | succ j =>
        simp only [List.set_cons_succ, wfCs_cons_cons, Bool.and_eq_true]
        rw [tA_cons_succ, tB_cons_succ] at hc'
        simp only [List.length_cons] at hlen hj
        exact ⟨hcs.1, ihc hcs.2 (by omega) j (by omega) hc'⟩

/-- Replace the last child and simultaneously change the segment's upper
bound (used when a removed key's predecessor becomes the new separator). -/
theorem wfCs_update_last {mk h : Nat} {lo hi hi' : Option Nat} {ks : List Nat}
    {cs : List Node} (hcs : wfCs mk h lo ks hi cs = true)
    (hlen : cs.length = ks.length + 1) {c' : Node}
    (hc' : wfN mk h (tA lo ks ks.length) hi' c' = true) :
    wfCs mk h lo ks hi' (cs.set ks.length c') = true := by
  induction cs generalizing lo ks with
  | nil => cases ks <;> simp_all
  | cons c cs ihc =>
    cases ks with
    | nil =>
      cases cs with
      | nil => simpa using hc'
      | cons _ _ => simp at hcs
    | cons k ks2 =>
      simp only [wfCs_cons_cons, Bool.and_eq_true] at hcs
      simp only [List.length_cons, List.set_cons_succ, wfCs_cons_cons, Bool.and_eq_true]
      rw [List.length_cons, tA_cons_succ] at hc'
      simp only [List.length_cons] at hlen
      exact ⟨hcs.1, ihc hcs.2 (by omega) hc'⟩

/-- Replace the first child and simultaneously change the segment's lower
bound (used when a removed key's successor becomes the new separator). -/
theorem wfCs_update_head {mk h : Nat} {lo lo' hi : Option Nat} {ks : List Nat}
    {cs : List Node} (hcs : wfCs mk h lo ks hi cs = true)
    (hlen : cs.length = ks.length + 1) {c' : Node}
    (hc' : wfN mk h lo' (tB ks hi 0) c' = true) :
    wfCs mk h lo' ks hi (cs.set 0 c') = true := by
  cases cs with
  | nil => cases ks <;> simp_all
  | cons c cs =>
    cases ks with
    | nil =>
      cases cs with
      | nil => simpa [tB] using hc'
      | cons _ _ => simp at hcs
    | cons k ks2 =>
      simp only [wfCs_cons_cons, Bool.and_eq_true] at hcs
      simp only [List.set_cons_zero, wfCs_cons_cons, Bool.and_eq_true]
      refine ⟨?hc, hcs.2⟩
      simpa [tB] using hc'

/-- The in-order list split at separator key `i`: everything before child
`i+1`, then `keys[i]`, then the rest. -/
theorem inorder_key_decomp (cs : List Node) (ks : List Nat)
    (hlen : cs.length = ks.length + 1) :
    ∀ i, i < ks.length →
      inorder cs ks = inorder (cs.take (i + 1)) (ks.take i)
        ++ ks.getD i 0 :: inorder (cs.drop (i + 1)) (ks.drop (i + 1)) := by
  induction cs generalizing ks with
  | nil => cases ks <;> simp_all
  | cons c cs ihc =>
    intro i hi2
    cases ks with
    | nil => simp at hi2
    | cons k ks2 =>
      cases i with
      | zero => simp
      | succ i =>
        simp only [inorder_cons_cons, List.take_succ_cons, List.drop_succ_cons,
          List.getD_cons_succ]
        simp only [List.length_cons] at hlen hi2
        rw [ihc ks2 (by omega) i (by omega)]
        simp

theorem take_set_of_le {α : Type} (l : List α) (m n : Nat) (a : α) (h : n ≤ m) :
    (l.set m a).take n = l.take n := by
  apply List.ext_getElem
  · simp
  · intro i h1 h2
    have hin : i < n := by simp at h1; omega
    simp only [List.getElem_take, List.getElem_set]
    rw [if_neg (by omega)]

/-- The tail of the in-order list after child `j`: the separator `keys[j]`
followed by the interleaving of the remaining children and keys (empty when
`j = len(keys)`). -/
def sfxJ (cs : List Node) (ks : List Nat) (j : Nat) : List Nat :=
  match ks.drop j with
  | [] => []
  | k :: _ => k :: inorder (cs.drop (j + 1)) (ks.drop (j + 1))

theorem sfxJ_of_lt {cs : List Node} {ks : List Nat} {j : Nat} (h : j < ks.length) :
    sfxJ cs ks j = ks.getD j 0 :: inorder (cs.drop (j + 1)) (ks.drop (j + 1)) := by
  rw [sfxJ]
  rw [List.drop_eq_getElem_cons h, List.getD_eq_getElem _ _ h]

theorem sfxJ_of_ge {cs : List Node} {ks : List Nat} {j : Nat} (h : ks.length ≤ j) :
    sfxJ cs ks j = [] := by
  rw [sfxJ, List.drop_eq_nil_of_le h]

/-- Peeling one child off the tail of the in-order list. -/
theorem inorder_drop_eq {cs : List Node} {ks : List Nat} (j : Nat) (h : j < cs.length) :
    inorder (cs.drop j) (ks.drop j) = (cs.getD j (.leaf [])).toList ++ sfxJ cs ks j := by
  rw [List.drop_eq_getElem_cons h, List.getD_eq_getElem _ _ h]
  by_cases hk : j < ks.length
  · rw [List.drop_eq_getElem_cons hk, sfxJ_of_lt hk, inorder_cons_cons]
    rw [List.getD_eq_getElem _ _ hk]
  · rw [show ks.drop j = [] from List.drop_eq_nil_of_le (by omega),
      sfxJ_of_ge (by omega)]
    rw [inorder_cons_nil, List.append_nil]

/-- Decomposition of the in-order list around the child at slot `j`, both
for the original children list and for the list with that child replaced;
together with the two localization facts needed to track a key that the
search has steered into slot `j`. -/
theorem slot_decomp_pair {mk h : Nat} {lo hi : Option Nat} {ks : List Nat}
    {cs : List Node} (hcs : wfCs mk h lo ks hi cs = true)
    (hlen : cs.length = ks.length + 1) (c' : Node) (j : Nat) (hj : j ≤ ks.length) :
    ∃ A B, inorder cs ks = A ++ (cs.getD j (.leaf [])).toList ++ B ∧
      inorder (cs.set j c') ks = A ++ c'.toList ++ B ∧
      (∀ obj, (∀ i, i < j → ks.getD i 0 < obj) → obj ∉ A) ∧
      (∀ obj, (j < ks.length → obj < ks.getD j 0) → obj ∉ B) := by
  have hjcs : j < cs.length := by omega
  have hsetlen : (cs.set j c').length = cs.length := List.length_set _ _ _
  cases j with
  | zero =>
    refine ⟨[], sfxJ cs ks 0, ?e1, ?e2, by simp, ?b⟩
    · have h0 := @inorder_drop_eq cs ks 0 hjcs
      simp only [List.drop_zero] at h0
      simp only [List.nil_append]
      exact h0
    · have h0 := @inorder_drop_eq (cs.set 0 c') ks 0 (by omega)
      simp only [List.drop_zero] at h0
      rw [getD_set_self _ _ _ _ hjcs] at h0
      have hdrop : (cs.set 0 c').drop 1 = cs.drop 1 := List.drop_set_of_lt _ _ (by omega)
      have hsfx : sfxJ (cs.set 0 c') ks 0 = sfxJ cs ks 0 := by
        by_cases hk : 0 < ks.length
        · rw [sfxJ_of_lt hk, sfxJ_of_lt hk, hdrop]
        · rw [sfxJ_of_ge (by omega), sfxJ_of_ge (by omega)]
      rw [hsfx] at h0
      simp only [List.nil_append]
      exact h0
    · intro obj hafter hmem
      by_cases hk : 0 < ks.length
      · rw [sfxJ_of_lt hk] at hmem
        have hsplit := wfCs_split hcs hlen 0 hk
        have hchain := wfCs_chain hsplit.2
        rcases List.mem_cons.mp hmem with rfl | hmem2
        · exact absurd (hafter hk) (by omega)
        · have hb := (chainLt_mem_bounds hchain (by simpa using hmem2)).1
          simp only [optLt_some_some, decide_eq_true_eq] at hb
          have := hafter hk
          omega
      · rw [sfxJ_of_ge (by omega)] at hmem
        exact absurd hmem (List.not_mem_nil obj)
  | succ i =>
    have hik : i < ks.length := by omega
    have hdecomp := inorder_key_decomp cs ks hlen i hik
    have hdrop := @inorder_drop_eq cs ks (i + 1) hjcs
    have hdecomp' := inorder_key_decomp (cs.set (i + 1) c') ks (by omega) i hik
    have hdrop' := @inorder_drop_eq (cs.set (i + 1) c') ks (i + 1)
      (by omega)
    rw [take_set_of_le _ _ _ _ (by omega)] at hdecomp'
    rw [getD_set_self _ _ _ _ hjcs] at hdrop'
    have hdd : (cs.set (i + 1) c').drop (i + 1 + 1) = cs.drop (i + 1 + 1) :=
      List.drop_set_of_lt _ _ (by omega)
    have hsfx : sfxJ (cs.set (i + 1) c') ks (i + 1) = sfxJ cs ks (i + 1) := by
      by_cases hk : i + 1 < ks.length
      · rw [sfxJ_of_lt hk, sfxJ_of_lt hk, hdd]
      · rw [sfxJ_of_ge (by omega), sfxJ_of_ge (by omega)]
    rw [hsfx] at hdrop'
    refine ⟨inorder (cs.take (i + 1)) (ks.take i) ++ [ks.getD i 0], sfxJ cs ks (i + 1),
      ?f1, ?f2, ?fa, ?fb⟩
    · rw [hdecomp, hdrop]
      simp
    · rw [hdecomp', hdrop']
      simp
    · intro obj hbefore hmem
      have hsplit := wfCs_split hcs hlen i hik
      have hchain := wfCs_chain hsplit.1
      rcases List.mem_append.mp hmem with hmem2 | hmem2
      · have hb := (chainLt_mem_bounds hchain hmem2).2
        simp only [optLt_some_some, decide_eq_true_eq] at hb
        have := hbefore i (by omega)
        omega
      · have : obj = ks.getD i 0 := by simpa using hmem2
        have := hbefore i (by omega)
        omega
    · intro obj hafter hmem
      by_cases hk : i + 1 < ks.length
      · rw [sfxJ_of_lt hk] at hmem
        have hsplit := wfCs_split hcs hlen (i + 1) hk
        have hchain := wfCs_chain hsplit.2
        rcases List.mem_cons.mp hmem with rfl | hmem2
        · exact absurd (hafter hk) (by omega)
        · have hb := (chainLt_mem_bounds hchain (by simpa using hmem2)).1
          simp only [optLt_some_some, decide_eq_true_eq] at hb
          have := hafter hk
          omega
      · rw [sfxJ_of_ge (by omega)] at hmem
        exact absurd hmem (List.not_mem_nil obj)

/-! ## Characterisation of `Node.search` -/

/-- The accumulator of the linear scan just offsets the returned index. -/
theorem searchGo_acc (obj : Nat) (ks : List Nat) (i : Nat) :
    searchGo obj ks i = ((searchGo obj ks 0).1, (searchGo obj ks 0).2 + i) := by
  induction ks generalizing i with
  | nil => simp [searchGo]
  | cons k ks ih =>
    by_cases h1 : obj = k
    · simp [searchGo, h1]
    · by_cases h2 : obj > k
      · rw [searchGo, if_neg h1, if_pos h2, ih]
        rw [searchGo, if_neg h1, if_pos h2, ih 1]
        simp only [Prod.mk.injEq, true_and]
        omega
      · simp [searchGo, h1, h2]

/-- Basic properties of the scan result, no sortedness required: the
returned index is at most `len(keys)`; every key strictly before it is
less than `obj`; on success the indexed key equals `obj`; on failure the
indexed key (if any) exceeds `obj`. -/
theorem searchGo_props (obj : Nat) (ks : List Nat) :
    (searchGo obj ks 0).2 ≤ ks.length ∧
    (∀ j, j < (searchGo obj ks 0).2 → ks.getD j 0 < obj) ∧
    ((searchGo obj ks 0).1 = true →
      (searchGo obj ks 0).2 < ks.length ∧ ks.getD (searchGo obj ks 0).2 0 = obj) ∧
    ((searchGo obj ks 0).1 = false → (searchGo obj ks 0).2 < ks.length →
      obj < ks.getD (searchGo obj ks 0).2 0) := by
  induction ks with
  | nil => simp [searchGo]
  | cons k ks ih =>
    by_cases h1 : obj = k
    · subst h1
      simp [searchGo]
    · by_cases h2 : obj > k
      · rw [searchGo, if_neg h1, if_pos h2, searchGo_acc]
        obtain ⟨ih1, ih2, ih3, ih4⟩ := ih
        refine ⟨by simp only [List.length_cons]; omega, ?hlt, ?hfound, ?hnot⟩
        · intro j hj
          cases j with
          | zero => simpa using h2
          | succ j =>
            simp only [List.getD_cons_succ]
            exact ih2 j (by simp only at hj; omega)
        · intro hf
          simp only at hf
          obtain ⟨ha, hb⟩ := ih3 hf
          simp only [List.length_cons, List.getD_cons_succ]
          exact ⟨by omega, hb⟩
        · intro hf hlt
          simp only at hf
          simp only [List.length_cons] at hlt
          simp only [List.getD_cons_succ]
          exact ih4 hf (by omega)
      · have h3 : obj < k := by omega
        rw [searchGo, if_neg h1, if_neg h2]
        simp [h3]

/-- On a strictly sorted key list, the scan succeeds iff the key is
present. -/
theorem searchGo_found_iff_mem (obj : Nat) (ks : List Nat)
    (hs : ks.Pairwise (· < ·)) : (searchGo obj ks 0).1 = true ↔ obj ∈ ks := by
  constructor
  · intro hf
    obtain ⟨ha, hb⟩ := (searchGo_props obj ks).2.2.1 hf
    rw [← hb, List.getD_eq_getElem _ _ ha]
    exact List.getElem_mem ha
  · intro hm
    by_contra hf
    have hf' : (searchGo obj ks 0).1 = false := by
      cases hr : (searchGo obj ks 0).1
      · rfl
      · exact absurd hr hf
    obtain ⟨h1, h2, -, h4⟩ := searchGo_props obj ks
    obtain ⟨j, hj, hjv⟩ := List.getElem_of_mem hm
    by_cases hcmp : j < (searchGo obj ks 0).2
    · have := h2 j hcmp
      rw [List.getD_eq_getElem _ _ hj] at this
      omega
    · by_cases hlen : (searchGo obj ks 0).2 < ks.length
      · have hgt := h4 hf' hlen
        rw [List.getD_eq_getElem _ _ hlen] at hgt
        have hlt : ks[(searchGo obj ks 0).2] < ks[j] ∨
            (searchGo obj ks 0).2 = j := by
          rcases Nat.lt_or_ge (searchGo obj ks 0).2 j with hc | hc
          · exact Or.inl (List.pairwise_iff_getElem.mp hs _ _ hlen hj hc)
          · exact Or.inr (by omega)
        rcases hlt with hc | hc
        · omega
        · subst hc; omega
      · omega

/-! ## Correctness of `contains` -/

theorem containsGo_leaf_eq (ks : List Nat) (obj : Nat) :
    containsGo (.leaf ks) obj = (searchGo obj ks 0).1 := by
  rw [containsGo]

theorem containsGo_internal_eq (ks : List Nat) (cs : List Node) (obj : Nat) :
    containsGo (.internal ks cs) obj =
      (match searchGo obj ks 0 with
       | (true, _) => true
       | (false, index) => containsGo (cs.getD index (.leaf [])) obj) := by
  rw [containsGo]

/-- A separator key is in the in-order list. -/
theorem getD_mem_inorder {ks : List Nat} {cs : List Node}
    (hlen : cs.length = ks.length + 1) {i : Nat} (hi2 : i < ks.length) :
    ks.getD i 0 ∈ inorder cs ks := by
  rw [inorder_key_decomp cs ks hlen i hi2]
  simp

/-- `__contains__`'s walk returns exactly membership of the in-order list,
on any valid subtree. -/
theorem containsGo_wfN {mk : Nat} (hmk : 1 ≤ mk) :
    ∀ (h : Nat) {lo hi : Option Nat} {n : Node} {obj : Nat},
    wfN mk h lo hi n = true → containsGo n obj = decide (obj ∈ n.toList) := by
  intro h
  induction h with
  | zero =>
    intro lo hi n obj hwf
    cases n with
    | leaf ks =>
      rw [containsGo_leaf_eq, toList_leaf]
      simp only [wfN_leaf, Bool.and_eq_true] at hwf
      have hsort := chainLt_pairwise hwf.2
      rcases hfound : (searchGo obj ks 0).1 with hf | hf
      · have : ¬ obj ∈ ks := by
          intro hm
          rw [← (searchGo_found_iff_mem obj ks hsort)] at hm
          rw [hfound] at hm
          exact Bool.noConfusion hm
        simp [this]
      · have : obj ∈ ks := (searchGo_found_iff_mem obj ks hsort).mp hfound
        simp [this]
    | internal ks cs => simp_all
  | succ h ih =>
    intro lo hi n obj hwf
    cases n with
    | leaf ks =>
      rw [containsGo_leaf_eq, toList_leaf]
      simp only [wfN_leaf, Bool.and_eq_true] at hwf
      have hsort := chainLt_pairwise hwf.2
      rcases hfound : (searchGo obj ks 0).1 with hf | hf
      · have : ¬ obj ∈ ks := by
          intro hm
          rw [← (searchGo_found_iff_mem obj ks hsort)] at hm
          rw [hfound] at hm
          exact Bool.noConfusion hm
        simp [this]
      · have : obj ∈ ks := (searchGo_found_iff_mem obj ks hsort).mp hfound
        simp [this]
    | internal ks cs =>
      simp only [wfN_internal_succ, Bool.and_eq_true] at hwf
      obtain ⟨⟨⟨-, -⟩, hlen⟩, hcs⟩ := hwf
      have hlen' : cs.length = ks.length + 1 := by simpa using hlen
      rw [containsGo_internal_eq, toList_internal]
      obtain ⟨hle, hbefore, hfound, hnot⟩ := searchGo_props obj ks
      rcases hs : searchGo obj ks 0 with ⟨f, index⟩
      rw [hs] at hle hbefore hfound hnot
      cases f with
      | true =>
        simp only
        obtain ⟨ha, hb⟩ := hfound rfl
        have : obj ∈ inorder cs ks := by
          rw [← hb]
          exact getD_mem_inorder hlen' ha
        simp [this]
      | false =>
        simp only
        obtain ⟨A, B, hdec, -, hA, hB⟩ :=
          slot_decomp_pair hcs hlen' (Node.leaf []) index hle
        rw [ih (wfCs_getD hcs hlen' index hle), hdec]
        have hnA : obj ∉ A := hA obj (fun i hi2 => by simpa using hbefore i hi2)
        have hnB : obj ∉ B := hB obj (fun hlt => hnot rfl hlt)
        simp only [List.mem_append, decide_eq_decide]
        tauto

/-- Same statement for a valid root node. -/
theorem containsGo_wfTop {mk h : Nat} (hmk : 1 ≤ mk) {lo hi : Option Nat} {n : Node}
    {obj : Nat} (hwf : wfTop mk h lo hi n = true) :
    containsGo n obj = decide (obj ∈ n.toList) := by
  cases n with
  | leaf ks =>
    rw [containsGo_leaf_eq, toList_leaf]
    simp only [wfTop_leaf, Bool.and_eq_true] at hwf
    have hsort := chainLt_pairwise hwf.2
    rcases hfound : (searchGo obj ks 0).1 with hf | hf
    · have : ¬ obj ∈ ks := by
        intro hm
        rw [← (searchGo_found_iff_mem obj ks hsort)] at hm
        rw [hfound] at hm
        exact Bool.noConfusion hm
      simp [this]
    · have : obj ∈ ks := (searchGo_found_iff_mem obj ks hsort).mp hfound
      simp [this]
  | internal ks cs =>
    cases h with
    | zero => simp_all
    | succ h =>
      simp only [wfTop_internal, Bool.and_eq_true] at hwf
      obtain ⟨⟨⟨-, -⟩, hlen⟩, hcs⟩ := hwf
      have hlen' : cs.length = ks.length + 1 := by simpa using hlen
      rw [containsGo_internal_eq, toList_internal]
      obtain ⟨hle, hbefore, hfound, hnot⟩ := searchGo_props obj ks
      rcases hs : searchGo obj ks 0 with ⟨f, index⟩
      rw [hs] at hle hbefore hfound hnot
      cases f with
      | true =>
        simp only
        obtain ⟨ha, hb⟩ := hfound rfl
        have : obj ∈ inorder cs ks := by
          rw [← hb]
          exact getD_mem_inorder hlen' ha
        simp [this]
      | false =>
        simp only
        obtain ⟨A, B, hdec, -, hA, hB⟩ :=
          slot_decomp_pair hcs hlen' (Node.leaf []) index hle
        rw [containsGo_wfN hmk h (wfCs_getD hcs hlen' index hle), hdec]
        have hnA : obj ∉ A := hA obj (fun i hi2 => by simpa using hbefore i hi2)
        have hnB : obj ∉ B := hB obj (fun hlt => hnot rfl hlt)
        simp only [List.mem_append, decide_eq_decide]
        tauto

/-! ## List surgery identities for the in-order view -/

theorem insertIdx_eq_take_cons_drop {α : Type} (l : List α) (j : Nat) (a : α)
    (h : j ≤ l.length) : l.insertIdx j a = l.take j ++ a :: l.drop j := by
  induction l generalizing j with
  | nil =>
    have : j = 0 := by simpa using h
    subst this
    simp
  | cons x xs ih =>
    cases j with
    | zero => simp
    | succ j =>
      rw [List.insertIdx_succ_cons, ih j (by simpa using h)]
      simp

/-- Interleaving splits over append when children and keys are cut at the
same index. -/
theorem inorder_append (cs1 cs2 : List Node) (ks1 ks2 : List Nat)
    (h : cs1.length = ks1.length) :
    inorder (cs1 ++ cs2) (ks1 ++ ks2) = inorder cs1 ks1 ++ inorder cs2 ks2 := by
  induction cs1 generalizing ks1 with
  | nil =>
    cases ks1 with
    | nil => simp
    | cons k ks => simp at h
  | cons c cs ih =>
    cases ks1 with
    | nil => simp at h
    | cons k ks =>
      simp only [List.cons_append, inorder_cons_cons, ih ks (by simpa using h)]
      simp

/-- A child prepended to the tail of the tree's lists. -/
theorem inorder_cons_sfx (c : Node) (cs : List Node) (ks : List Nat) (j : Nat) :
    inorder (c :: cs.drop (j + 1)) (ks.drop j) = c.toList ++ sfxJ cs ks j := by
  by_cases hk : j < ks.length
  · rw [List.drop_eq_getElem_cons hk, sfxJ_of_lt hk, inorder_cons_cons,
      List.getD_eq_getElem _ _ hk]
  · rw [show ks.drop j = [] from List.drop_eq_nil_of_le (by omega),
      sfxJ_of_ge (by omega), inorder_cons_nil, List.append_nil]

/-- The in-order list around slot `j`, with concrete prefix and suffix. -/
theorem inorder_slot (cs : List Node) (ks : List Nat) (j : Nat)
    (hlen : cs.length = ks.length + 1) (hj : j ≤ ks.length) :
    inorder cs ks = inorder (cs.take j) (ks.take j)
      ++ (cs.getD j (.leaf [])).toList ++ sfxJ cs ks j := by
  conv_lhs => rw [← List.take_append_drop j cs, ← List.take_append_drop j ks]
  rw [inorder_append _ _ _ _ (by simp; omega)]
  rw [List.drop_eq_getElem_cons (by omega), List.getD_eq_getElem _ _ (by omega)]
  rw [inorder_cons_sfx, List.append_assoc]

/-- Same decomposition after replacing the child at slot `j`. -/
theorem inorder_slot_set (cs : List Node) (ks : List Nat) (j : Nat) (c' : Node)
    (hlen : cs.length = ks.length + 1) (hj : j ≤ ks.length) :
    inorder (cs.set j c') ks = inorder (cs.take j) (ks.take j)
      ++ c'.toList ++ sfxJ cs ks j := by
  rw [set_decomp cs j c' (by omega)]
  conv_lhs => rw [← List.take_append_drop j ks]
  rw [inorder_append _ _ _ _ (by simp; omega)]
  rw [inorder_cons_sfx, List.append_assoc]

/-- Same decomposition after splitting the child at slot `j` in place:
child replaced by its left half, promoted key and right half inserted. -/
theorem inorder_slot_splitins (cs : List Node) (ks : List Nat) (j : Nat)
    (l r : Node) (mid : Nat) (hlen : cs.length = ks.length + 1) (hj : j ≤ ks.length) :
    inorder ((cs.set j l).insertIdx (j + 1) r) (ks.insertIdx j mid) =
      inorder (cs.take j) (ks.take j)
        ++ (l.toList ++ mid :: r.toList) ++ sfxJ cs ks j := by
  have hXlen : (cs.take j ++ [l]).length = j + 1 := by
    simp
    omega
  have hins : ((cs.take j ++ [l]) ++ cs.drop (j + 1)).insertIdx (j + 1) r
      = (cs.take j ++ [l]) ++ r :: cs.drop (j + 1) := by
    rw [insertIdx_eq_take_cons_drop _ _ _ (by simp; omega)]
    rw [← hXlen, List.take_left, List.drop_left]
  rw [set_decomp cs j l (by omega)]
  rw [show cs.take j ++ l :: cs.drop (j + 1)
      = (cs.take j ++ [l]) ++ cs.drop (j + 1) by simp]
  rw [hins]
  rw [insertIdx_eq_take_cons_drop ks j mid (by omega)]
  rw [show (cs.take j ++ [l]) ++ r :: cs.drop (j + 1)
      = cs.take j ++ (l :: r :: cs.drop (j + 1)) by simp]
  rw [inorder_append _ _ _ _ (by simp; omega)]
  rw [inorder_cons_cons, inorder_cons_sfx]
  simp

/-- Keys strictly before slot `j` screen `obj` out of the slot prefix. -/
theorem not_mem_slot_take {mk h : Nat} {lo hi : Option Nat} {ks : List Nat}
    {cs : List Node} (hcs : wfCs mk h lo ks hi cs = true)
    (hlen : cs.length = ks.length + 1) {j : Nat} (hj : j ≤ ks.length) {obj : Nat}
    (hbefore : ∀ i, i < j → ks.getD i 0 < obj) :
    obj ∉ inorder (cs.take j) (ks.take j) := by
  cases j with
  | zero => simp
  | succ i =>
    have hik : i < ks.length := by omega
    have hident : inorder (cs.take (i + 1)) (ks.take (i + 1)) =
        inorder (cs.take (i + 1)) (ks.take i) ++ [ks.getD i 0] := by
      clear hcs hbefore hj
      induction cs generalizing ks i with
      | nil => simp at hlen
      | cons c cs2 ih =>
        cases ks with
        | nil => simp at hik
        | cons k ks2 =>
          cases i with
          | zero => simp
          | succ i2 =>
            simp only [List.take_succ_cons, inorder_cons_cons]
            rw [ih (by simpa using hlen) i2 (by simpa using hik)]
            simp
    rw [hident]
    intro hmem
    have hsplit := wfCs_split hcs hlen i hik
    have hchain := wfCs_chain hsplit.1
    rcases List.mem_append.mp hmem with hmem2 | hmem2
    · have hb := (chainLt_mem_bounds hchain hmem2).2
      simp only [optLt_some_some, decide_eq_true_eq] at hb
      have := hbefore i (by omega)
      omega
    · have heq : obj = ks.getD i 0 := by simpa using hmem2
      have := hbefore i (by omega)
      omega

/-- The first key at or after slot `j` screens `obj` out of the slot
suffix. -/
theorem not_mem_sfxJ {mk h : Nat} {lo hi : Option Nat} {ks : List Nat}
    {cs : List Node} (hcs : wfCs mk h lo ks hi cs = true)
    (hlen : cs.length = ks.length + 1) {j : Nat} {obj : Nat}
    (hafter : j < ks.length → obj < ks.getD j 0) :
    obj ∉ sfxJ cs ks j := by
  by_cases hk : j < ks.length
  · rw [sfxJ_of_lt hk]
    intro hmem
    have hsplit := wfCs_split hcs hlen j hk
    have hchain := wfCs_chain hsplit.2
    rcases List.mem_cons.mp hmem with rfl | hmem2
    · exact absurd (hafter hk) (by omega)
    · have hb := (chainLt_mem_bounds hchain (by simpa using hmem2)).1
      simp only [optLt_some_some, decide_eq_true_eq] at hb
      have := hafter hk
      omega
  · rw [sfxJ_of_ge (by omega)]
    exact List.not_mem_nil obj

/-! ## The abstract sorted-set insert, and the `split` postconditions -/

/-- Set-semantics insertion into a sorted list: the specification the
B-tree's `add` is proved against. -/
def insertKey (obj : Nat) : List Nat → List Nat
  | [] => [obj]
  | k :: ks =>
      if obj < k then obj :: k :: ks
      else if obj = k then k :: ks
      else k :: insertKey obj ks

theorem mem_insertKey (obj x : Nat) (l : List Nat) :
    x ∈ insertKey obj l ↔ x = obj ∨ x ∈ l := by
  induction l with
  | nil => simp [insertKey]
  | cons k ks ih =>
    by_cases h1 : obj < k
    · simp [insertKey, h1]
    · by_cases h2 : obj = k
      · subst h2
        simp [insertKey, h1]
      · simp only [insertKey, if_neg h1, if_neg h2, List.mem_cons, ih]
        tauto

theorem length_insertKey_mem (obj : Nat) (l : List Nat) (hs : l.Pairwise (· < ·))
    (h : obj ∈ l) : (insertKey obj l).length = l.length := by
  induction l with
  | nil => cases h
  | cons k ks ih =>
    rcases List.mem_cons.mp h with rfl | h2
    · simp [insertKey]
    · have hk : k < obj := (List.pairwise_cons.mp hs).1 obj h2
      have h1 : ¬ obj < k := by omega
      have h3 : obj ≠ k := by omega
      simp [insertKey, h1, h3, ih (List.pairwise_cons.mp hs).2 h2]

theorem length_insertKey_not_mem (obj : Nat) (l : List Nat) (h : obj ∉ l) :
    (insertKey obj l).length = l.length + 1 := by
  induction l with
  | nil => simp [insertKey]
  | cons k ks ih =>
    have h2 : obj ≠ k := fun hc => h (hc ▸ List.mem_cons_self k ks)
    by_cases h1 : obj < k
    · simp [insertKey, h1]
    · simp [insertKey, h1, h2, ih (fun hc => h (List.mem_cons_of_mem _ hc))]

theorem chainLt_insertKey {lo hi : Option Nat} {l : List Nat} {obj : Nat}
    (h : chainLt lo l hi = true) (h1 : optLt lo (some obj) = true)
    (h2 : optLt (some obj) hi = true) : chainLt lo (insertKey obj l) hi = true := by
  induction l generalizing lo with
  | nil => simp [insertKey, h1, h2]
  | cons k ks ih =>
    simp only [chainLt_cons, Bool.and_eq_true] at h
    by_cases hc1 : obj < k
    · simp only [insertKey, if_pos hc1, chainLt_cons, Bool.and_eq_true]
      exact ⟨h1, by simpa using hc1, h.2⟩
    · by_cases hc2 : obj = k
      · simp only [insertKey, if_neg hc1, if_pos hc2, chainLt_cons, Bool.and_eq_true]
        exact h
      · simp only [insertKey, if_neg hc1, if_neg hc2, chainLt_cons, Bool.and_eq_true]
        exact ⟨h.1, ih h.2 (by simp; omega)⟩

/-- Positional insertion at the slot the search reports coincides with
sorted-set insertion. -/
theorem insertIdx_eq_insertKey {lo hi : Option Nat} {ks : List Nat} {a : Nat}
    (hch : chainLt lo ks hi = true) :
    ∀ j, j ≤ ks.length → (∀ i, i < j → ks.getD i 0 < a) →
      (j < ks.length → a < ks.getD j 0) → ks.insertIdx j a = insertKey a ks := by
  induction ks generalizing lo with
  | nil =>
    intro j hj _ _
    have : j = 0 := by simpa using hj
    subst this
    simp [insertKey]
  | cons k ks2 ih =>
    intro j hj hbefore hafter
    simp only [chainLt_cons, Bool.and_eq_true] at hch
    cases j with
    | zero =>
      have hak : a < k := by simpa using hafter (by simp)
      simp [insertKey, hak]
    | succ i =>
      have hka : k < a := by simpa using hbefore 0 (by omega)
      rw [List.insertIdx_succ_cons]
      rw [ih hch.2 i (by simpa using hj)
        (fun m hm => by simpa using hbefore (m + 1) (by omega))
        (fun hm => by simpa using hafter (by simpa using hm))]
      simp only [insertKey]
      rw [if_neg (by omega), if_neg (by omega)]

/-- A key above the slot's lower `tempkey` is above the segment's lower
bound. -/
theorem optLt_lo_of_tA {lo hi : Option Nat} {ks : List Nat} {x : Nat}
    (hch : chainLt lo ks hi = true) {j : Nat} (hj : j ≤ ks.length)
    (h : optLt (tA lo ks j) (some x) = true) : optLt lo (some x) = true := by
  cases j with
  | zero => exact h
  | succ i =>
    simp only [tA_succ] at h
    have hmem : ks.getD i 0 ∈ ks := by
      rw [List.getD_eq_getElem _ _ (by omega)]
      exact List.getElem_mem (by omega)
    have := (chainLt_mem_bounds hch hmem).1
    cases lo with
    | none => simp
    | some a =>
      simp only [optLt_some_some, decide_eq_true_eq] at this h ⊢
      omega

/-- A key below the slot's upper `tempkey` is below the segment's upper
bound. -/
theorem optLt_hi_of_tB {lo hi : Option Nat} {ks : List Nat} {x : Nat}
    (hch : chainLt lo ks hi = true) {j : Nat}
    (h : optLt (some x) (tB ks hi j) = true) : optLt (some x) hi = true := by
  by_cases hk : j < ks.length
  · rw [tB, if_pos hk] at h
    have hmem : ks.getD j 0 ∈ ks := by
      rw [List.getD_eq_getElem _ _ (by omega)]
      exact List.getElem_mem (by omega)
    have := (chainLt_mem_bounds hch hmem).2
    cases hi with
    | none => simp
    | some b =>
      simp only [optLt_some_some, decide_eq_true_eq] at this h ⊢
      omega
  · rwa [tB, if_neg hk] at h

theorem insertIdx_set_self {α : Type} :
    ∀ (l : List α) (j : Nat) (a b : α), j ≤ l.length →
      (l.insertIdx j a).set j b = l.insertIdx j b := by
  intro l
  induction l with
  | nil =>
    intro j a b h
    have : j = 0 := by simpa using h
    subst this
    simp
  | cons x xs ih =>
    intro j a b h
    cases j with
    | zero => simp
    | succ j =>
      rw [List.insertIdx_succ_cons, List.insertIdx_succ_cons, List.set_cons_succ,
        ih j a b (by simpa using h)]

theorem set_insertIdx_comm {α : Type} :
    ∀ (l : List α) (j : Nat) (a b c : α), j < l.length →
      ((l.set j a).insertIdx (j + 1) b).set j c = (l.set j c).insertIdx (j + 1) b := by
  intro l
  induction l with
  | nil => intro j a b c h; simp at h
  | cons x xs ih =>
    intro j a b c h
    cases j with
    | zero => simp
    | succ j =>
      simp only [List.set_cons_succ, List.insertIdx_succ_cons]
      rw [ih j a b c (by simpa using h)]

/-- `split` postconditions on a full valid node: both halves are valid with
the promoted median as shared bound, and the in-order list splits around
the median. -/
theorem splitNode_spec {mk h : Nat} {lo hi : Option Nat} {n : Node} (hmk : 1 ≤ mk)
    (hw : wfN mk h lo hi n = true) (hfull : n.keys.length = 2 * mk + 1) :
    wfN mk h lo (some (splitNode mk n).2.1) (splitNode mk n).1 = true ∧
    wfN mk h (some (splitNode mk n).2.1) hi (splitNode mk n).2.2 = true ∧
    n.toList = (splitNode mk n).1.toList ++ (splitNode mk n).2.1
      :: (splitNode mk n).2.2.toList := by
  cases n with
  | leaf ks =>
    simp only [keys_leaf] at hfull
    have hmklt : mk < ks.length := by omega
    cases h with
    | zero =>
      simp only [wfN_leaf, Bool.and_eq_true] at hw
      have hdec := getD_decomp ks mk 0 hmklt
      have hch : chainLt lo (ks.take mk ++ ks.getD mk 0 :: ks.drop (mk + 1)) hi
          = true := by rw [← hdec]; exact hw.2
      rw [chainLt_append_iff] at hch
      simp only [splitNode, toList_leaf, wfN_leaf, Bool.and_eq_true,
        decide_eq_true_eq, beq_iff_eq, List.length_take, List.length_drop]
      refine ⟨⟨⟨⟨by trivial, by omega⟩, by omega⟩, hch.1⟩,
        ⟨⟨⟨by trivial, by omega⟩, by omega⟩, hch.2⟩, ?tl⟩
      conv_lhs => rw [hdec]
    | succ h2 => simp at hw
  | internal ks cs =>
    cases h with
    | zero => simp at hw
    | succ h2 =>
      simp only [wfN_internal_succ, Bool.and_eq_true, keys_internal] at hw hfull
      obtain ⟨⟨⟨hk1, hk2⟩, hlen⟩, hcs⟩ := hw
      have hlen' : cs.length = ks.length + 1 := by simpa using hlen
      simp only [decide_eq_true_eq] at hk1 hk2
      have hmklt : mk < ks.length := by omega
      have hsplit := wfCs_split hcs hlen' mk hmklt
      simp only [splitNode, wfN_internal_succ, Bool.and_eq_true, toList_internal,
        keys_internal, children_internal, decide_eq_true_eq, beq_iff_eq,
        List.length_take, List.length_drop]
      refine ⟨⟨⟨⟨by omega, by omega⟩, by omega⟩, hsplit.1⟩,
        ⟨⟨⟨by omega, by omega⟩, by omega⟩, hsplit.2⟩, ?tl2⟩
      exact inorder_key_decomp cs ks hlen' mk hmklt

/-- Splitting the child at slot `j` in place preserves validity of the
children segment: the promoted key joins the separators and the two valid
halves replace the child. -/
theorem wfCs_split_child {mk hh : Nat} {lo hi : Option Nat} {ks : List Nat}
    {cs : List Node} (hcs : wfCs mk hh lo ks hi cs = true)
    (hlen : cs.length = ks.length + 1) :
    ∀ j, j ≤ ks.length → ∀ {l r : Node} {mid : Nat},
    wfN mk hh (tA lo ks j) (some mid) l = true →
    wfN mk hh (some mid) (tB ks hi j) r = true →
    wfCs mk hh lo (ks.insertIdx j mid) hi ((cs.set j l).insertIdx (j + 1) r) = true := by
  induction cs generalizing lo ks with
  | nil => cases ks <;> simp_all
  | cons c cs2 ihc =>
    intro j hj l r mid hl hr
    cases ks with
    | nil =>
      cases cs2 with
      | nil =>
        have hj0 : j = 0 := by simpa using hj
        subst hj0
        simp only [tA_zero, tB, List.length_nil, Nat.lt_irrefl, if_neg, if_false] at hl hr
        simp only [List.set_cons_zero, List.insertIdx_zero, List.insertIdx_succ_cons,
          List.insertIdx_zero, wfCs_cons_cons, wfCs_nil_single, Bool.and_eq_true]
        exact ⟨hl, hr⟩
      | cons _ _ => simp at hcs
    | cons k ks2 =>
      simp only [wfCs_cons_cons, Bool.and_eq_true] at hcs
      cases j with
      | zero =>
        simp only [tA_zero, tB, List.length_cons, Nat.succ_pos, if_pos,
          List.getD_cons_zero] at hl hr
        simp only [List.set_cons_zero, List.insertIdx_zero, List.insertIdx_succ_cons,
          List.insertIdx_zero, wfCs_cons_cons, Bool.and_eq_true]
        exact ⟨hl, hr, hcs.2⟩
      | succ j =>
        rw [tA_cons_succ] at hl
        rw [tB_cons_succ] at hr
        simp only [List.length_cons] at hlen hj
        simp only [List.set_cons_succ, List.insertIdx_succ_cons, wfCs_cons_cons,
          Bool.and_eq_true]
        exact ⟨hcs.1, ihc hcs.2 (by omega) j (by omega) hl hr⟩

theorem chain_getD_lt_getD {lo hi : Option Nat} {ks : List Nat}
    (hch : chainLt lo ks hi = true) {i j : Nat} (hij : i < j) (hj : j < ks.length) :
    ks.getD i 0 < ks.getD j 0 := by
  rw [List.getD_eq_getElem _ _ (by omega), List.getD_eq_getElem _ _ hj]
  exact List.pairwise_iff_getElem.mp (chainLt_pairwise hch) _ _ (by omega) hj hij

theorem optLt_tA_obj {lo : Option Nat} {ks : List Nat} {obj j : Nat}
    (hbefore : ∀ i, i < j → ks.getD i 0 < obj) (h1 : optLt lo (some obj) = true) :
    optLt (tA lo ks j) (some obj) = true := by
  cases j with
  | zero => exact h1
  | succ i => simpa using hbefore i (by omega)

theorem optLt_obj_tB {hi : Option Nat} {ks : List Nat} {obj j : Nat}
    (hafter : j < ks.length → obj < ks.getD j 0) (h2 : optLt (some obj) hi = true) :
    optLt (some obj) (tB ks hi j) = true := by
  rw [tB]
  by_cases hk : j < ks.length
  · rw [if_pos hk]
    simpa using hafter hk
  · rwa [if_neg hk]

theorem splitNode_keys_len (mk : Nat) (n : Node) (hfull : n.keys.length = 2 * mk + 1) :
    (splitNode mk n).1.keys.length = mk ∧ (splitNode mk n).2.2.keys.length = mk := by
  cases n with
  | leaf ks =>
    simp only [keys_leaf] at hfull
    simp [splitNode, List.length_take, List.length_drop]
    omega
  | internal ks cs =>
    simp only [keys_internal] at hfull
    simp [splitNode, List.length_take, List.length_drop]
    omega

/-- A valid node's height is exactly the parameter `h`. -/
theorem wfN_height {mk : Nat} : ∀ (h : Nat) {lo hi : Option Nat} {n : Node},
    wfN mk h lo hi n = true → n.height = h := by
  intro h
  induction h with
  | zero =>
    intro lo hi n hwf
    cases n with
    | leaf ks => simp
    | internal ks cs => simp_all
  | succ h ih =>
    intro lo hi n hwf
    cases n with
    | leaf ks => simp_all
    | internal ks cs =>
      simp only [wfN_internal_succ, Bool.and_eq_true] at hwf
      obtain ⟨⟨⟨-, -⟩, hlen⟩, hcs⟩ := hwf
      simp only [height_internal, Nat.add_left_inj]
      clear hlen
      induction cs generalizing lo ks with
      | nil => cases ks <;> simp_all
      | cons c cs2 ihc =>
        cases ks with
        | nil =>
          cases cs2 with
          | nil =>
            simp only [wfCs_nil_single] at hcs
            simp [ih hcs]
          | cons _ _ => simp_all
        | cons k ks2 =>
          simp only [wfCs_cons_cons, Bool.and_eq_true] at hcs
          simp only [heightL_cons]
          rw [ih hcs.1, ihc _ hcs.2]
          simp

/-- Same for a valid top node. -/
theorem wfTop_height {mk h : Nat} {lo hi : Option Nat} {n : Node}
    (hwf : wfTop mk h lo hi n = true) : n.height = h := by
  cases n with
  | leaf ks =>
    simp only [wfTop_leaf, Bool.and_eq_true, beq_iff_eq] at hwf
    simp [hwf.1.1]
  | internal ks cs =>
    cases h with
    | zero => simp_all
    | succ h2 =>
      simp only [wfTop_internal, Bool.and_eq_true] at hwf
      have hcs := hwf.2
      simp only [height_internal, Nat.add_left_inj]
      clear hwf
      induction cs generalizing lo ks with
      | nil => cases ks <;> simp_all
      | cons c cs2 ihc =>
        cases ks with
        | nil =>
          cases cs2 with
          | nil =>
            simp only [wfCs_nil_single] at hcs
            simp [wfN_height _ hcs]
          | cons _ _ => simp_all
        | cons k ks2 =>
          simp only [wfCs_cons_cons, Bool.and_eq_true] at hcs
          simp only [heightL_cons]
          rw [wfN_height _ hcs.1, ihc _ hcs.2]
          simp

/-! ## Correctness of `add` -/

theorem addGo_leaf_eq (mk : Nat) (ks : List Nat) (obj : Nat) :
    addGo mk (.leaf ks) obj =
      (if (searchGo obj ks 0).1 then ((.leaf ks : Node), false)
       else (.leaf (ks.insertIdx (searchGo obj ks 0).2 obj), true)) := by
  rw [addGo]

/-- `addGo` on a leaf: postconditions of the walk-down insertion. -/
theorem addGo_spec_leaf {mk : Nat} (hmk : 1 ≤ mk) {h : Nat} {lo hi : Option Nat}
    {ks : List Nat} {obj : Nat} (hwf : wfTop mk h lo hi (.leaf ks) = true)
    (hlt : ks.length < 2 * mk + 1) (h1 : optLt lo (some obj) = true)
    (h2 : optLt (some obj) hi = true) :
    wfTop mk h lo hi (addGo mk (.leaf ks) obj).1 = true ∧
    ks.length ≤ (addGo mk (.leaf ks) obj).1.keys.length ∧
    ((addGo mk (.leaf ks) obj).2 = true ↔ obj ∉ (Node.leaf ks).toList) ∧
    (∀ x, x ∈ (addGo mk (.leaf ks) obj).1.toList ↔ x = obj ∨ x ∈ (Node.leaf ks).toList) := by
  simp only [wfTop_leaf, Bool.and_eq_true, beq_iff_eq, decide_eq_true_eq] at hwf
  obtain ⟨⟨hh0, hklen⟩, hch⟩ := hwf
  have hsort := chainLt_pairwise hch
  rw [addGo_leaf_eq]
  rcases hfound : (searchGo obj ks 0).1 with hf | hf
  · -- not found: insert at the reported slot
    rw [if_neg (by simp)]
    obtain ⟨hle, hbefore, -, hnot⟩ := searchGo_props obj ks
    have hnotmem : obj ∉ ks := by
      intro hm
      rw [← searchGo_found_iff_mem obj ks hsort, hfound] at hm
      exact Bool.noConfusion hm
    have hins : ks.insertIdx (searchGo obj ks 0).2 obj = insertKey obj ks :=
      insertIdx_eq_insertKey hch _ hle hbefore (hnot hfound)
    rw [hins]
    refine ⟨?hwfA, ?hlenA, ?hbA, ?hmA⟩
    · simp only [wfTop_leaf, Bool.and_eq_true, beq_iff_eq, decide_eq_true_eq]
      exact ⟨⟨hh0, by rw [length_insertKey_not_mem obj ks hnotmem]; omega⟩,
        chainLt_insertKey hch h1 h2⟩
    · simp only [keys_leaf]
      rw [length_insertKey_not_mem obj ks hnotmem]
      omega
    · simpa using hnotmem
    · intro x
      simpa using mem_insertKey obj x ks
  · -- found: the key exists, nothing changes
    rw [if_pos (by simp)]
    have hmem : obj ∈ ks := (searchGo_found_iff_mem obj ks hsort).mp hfound
    refine ⟨?hwfB, by simp, ?hbB, ?hmB⟩
    · simp only [wfTop_leaf, Bool.and_eq_true, beq_iff_eq, decide_eq_true_eq]
      exact ⟨⟨hh0, by omega⟩, hch⟩
    · simpa using hmem
    · intro x
      simp only [toList_leaf]
      constructor
      · exact Or.inr
      · rintro (rfl | hx)
        · exact hmem
        · exact hx

theorem addGo_internal_found {mk : Nat} {ks : List Nat} {cs : List Node} {obj : Nat}
    (hf : (searchGo obj ks 0).1 = true) :
    addGo mk (.internal ks cs) obj = (.internal ks cs, false) := by
  rw [addGo]
  simp [hf]

theorem addGo_internal_notfull {mk : Nat} {ks : List Nat} {cs : List Node} {obj : Nat}
    (hf : (searchGo obj ks 0).1 = false)
    (hfull : ¬ (cs.getD (searchGo obj ks 0).2 (.leaf [])).keys.length = 2 * mk + 1) :
    addGo mk (.internal ks cs) obj =
      (.internal ks (cs.set (searchGo obj ks 0).2
          (addGo mk (cs.getD (searchGo obj ks 0).2 (.leaf [])) obj).1),
       (addGo mk (cs.getD (searchGo obj ks 0).2 (.leaf [])) obj).2) := by
  rw [List.getD_eq_getElem?_getD] at hfull
  rw [addGo]
  simp [hf, hfull]

theorem addGo_internal_split_mid {mk : Nat} {ks : List Nat} {cs : List Node} {obj : Nat}
    (hf : (searchGo obj ks 0).1 = false)
    (hfull : (cs.getD (searchGo obj ks 0).2 (.leaf [])).keys.length = 2 * mk + 1)
    (heq : obj = (splitNode mk (cs.getD (searchGo obj ks 0).2 (.leaf []))).2.1) :
    addGo mk (.internal ks cs) obj =
      (.internal
        (ks.insertIdx (searchGo obj ks 0).2
          (splitNode mk (cs.getD (searchGo obj ks 0).2 (.leaf []))).2.1)
        ((cs.set (searchGo obj ks 0).2
            (splitNode mk (cs.getD (searchGo obj ks 0).2 (.leaf []))).1).insertIdx
          ((searchGo obj ks 0).2 + 1)
          (splitNode mk (cs.getD (searchGo obj ks 0).2 (.leaf []))).2.2), false) := by
  rw [List.getD_eq_getElem?_getD] at hfull heq
  rw [addGo]
  simp [hf, hfull, if_pos heq]

theorem addGo_internal_split_right {mk : Nat} {ks : List Nat} {cs : List Node} {obj : Nat}
    (hf : (searchGo obj ks 0).1 = false)
    (hfull : (cs.getD (searchGo obj ks 0).2 (.leaf [])).keys.length = 2 * mk + 1)
    (hne : obj ≠ (splitNode mk (cs.getD (searchGo obj ks 0).2 (.leaf []))).2.1)
    (hgt : obj > (splitNode mk (cs.getD (searchGo obj ks 0).2 (.leaf []))).2.1) :
    addGo mk (.internal ks cs) obj =
      (.internal
        (ks.insertIdx (searchGo obj ks 0).2
          (splitNode mk (cs.getD (searchGo obj ks 0).2 (.leaf []))).2.1)
        (((cs.set (searchGo obj ks 0).2
            (splitNode mk (cs.getD (searchGo obj ks 0).2 (.leaf []))).1).insertIdx
          ((searchGo obj ks 0).2 + 1)
          (splitNode mk (cs.getD (searchGo obj ks 0).2 (.leaf []))).2.2).set
            ((searchGo obj ks 0).2 + 1)
            (addGo mk (splitNode mk (cs.getD (searchGo obj ks 0).2 (.leaf []))).2.2 obj).1),
       (addGo mk (splitNode mk (cs.getD (searchGo obj ks 0).2 (.leaf []))).2.2 obj).2) := by
  rw [List.getD_eq_getElem?_getD] at hfull hne hgt
  rw [addGo]
  simp [hf, hfull, hne, hgt]

theorem addGo_internal_split_left {mk : Nat} {ks : List Nat} {cs : List Node} {obj : Nat}
    (hf : (searchGo obj ks 0).1 = false)
    (hfull : (cs.getD (searchGo obj ks 0).2 (.leaf [])).keys.length = 2 * mk + 1)
    (hne : obj ≠ (splitNode mk (cs.getD (searchGo obj ks 0).2 (.leaf []))).2.1)
    (hng : ¬ obj > (splitNode mk (cs.getD (searchGo obj ks 0).2 (.leaf []))).2.1) :
    addGo mk (.internal ks cs) obj =
      (.internal
        (ks.insertIdx (searchGo obj ks 0).2
          (splitNode mk (cs.getD (searchGo obj ks 0).2 (.leaf []))).2.1)
        (((cs.set (searchGo obj ks 0).2
            (splitNode mk (cs.getD (searchGo obj ks 0).2 (.leaf []))).1).insertIdx
          ((searchGo obj ks 0).2 + 1)
          (splitNode mk (cs.getD (searchGo obj ks 0).2 (.leaf []))).2.2).set
            (searchGo obj ks 0).2
            (addGo mk (splitNode mk (cs.getD (searchGo obj ks 0).2 (.leaf []))).1 obj).1),
       (addGo mk (splitNode mk (cs.getD (searchGo obj ks 0).2 (.leaf []))).1 obj).2) := by
  rw [List.getD_eq_getElem?_getD] at hfull hne hng
  rw [addGo]
  simp [hf, hfull, hne, hng]

/-- A valid node's key count is between `mk` and `2*mk+1`. -/
theorem wfN_keys_le {mk h : Nat} {lo hi : Option Nat} {n : Node}
    (h1 : wfN mk h lo hi n = true) :
    mk ≤ n.keys.length ∧ n.keys.length ≤ 2 * mk + 1 := by
  cases n with
  | leaf ks =>
    simp only [wfN_leaf, Bool.and_eq_true, decide_eq_true_eq, beq_iff_eq] at h1
    exact ⟨h1.1.1.2, h1.1.2⟩
  | internal ks cs =>
    cases h with
    | zero => simp at h1
    | succ h2 =>
      simp only [wfN_internal_succ, Bool.and_eq_true, decide_eq_true_eq,
        beq_iff_eq] at h1
      exact ⟨h1.1.1.1, h1.1.1.2⟩

theorem getD_insertIdx_self : ∀ (l : List Nat) (j : Nat) (a : Nat), j ≤ l.length →
    (l.insertIdx j a).getD j 0 = a := by
  intro l
  induction l with
  | nil =>
    intro j a h
    have hj : j = 0 := by simpa using h
    subst hj
    simp
  | cons x xs ih =>
    intro j a h
    cases j with
    | zero => simp
    | succ j =>
      rw [List.insertIdx_succ_cons, List.getD_cons_succ]
      exact ih j a (by simpa using h)

theorem getD_insertIdx_succ_self : ∀ (l : List Nat) (j : Nat) (a : Nat), j ≤ l.length →
    (l.insertIdx j a).getD (j + 1) 0 = l.getD j 0 := by
  intro l
  induction l with
  | nil =>
    intro j a h
    have hj : j = 0 := by simpa using h
    subst hj
    simp
  | cons x xs ih =>
    intro j a h
    cases j with
    | zero => simp
    | succ j =>
      rw [List.insertIdx_succ_cons, List.getD_cons_succ, List.getD_cons_succ]
      exact ih j a (by simpa using h)

theorem getD_insertIdx_lt : ∀ (l : List Nat) (j i : Nat) (a : Nat), i < j →
    j ≤ l.length → (l.insertIdx j a).getD i 0 = l.getD i 0 := by
  intro l
  induction l with
  | nil =>
    intro j i a hij h
    have hj : j = 0 := by simpa using h
    exact absurd hij (by omega)
  | cons x xs ih =>
    intro j i a hij h
    cases j with
    | zero => exact absurd hij (by omega)
    | succ j =>
      rw [List.insertIdx_succ_cons]
      cases i with
      | zero => simp
      | succ i =>
        rw [List.getD_cons_succ, List.getD_cons_succ]
        exact ih j i a (by omega) (by simpa using h)

theorem length_insertIdx_of_le {α : Type} (l : List α) (j : Nat) (a : α)
    (h : j ≤ l.length) : (l.insertIdx j a).length = l.length + 1 := by
  rw [insertIdx_eq_take_cons_drop _ _ _ h]
  rw [List.length_append, List.length_take, List.length_cons, List.length_drop]
  omega

/-- After inserting a separator at slot `j`, the lower `tempkey` of slot
`j+1` is that separator. -/
theorem tA_insertIdx_succ (lo : Option Nat) (ks : List Nat) (j mid : Nat)
    (h : j ≤ ks.length) : tA lo (ks.insertIdx j mid) (j + 1) = some mid := by
  rw [tA_succ, getD_insertIdx_self _ _ _ h]

/-- After inserting a separator at slot `j`, the upper `tempkey` of slot
`j+1` is the old upper `tempkey` of slot `j`. -/
theorem tB_insertIdx_succ (ks : List Nat) (hi : Option Nat) (j mid : Nat)
    (h : j ≤ ks.length) : tB (ks.insertIdx j mid) hi (j + 1) = tB ks hi j := by
  have hl := length_insertIdx_of_le ks j mid h
  rw [tB, tB]
  by_cases hk : j < ks.length
  · rw [if_pos (by omega), if_pos hk, getD_insertIdx_succ_self _ _ _ h]
  · rw [if_neg (by omega), if_neg hk]

/-- After inserting a separator at slot `j`, the lower `tempkey` of slot
`j` is unchanged. -/
theorem tA_insertIdx_eq (lo : Option Nat) (ks : List Nat) (j mid : Nat)
    (h : j ≤ ks.length) : tA lo (ks.insertIdx j mid) j = tA lo ks j := by
  cases j with
  | zero => simp
  | succ i =>
    rw [tA_succ, tA_succ, getD_insertIdx_lt _ _ _ _ (by omega) (by omega)]

/-- After inserting a separator at slot `j`, the upper `tempkey` of slot
`j` is that separator. -/
theorem tB_insertIdx_self (ks : List Nat) (hi : Option Nat) (j mid : Nat)
    (h : j ≤ ks.length) : tB (ks.insertIdx j mid) hi j = some mid := by
  have hl := length_insertIdx_of_le ks j mid h
  rw [tB, if_pos (by omega), getD_insertIdx_self _ _ _ h]

theorem ins_left_prop {a l m r b o lx : Prop} (h : lx ↔ (o ∨ l)) :
    ((a ∨ (lx ∨ (m ∨ r))) ∨ b) ↔ (o ∨ ((a ∨ (l ∨ (m ∨ r))) ∨ b)) := by tauto

theorem ins_right_prop {a l m r b o rx : Prop} (h : rx ↔ (o ∨ r)) :
    ((a ∨ (l ∨ (m ∨ rx))) ∨ b) ↔ (o ∨ ((a ∨ (l ∨ (m ∨ r))) ∨ b)) := by tauto

theorem ins_mid_prop {a c b o cx : Prop} (h : cx ↔ (o ∨ c)) :
    ((a ∨ cx) ∨ b) ↔ (o ∨ ((a ∨ c) ∨ b)) := by tauto

theorem notmem_right_prop {a l m r b : Prop} (ha : ¬a) (hb : ¬b) (hl : ¬l) (hm : ¬m) :
    (¬r) ↔ ¬((a ∨ (l ∨ (m ∨ r))) ∨ b) := by tauto

theorem notmem_left_prop {a l m r b : Prop} (ha : ¬a) (hb : ¬b) (hr : ¬r) (hm : ¬m) :
    (¬l) ↔ ¬((a ∨ (l ∨ (m ∨ r))) ∨ b) := by tauto

set_option maxHeartbeats 1600000 in
/-- Full correctness of the `add` walk-down on a valid non-full node:
validity at the same height and bounds is preserved, the key count does
not shrink, the returned flag reports whether the key was new, and the
in-order key set gains exactly `obj`. -/
theorem addGo_spec {mk : Nat} (hmk : 1 ≤ mk) :
    ∀ (h : Nat) {lo hi : Option Nat} {n : Node} {obj : Nat},
    wfTop mk h lo hi n = true → n.keys.length < 2 * mk + 1 →
    optLt lo (some obj) = true → optLt (some obj) hi = true →
    wfTop mk h lo hi (addGo mk n obj).1 = true ∧
    n.keys.length ≤ (addGo mk n obj).1.keys.length ∧
    ((addGo mk n obj).2 = true ↔ obj ∉ n.toList) ∧
    (∀ x, x ∈ (addGo mk n obj).1.toList ↔ x = obj ∨ x ∈ n.toList) := by
  intro h
  induction h with
  | zero =>
    intro lo hi n obj hwf hlt h1 h2
    cases n with
    | leaf ks => exact addGo_spec_leaf hmk hwf hlt h1 h2
    | internal ks cs => simp at hwf
  | succ h ih =>
    intro lo hi n obj hwf hlt h1 h2
    cases n with
    | leaf ks => simp at hwf
    | internal ks cs =>
      have hwf0 := hwf
      simp only [wfTop_internal, Bool.and_eq_true, decide_eq_true_eq, beq_iff_eq] at hwf
      obtain ⟨⟨⟨hk1, hk2⟩, hlen0⟩, hcs⟩ := hwf
      have hlen : cs.length = ks.length + 1 := hlen0
      simp only [keys_internal] at hlt
      obtain ⟨hle, hbefore, hfoundP, hnotP⟩ := searchGo_props obj ks
      have hjle : (searchGo obj ks 0).2 ≤ ks.length := hle
      rcases hfound : (searchGo obj ks 0).1 with hf | hf
      · -- not found among the separators: descend into slot `index`
        have hbnd1 : optLt (tA lo ks (searchGo obj ks 0).2) (some obj) = true :=
          optLt_tA_obj hbefore h1
        have hbnd2 : optLt (some obj) (tB ks hi (searchGo obj ks 0).2) = true :=
          optLt_obj_tB (hnotP hfound) h2
        have hwfc := wfCs_getD hcs hlen _ hjle
        have hdecomp := inorder_slot cs ks (searchGo obj ks 0).2 hlen hjle
        have hnotA := not_mem_slot_take hcs hlen hjle hbefore
        have hnotB := not_mem_sfxJ hcs hlen (hnotP hfound)
        by_cases hfull : (cs.getD (searchGo obj ks 0).2 (.leaf [])).keys.length
            = 2 * mk + 1
        · -- the child is full: split it before descending
          obtain ⟨hwl, hwr, htl⟩ := splitNode_spec hmk hwfc hfull
          obtain ⟨hlkl, hrkl⟩ := splitNode_keys_len mk _ hfull
          have hcs' := wfCs_split_child hcs hlen _ hjle hwl hwr
          have hkslen' := length_insertIdx_of_le ks (searchGo obj ks 0).2
            (splitNode mk (cs.getD (searchGo obj ks 0).2 (.leaf []))).2.1 hjle
          have hcslen' : ((cs.set (searchGo obj ks 0).2
              (splitNode mk (cs.getD (searchGo obj ks 0).2 (.leaf []))).1).insertIdx
              ((searchGo obj ks 0).2 + 1)
              (splitNode mk (cs.getD (searchGo obj ks 0).2 (.leaf []))).2.2).length
              = cs.length + 1 := by
            have h0 := length_insertIdx_of_le
              (cs.set (searchGo obj ks 0).2
                (splitNode mk (cs.getD (searchGo obj ks 0).2 (.leaf []))).1)
              ((searchGo obj ks 0).2 + 1)
              (splitNode mk (cs.getD (searchGo obj ks 0).2 (.leaf []))).2.2
              (by rw [List.length_set]; omega)
            rw [List.length_set] at h0
            exact h0
          have hmidmem : (splitNode mk (cs.getD (searchGo obj ks 0).2 (.leaf []))).2.1
              ∈ (cs.getD (searchGo obj ks 0).2 (.leaf [])).toList := by
            rw [htl]
            simp
          by_cases hmid : obj
              = (splitNode mk (cs.getD (searchGo obj ks 0).2 (.leaf []))).2.1
          · -- the promoted median is `obj` itself: nothing more to insert
            rw [addGo_internal_split_mid hfound hfull hmid]
            have hobjchild := hmidmem
            rw [← hmid] at hobjchild
            have hobjmem : obj ∈ inorder cs ks := by
              rw [hdecomp]
              exact List.mem_append.mpr (Or.inl (List.mem_append.mpr (Or.inr hobjchild)))
            have hdecspl := inorder_slot_splitins cs ks (searchGo obj ks 0).2
              (splitNode mk (cs.getD (searchGo obj ks 0).2 (.leaf []))).1
              (splitNode mk (cs.getD (searchGo obj ks 0).2 (.leaf []))).2.2
              (splitNode mk (cs.getD (searchGo obj ks 0).2 (.leaf []))).2.1 hlen hjle
            refine ⟨?_, ?_, ?_, ?_⟩
            · simp only [wfTop_internal, Bool.and_eq_true, decide_eq_true_eq,
                beq_iff_eq]
              refine ⟨⟨⟨?_, ?_⟩, ?_⟩, hcs'⟩
              · rw [hkslen']; omega
              · rw [hkslen']; omega
              · rw [hcslen', hkslen']; omega
            · simp only [keys_internal]
              rw [hkslen']; omega
            · simp only [toList_internal]
              simp [hobjmem]
            · intro x
              simp only [toList_internal]
              rw [hdecspl, ← htl, ← hdecomp]
              constructor
              · exact Or.inr
              · rintro (rfl | hx)
                · exact hobjmem
                · exact hx
          · by_cases hgt : obj
                > (splitNode mk (cs.getD (searchGo obj ks 0).2 (.leaf []))).2.1
            · -- descend into the right half
              rw [addGo_internal_split_right hfound hfull hmid hgt]
              have hmidlt : optLt (some (splitNode mk (cs.getD (searchGo obj ks 0).2
                  (.leaf []))).2.1) (some obj) = true := by
                simpa using hgt
              have hrec := ih (wfTop_of_wfN hmk hwr) (by rw [hrkl]; omega) hmidlt hbnd2
              have hmkrb : mk ≤ (addGo mk (splitNode mk (cs.getD (searchGo obj ks 0).2
                  (.leaf []))).2.2 obj).1.keys.length := by
                have h0 := hrec.2.1
                omega
              have hwfrb : wfN mk h
                  (tA lo (ks.insertIdx (searchGo obj ks 0).2 (splitNode mk (cs.getD
                    (searchGo obj ks 0).2 (.leaf []))).2.1) ((searchGo obj ks 0).2 + 1))
                  (tB (ks.insertIdx (searchGo obj ks 0).2 (splitNode mk (cs.getD
                    (searchGo obj ks 0).2 (.leaf []))).2.1) hi ((searchGo obj ks 0).2 + 1))
                  (addGo mk (splitNode mk (cs.getD (searchGo obj ks 0).2
                    (.leaf []))).2.2 obj).1 := by
                rw [tA_insertIdx_succ _ _ _ _ hjle, tB_insertIdx_succ _ _ _ _ hjle]
                exact wfN_of_wfTop hrec.1 hmkrb
              have hlen2 : ((cs.set (searchGo obj ks 0).2 (splitNode mk (cs.getD
                  (searchGo obj ks 0).2 (.leaf []))).1).insertIdx
                  ((searchGo obj ks 0).2 + 1)
                  (splitNode mk (cs.getD (searchGo obj ks 0).2 (.leaf []))).2.2).length
                  = (ks.insertIdx (searchGo obj ks 0).2 (splitNode mk (cs.getD
                    (searchGo obj ks 0).2 (.leaf []))).2.1).length + 1 := by
                rw [hcslen', hkslen']
                omega
              have hjright : (searchGo obj ks 0).2 + 1
                  ≤ (ks.insertIdx (searchGo obj ks 0).2 (splitNode mk (cs.getD
                    (searchGo obj ks 0).2 (.leaf []))).2.1).length := by
                rw [hkslen']
                omega
              have hcsfin := wfCs_set hcs' hlen2 _ hjright hwfrb
              have hnotl : obj ∉ (splitNode mk (cs.getD (searchGo obj ks 0).2
                  (.leaf []))).1.toList := by
                intro hm
                have hb := (chainLt_mem_bounds (wfN_chain _ hwl) hm).2
                simp only [optLt_some_some, decide_eq_true_eq] at hb
                omega
              have hsetins : (((cs.set (searchGo obj ks 0).2 (splitNode mk (cs.getD
                  (searchGo obj ks 0).2 (.leaf []))).1).insertIdx
                  ((searchGo obj ks 0).2 + 1)
                  (splitNode mk (cs.getD (searchGo obj ks 0).2 (.leaf []))).2.2).set
                  ((searchGo obj ks 0).2 + 1)
                  (addGo mk (splitNode mk (cs.getD (searchGo obj ks 0).2
                    (.leaf []))).2.2 obj).1)
                  = (cs.set (searchGo obj ks 0).2 (splitNode mk (cs.getD
                    (searchGo obj ks 0).2 (.leaf []))).1).insertIdx
                    ((searchGo obj ks 0).2 + 1)
                    (addGo mk (splitNode mk (cs.getD (searchGo obj ks 0).2
                      (.leaf []))).2.2 obj).1 :=
                insertIdx_set_self _ _ _ _ (by rw [List.length_set]; omega)
              have hdecfin := inorder_slot_splitins cs ks (searchGo obj ks 0).2
                (splitNode mk (cs.getD (searchGo obj ks 0).2 (.leaf []))).1
                (addGo mk (splitNode mk (cs.getD (searchGo obj ks 0).2
                  (.leaf []))).2.2 obj).1
                (splitNode mk (cs.getD (searchGo obj ks 0).2 (.leaf []))).2.1 hlen hjle
              refine ⟨?_, ?_, ?_, ?_⟩
              · simp only [wfTop_internal, Bool.and_eq_true, decide_eq_true_eq,
                  beq_iff_eq, List.length_set]
                refine ⟨⟨⟨?_, ?_⟩, ?_⟩, hcsfin⟩
                · rw [hkslen']; omega
                · rw [hkslen']; omega
                · rw [hcslen', hkslen']; omega
              · simp only [keys_internal]
                rw [hkslen']; omega
              · simp only [toList_internal, hrec.2.2.1]
                rw [hdecomp, htl]
                simp only [List.mem_append, List.mem_cons]
                exact notmem_right_prop hnotA hnotB hnotl hmid
              · intro x
                simp only [toList_internal]
                rw [hsetins, hdecfin, hdecomp, htl]
                simp only [List.mem_append, List.mem_cons]
                exact ins_right_prop (hrec.2.2.2 x)
            · -- descend into the left half
              rw [addGo_internal_split_left hfound hfull hmid hgt]
              have hmidgt : optLt (some obj) (some (splitNode mk (cs.getD
                  (searchGo obj ks 0).2 (.leaf []))).2.1) = true := by
                simp only [optLt_some_some, decide_eq_true_eq]
                omega
              have hrec := ih (wfTop_of_wfN hmk hwl) (by rw [hlkl]; omega) hbnd1 hmidgt
              have hmklb : mk ≤ (addGo mk (splitNode mk (cs.getD (searchGo obj ks 0).2
                  (.leaf []))).1 obj).1.keys.length := by
                have h0 := hrec.2.1
                omega
              have hwflb : wfN mk h
                  (tA lo (ks.insertIdx (searchGo obj ks 0).2 (splitNode mk (cs.getD
                    (searchGo obj ks 0).2 (.leaf []))).2.1) (searchGo obj ks 0).2)
                  (tB (ks.insertIdx (searchGo obj ks 0).2 (splitNode mk (cs.getD
                    (searchGo obj ks 0).2 (.leaf []))).2.1) hi (searchGo obj ks 0).2)
                  (addGo mk (splitNode mk (cs.getD (searchGo obj ks 0).2
                    (.leaf []))).1 obj).1 := by
                rw [tA_insertIdx_eq _ _ _ _ hjle, tB_insertIdx_self _ _ _ _ hjle]
                exact wfN_of_wfTop hrec.1 hmklb
              have hlen2 : ((cs.set (searchGo obj ks 0).2 (splitNode mk (cs.getD
                  (searchGo obj ks 0).2 (.leaf []))).1).insertIdx
                  ((searchGo obj ks 0).2 + 1)
                  (splitNode mk (cs.getD (searchGo obj ks 0).2 (.leaf []))).2.2).length
                  = (ks.insertIdx (searchGo obj ks 0).2 (splitNode mk (cs.getD
                    (searchGo obj ks 0).2 (.leaf []))).2.1).length + 1 := by
                rw [hcslen', hkslen']
                omega
              have hjleft : (searchGo obj ks 0).2
                  ≤ (ks.insertIdx (searchGo obj ks 0).2 (splitNode mk (cs.getD
                    (searchGo obj ks 0).2 (.leaf []))).2.1).length := by
                rw [hkslen']
                omega
              have hcsfin := wfCs_set hcs' hlen2 _ hjleft hwflb
              have hnotr : obj ∉ (splitNode mk (cs.getD (searchGo obj ks 0).2
                  (.leaf []))).2.2.toList := by
                intro hm
                have hb := (chainLt_mem_bounds (wfN_chain _ hwr) hm).1
                simp only [optLt_some_some, decide_eq_true_eq] at hb
                omega
              have hsetcomm := set_insertIdx_comm cs (searchGo obj ks 0).2
                (splitNode mk (cs.getD (searchGo obj ks 0).2 (.leaf []))).1
                (splitNode mk (cs.getD (searchGo obj ks 0).2 (.leaf []))).2.2
                (addGo mk (splitNode mk (cs.getD (searchGo obj ks 0).2
                  (.leaf []))).1 obj).1
                (by omega)
              have hdecfin := inorder_slot_splitins cs ks (searchGo obj ks 0).2
                (addGo mk (splitNode mk (cs.getD (searchGo obj ks 0).2
                  (.leaf []))).1 obj).1
                (splitNode mk (cs.getD (searchGo obj ks 0).2 (.leaf []))).2.2
                (splitNode mk (cs.getD (searchGo obj ks 0).2 (.leaf []))).2.1 hlen hjle
              refine ⟨?_, ?_, ?_, ?_⟩
              · simp only [wfTop_internal, Bool.and_eq_true, decide_eq_true_eq,
                  beq_iff_eq, List.length_set]
                refine ⟨⟨⟨?_, ?_⟩, ?_⟩, hcsfin⟩
                · rw [hkslen']; omega
                · rw [hkslen']; omega
                · rw [hcslen', hkslen']; omega
              · simp only [keys_internal]
                rw [hkslen']; omega
              · simp only [toList_internal, hrec.2.2.1]
                rw [hdecomp, htl]
                simp only [List.mem_append, List.mem_cons]
                exact notmem_left_prop hnotA hnotB hnotr hmid
              · intro x
                simp only [toList_internal]
                rw [hsetcomm, hdecfin, hdecomp, htl]
                simp only [List.mem_append, List.mem_cons]
                exact ins_left_prop (hrec.2.2.2 x)
        · -- the child is not full: plain recursion into it
          obtain ⟨hchl1, hchl2⟩ := wfN_keys_le hwfc
          have hrec := ih (wfTop_of_wfN hmk hwfc) (by omega) hbnd1 hbnd2
          have hwfc' : wfN mk h (tA lo ks (searchGo obj ks 0).2)
              (tB ks hi (searchGo obj ks 0).2)
              (addGo mk (cs.getD (searchGo obj ks 0).2 (.leaf [])) obj).1 :=
            wfN_of_wfTop hrec.1 (by have h0 := hrec.2.1; omega)
          have hdecset := inorder_slot_set cs ks (searchGo obj ks 0).2
            (addGo mk (cs.getD (searchGo obj ks 0).2 (.leaf [])) obj).1 hlen hjle
          have hobjiff : obj ∈ inorder cs ks ↔
              obj ∈ (cs.getD (searchGo obj ks 0).2 (.leaf [])).toList := by
            rw [hdecomp]
            simp [hnotA, hnotB]
          rw [addGo_internal_notfull hfound hfull]
          refine ⟨?_, ?_, ?_, ?_⟩
          · simp only [wfTop_internal, Bool.and_eq_true, decide_eq_true_eq, beq_iff_eq,
              List.length_set]
            exact ⟨⟨⟨hk1, hk2⟩, hlen⟩, wfCs_set hcs hlen _ hjle hwfc'⟩
          · simp only [keys_internal]
            omega
          · simp only [toList_internal, hrec.2.2.1]
            exact not_congr hobjiff.symm
          · intro x
            simp only [toList_internal]
            rw [hdecset, hdecomp]
            simp only [List.mem_append]
            exact ins_mid_prop (hrec.2.2.2 x)
      · -- found among the separators: the tree is unchanged
        rw [addGo_internal_found hfound]
        obtain ⟨hidxlt, hidxv⟩ := hfoundP hfound
        have hmem : obj ∈ inorder cs ks := by
          rw [← hidxv]
          exact getD_mem_inorder hlen hidxlt
        refine ⟨hwf0, le_refl _, ?_, ?_⟩
        · simp only [toList_internal]
          simp [hmem]
        · intro x
          simp only [toList_internal]
          constructor
          · exact Or.inr
          · rintro (rfl | hx)
            · exact hmem
            · exact hx

/-- Key-count upper bound for a valid root node. -/
theorem wfTop_keys_le {mk h : Nat} {lo hi : Option Nat} {n : Node}
    (h1 : wfTop mk h lo hi n = true) : n.keys.length ≤ 2 * mk + 1 := by
  cases n with
  | leaf ks =>
    simp only [wfTop_leaf, Bool.and_eq_true, decide_eq_true_eq, beq_iff_eq] at h1
    exact h1.1.2
  | internal ks cs =>
    cases h with
    | zero => simp at h1
    | succ h2 =>
      simp only [wfTop_internal, Bool.and_eq_true, decide_eq_true_eq, beq_iff_eq] at h1
      exact h1.1.1.2

/-- Assembly step shared by both branches of `BTreeSet.add`: given a valid
non-full start node with the same key set as the current root, running the
walk-down insertion on it yields the claimed final state. -/
theorem add_assemble {s : BTreeSet} (hmk : 1 ≤ s.minkeys)
    (hmax : s.maxkeys = 2 * s.minkeys + 1) (hsize : s.size = s.root.toList.length)
    {h0 : Nat} {root0 : Node}
    (hwf0 : wfTop s.minkeys h0 none none root0 = true)
    (hlt0 : root0.keys.length < 2 * s.minkeys + 1)
    (htl0 : root0.toList = s.root.toList) (obj : Nat)
    (heq : s.add obj = { s with
        root := (addGo s.minkeys root0 obj).1,
        size := if (addGo s.minkeys root0 obj).2 then s.size + 1 else s.size }) :
    WFS (s.add obj) ∧
    (s.add obj).minkeys = s.minkeys ∧
    (s.add obj).maxkeys = s.maxkeys ∧
    (s.add obj).root.toList = insertKey obj s.root.toList ∧
    (s.add obj).size = (if obj ∈ s.root.toList then s.size else s.size + 1) ∧
    (s.add obj).root.height = h0 := by
  obtain ⟨hwf1, -, hb, hm⟩ := addGo_spec hmk h0 hwf0 hlt0 (by simp) (by simp)
  have hch0 : chainLt none s.root.toList none = true := by
    rw [← htl0]
    exact wfTop_chain hwf0
  have hsort0 : s.root.toList.Pairwise (· < ·) := chainLt_pairwise hch0
  have hsort1 := chainLt_pairwise (wfTop_chain hwf1)
  have hmem1 : ∀ x, x ∈ (addGo s.minkeys root0 obj).1.toList
      ↔ x ∈ insertKey obj s.root.toList := by
    intro x
    rw [mem_insertKey, hm x, htl0]
  have htl1 : (addGo s.minkeys root0 obj).1.toList = insertKey obj s.root.toList :=
    sorted_mem_ext hsort1
      (chainLt_pairwise (chainLt_insertKey hch0 (by simp) (by simp))) hmem1
  have hb1 : (addGo s.minkeys root0 obj).2 = true ↔ obj ∉ s.root.toList := by
    rw [hb, htl0]
  have hheight : (addGo s.minkeys root0 obj).1.height = h0 := wfTop_height hwf1
  refine ⟨⟨?_, ?_, ?_, ?_⟩, ?_, ?_, ?_, ?_, ?_⟩
  · rw [heq]
    exact hmk
  · rw [heq]
    exact hmax
  · rw [heq]
    show wfTop s.minkeys (addGo s.minkeys root0 obj).1.height none none
      (addGo s.minkeys root0 obj).1 = true
    rw [hheight]
    exact hwf1
  · rw [heq]
    show (if (addGo s.minkeys root0 obj).2 then s.size + 1 else s.size)
        = (addGo s.minkeys root0 obj).1.toList.length
    rw [htl1]
    by_cases hmemobj : obj ∈ s.root.toList
    · have hbf : (addGo s.minkeys root0 obj).2 = false := by
        cases hv : (addGo s.minkeys root0 obj).2
        · rfl
        · exact absurd (hb1.mp hv) (by simpa using hmemobj)
      rw [hbf, if_neg (by simp), length_insertKey_mem obj _ hsort0 hmemobj]
      exact hsize
    · have hbt : (addGo s.minkeys root0 obj).2 = true := hb1.mpr hmemobj
      rw [hbt, if_pos rfl, length_insertKey_not_mem obj _ hmemobj]
      omega
  · rw [heq]
  · rw [heq]
  · rw [heq]
    exact htl1
  · rw [heq]
    show (if (addGo s.minkeys root0 obj).2 then s.size + 1 else s.size)
        = (if obj ∈ s.root.toList then s.size else s.size + 1)
    by_cases hmemobj : obj ∈ s.root.toList
    · have hbf : (addGo s.minkeys root0 obj).2 = false := by
        cases hv : (addGo s.minkeys root0 obj).2
        · rfl
        · exact absurd (hb1.mp hv) (by simpa using hmemobj)
      rw [hbf, if_neg (by simp), if_pos hmemobj]
    · have hbt : (addGo s.minkeys root0 obj).2 = true := hb1.mpr hmemobj
      rw [hbt, if_pos rfl, if_neg hmemobj]
  · rw [heq]
    exact hheight

/-- `BTreeSet.add(obj)` on a well-formed set: well-formedness is
preserved, the parameters are unchanged, the sorted key list becomes the
sorted-set insertion of `obj`, and the size grows by one exactly when
`obj` was absent. -/
theorem add_spec {s : BTreeSet} (hs : WFS s) (obj : Nat) :
    WFS (s.add obj) ∧
    (s.add obj).minkeys = s.minkeys ∧
    (s.add obj).maxkeys = s.maxkeys ∧
    (s.add obj).root.toList = insertKey obj s.root.toList ∧
    (s.add obj).size = (if obj ∈ s.root.toList then s.size else s.size + 1) ∧
    (s.add obj).root.height
      = (if s.root.keys.length = s.maxkeys
         then s.root.height + 1 else s.root.height) := by
  obtain ⟨hmk, hmax, hwf, hsize⟩ := hs
  by_cases hfull : s.root.keys.length = s.maxkeys
  · -- the root is full: split it and grow a new root above the halves
    have hwfN : wfN s.minkeys s.root.height none none s.root = true :=
      wfN_of_wfTop hwf (by rw [hfull, hmax]; omega)
    have hfull' : s.root.keys.length = 2 * s.minkeys + 1 := by rw [hfull, hmax]
    obtain ⟨hwl, hwr, htl⟩ := splitNode_spec hmk hwfN hfull'
    have hwf0 : wfTop s.minkeys (s.root.height + 1) none none
        (.internal [(splitNode s.minkeys s.root).2.1]
          [(splitNode s.minkeys s.root).1, (splitNode s.minkeys s.root).2.2]) = true := by
      simp only [wfTop_internal, Bool.and_eq_true, decide_eq_true_eq, beq_iff_eq,
        List.length_cons, List.length_nil, wfCs_cons_cons, wfCs_nil_single, hwl, hwr,
        and_true, true_and]
      omega
    have hlt0 : (Node.internal [(splitNode s.minkeys s.root).2.1]
        [(splitNode s.minkeys s.root).1, (splitNode s.minkeys s.root).2.2]).keys.length
        < 2 * s.minkeys + 1 := by
      simp only [keys_internal, List.length_cons, List.length_nil]
      omega
    have htl0 : (Node.internal [(splitNode s.minkeys s.root).2.1]
        [(splitNode s.minkeys s.root).1, (splitNode s.minkeys s.root).2.2]).toList
        = s.root.toList := by
      simp only [toList_internal, inorder_cons_cons, inorder_cons_nil]
      rw [htl]
    obtain ⟨a1, a2, a3, a4, a5, a6⟩ :=
      add_assemble hmk hmax hsize hwf0 hlt0 htl0 obj (by simp [BTreeSet.add, hfull])
    exact ⟨a1, a2, a3, a4, a5, by rw [if_pos hfull]; exact a6⟩
  · -- the root is not full: insert into it directly
    have hlt0 : s.root.keys.length < 2 * s.minkeys + 1 := by
      have := wfTop_keys_le hwf
      omega
    obtain ⟨a1, a2, a3, a4, a5, a6⟩ :=
      add_assemble hmk hmax hsize hwf hlt0 rfl obj (by simp [BTreeSet.add, hfull])
    exact ⟨a1, a2, a3, a4, a5, by rw [if_neg hfull]; exact a6⟩

/-! ## List surgery and bound bookkeeping for the removal operations -/

theorem getD_eraseIdx_lt_nat (l : List Nat) (i j d : Nat) (h : j < i) :
    (l.eraseIdx i).getD j d = l.getD j d := by
  simp [List.getD_eq_getElem?_getD, List.getElem?_eraseIdx_of_lt _ _ _ h]

theorem getD_eraseIdx_ge_nat (l : List Nat) (i j d : Nat) (h : i ≤ j) :
    (l.eraseIdx i).getD j d = l.getD (j + 1) d := by
  simp [List.getD_eq_getElem?_getD, List.getElem?_eraseIdx_of_ge _ _ _ h]

theorem length_eraseIdx_of_lt (l : List Nat) (i : Nat) (h : i < l.length) :
    (l.eraseIdx i).length = l.length - 1 := by
  rw [List.length_eraseIdx]
  simp [h]

theorem tA_eraseIdx_eq (lo : Option Nat) (ks : List Nat) (i : Nat) :
    tA lo (ks.eraseIdx i) i = tA lo ks i := by
  cases i with
  | zero => simp
  | succ i2 => rw [tA_succ, tA_succ, getD_eraseIdx_lt_nat _ _ _ _ (by omega)]

theorem tB_eraseIdx_eq (ks : List Nat) (hi : Option Nat) (i : Nat) (h : i < ks.length) :
    tB (ks.eraseIdx i) hi i = tB ks hi (i + 1) := by
  rw [tB, tB, length_eraseIdx_of_lt _ _ h]
  by_cases hk : i + 1 < ks.length
  · rw [if_pos (by omega), if_pos hk, getD_eraseIdx_ge_nat _ _ _ _ (le_refl i)]
  · rw [if_neg (by omega), if_neg hk]

theorem getLastD_congr : ∀ (l : List Nat) (d1 d2 : Nat), l ≠ [] →
    l.getLastD d1 = l.getLastD d2 := by
  intro l
  induction l with
  | nil => intro d1 d2 h; exact absurd rfl h
  | cons x xs ih =>
    intro d1 d2 h
    cases xs with
    | nil => rfl
    | cons y ys => rfl

theorem dropLast_append_getLastD : ∀ (l : List Nat) (d : Nat), l ≠ [] →
    l.dropLast ++ [l.getLastD d] = l := by
  intro l
  induction l with
  | nil => intro d h; exact absurd rfl h
  | cons x xs ih =>
    intro d h
    cases xs with
    | nil => simp [List.getLastD]
    | cons y ys =>
      rw [List.dropLast_cons_of_ne_nil (by simp), List.getLastD_cons,
        List.cons_append, ih x (by simp)]

theorem cons_getD_tail (l : List Nat) (d : Nat) (h : l ≠ []) :
    l.getD 0 d :: l.tail = l := by
  cases l with
  | nil => exact absurd rfl h
  | cons x xs => simp

theorem getLastD_congr_node : ∀ (l : List Node) (d1 d2 : Node), l ≠ [] →
    l.getLastD d1 = l.getLastD d2 := by
  intro l
  induction l with
  | nil => intro d1 d2 h; exact absurd rfl h
  | cons x xs ih =>
    intro d1 d2 h
    cases xs with
    | nil => rfl
    | cons y ys => rfl

theorem dropLast_append_getLastD_node : ∀ (l : List Node) (d : Node), l ≠ [] →
    l.dropLast ++ [l.getLastD d] = l := by
  intro l
  induction l with
  | nil => intro d h; exact absurd rfl h
  | cons x xs ih =>
    intro d h
    cases xs with
    | nil => simp [List.getLastD]
    | cons y ys =>
      rw [List.dropLast_cons_of_ne_nil (by simp), List.getLastD_cons,
        List.cons_append, ih x (by simp)]

theorem cons_getD_tail_node (l : List Node) (d : Node) (h : l ≠ []) :
    l.getD 0 d :: l.tail = l := by
  cases l with
  | nil => exact absurd rfl h
  | cons x xs => simp

theorem getLastD_eq_getD_node : ∀ (l : List Node) (d : Node),
    l.getLastD d = l.getD (l.length - 1) d := by
  intro l
  induction l with
  | nil => intro d; rfl
  | cons x xs ih =>
    intro d
    cases xs with
    | nil => rfl
    | cons y ys =>
      rw [List.getLastD_cons, ih x]
      have h1 : (y :: ys).length - 1 < (y :: ys).length := by simp
      rw [List.getD_eq_getElem _ _ h1]
      have hl : (x :: y :: ys).length - 1 = ((y :: ys).length - 1) + 1 := by simp
      rw [hl, List.getD_cons_succ, List.getD_eq_getElem _ _ h1]

theorem set_getD_self_any {α : Type} : ∀ (l : List α) (j : Nat) (d : α), j < l.length →
    l.set j (l.getD j d) = l := by
  intro l
  induction l with
  | nil => intro j d h; simp at h
  | cons a t ih =>
    intro j d h
    cases j with
    | zero => simp
    | succ j => rw [List.getD_cons_succ, List.set_cons_succ, ih j d (by simpa using h)]

theorem drop_set_self {α : Type} : ∀ (l : List α) (j : Nat) (x : α), j < l.length →
    (l.set j x).drop j = x :: l.drop (j + 1) := by
  intro l
  induction l with
  | nil => intro j x h; simp at h
  | cons a t ih =>
    intro j x h
    cases j with
    | zero => simp
    | succ j =>
      rw [List.set_cons_succ, List.drop_succ_cons, List.drop_succ_cons,
        ih j x (by simpa using h)]

theorem hiLE_of_optLt {a : Nat} {hi : Option Nat} (h : optLt (some a) hi = true) :
    hiLE (some a) hi = true := by
  cases hi with
  | none => simp
  | some b =>
    simp only [optLt_some_some, decide_eq_true_eq] at h
    simp only [hiLE_some_some, decide_eq_true_eq]
    omega

theorem before_of_tA {lo hi : Option Nat} {ks : List Nat} (hch : chainLt lo ks hi = true)
    {j obj : Nat} (hj : j ≤ ks.length) (h : optLt (tA lo ks j) (some obj) = true) :
    ∀ i, i < j → ks.getD i 0 < obj := by
  intro i hi2
  cases j with
  | zero => omega
  | succ j2 =>
    rw [tA_succ] at h
    simp only [optLt_some_some, decide_eq_true_eq] at h
    rcases Nat.lt_or_ge i j2 with hc | hc
    · have := chain_getD_lt_getD hch hc (by omega)
      omega
    · have hij : i = j2 := by omega
      subst hij
      omega

theorem after_of_tB {lo hi : Option Nat} {ks : List Nat} {j obj : Nat}
    (h : optLt (some obj) (tB ks hi j) = true) :
    j < ks.length → obj < ks.getD j 0 := by
  intro hjl
  rw [tB, if_pos hjl] at h
  simpa using h

theorem tA_mono {lo hi : Option Nat} {ks : List Nat} (hch : chainLt lo ks hi = true)
    {i j : Nat} (hij : i ≤ j) (hj : j ≤ ks.length) :
    loLE (tA lo ks i) (tA lo ks j) = true := by
  cases i with
  | zero =>
    cases j with
    | zero => exact loLE_refl _
    | succ j2 =>
      rw [tA_succ]
      have hmem : ks.getD j2 0 ∈ ks := by
        rw [List.getD_eq_getElem _ _ (by omega)]
        exact List.getElem_mem _
      exact loLE_of_optLt (chainLt_mem_bounds hch hmem).1
  | succ i2 =>
    cases j with
    | zero => omega
    | succ j2 =>
      rw [tA_succ, tA_succ]
      rcases Nat.lt_or_ge i2 j2 with hc | hc
      · have := chain_getD_lt_getD hch hc (by omega)
        simp only [loLE_some_some, decide_eq_true_eq]
        omega
      · have hij2 : i2 = j2 := by omega
        subst hij2
        exact loLE_refl _

theorem tB_mono {lo hi : Option Nat} {ks : List Nat} (hch : chainLt lo ks hi = true)
    {i j : Nat} (hij : i ≤ j) :
    hiLE (tB ks hi i) (tB ks hi j) = true := by
  rw [tB, tB]
  by_cases hi1 : i < ks.length
  · by_cases hj1 : j < ks.length
    · rw [if_pos hi1, if_pos hj1]
      rcases Nat.lt_or_ge i j with hc | hc
      · have := chain_getD_lt_getD hch hc hj1
        simp only [hiLE_some_some, decide_eq_true_eq]
        omega
      · have hij2 : i = j := by omega
        subst hij2
        exact hiLE_refl _
    · rw [if_pos hi1, if_neg hj1]
      have hmem : ks.getD i 0 ∈ ks := by
        rw [List.getD_eq_getElem _ _ (by omega)]
        exact List.getElem_mem _
      exact hiLE_of_optLt (chainLt_mem_bounds hch hmem).2
  · rw [if_neg hi1, if_neg (by omega)]
    exact hiLE_refl _

theorem not_mem_of_chain_hi {lo : Option Nat} {l : List Nat} {x : Nat}
    (h : chainLt lo l (some x) = true) : x ∉ l := by
  intro hm
  have h2 := (chainLt_mem_bounds h hm).2
  simp only [optLt_some_some, decide_eq_true_eq] at h2
  omega

theorem not_mem_of_chain_lo {hi : Option Nat} {l : List Nat} {x : Nat}
    (h : chainLt (some x) l hi = true) : x ∉ l := by
  intro hm
  have h2 := (chainLt_mem_bounds h hm).1
  simp only [optLt_some_some, decide_eq_true_eq] at h2
  omega

theorem mem_remove_middle {P R : List Nat} {obj : Nat} (hp : obj ∉ P) (hr : obj ∉ R) :
    ∀ x, x ∈ P ++ R ↔ x ∈ P ++ obj :: R ∧ x ≠ obj := by
  intro x
  simp only [List.mem_append, List.mem_cons]
  constructor
  · rintro (hP | hR)
    · exact ⟨Or.inl hP, fun he => hp (by rw [← he]; exact hP)⟩
    · exact ⟨Or.inr (Or.inr hR), fun he => hr (by rw [← he]; exact hR)⟩
  · rintro ⟨hm | rfl | hm, hne⟩
    · exact Or.inl hm
    · exact absurd rfl hne
    · exact Or.inr hm

theorem mem_update_middle {A M2 M S : List Nat} {obj : Nat}
    (ha : obj ∉ A) (hs : obj ∉ S) (hM : ∀ x, x ∈ M2 ↔ x ∈ M ∧ x ≠ obj) :
    ∀ x, x ∈ A ++ M2 ++ S ↔ x ∈ A ++ M ++ S ∧ x ≠ obj := by
  intro x
  simp only [List.mem_append]
  constructor
  · rintro ((hA | hm2) | hS)
    · exact ⟨Or.inl (Or.inl hA), fun he => ha (by rw [← he]; exact hA)⟩
    · have h2 := (hM x).mp hm2
      exact ⟨Or.inl (Or.inr h2.1), h2.2⟩
    · exact ⟨Or.inr hS, fun he => hs (by rw [← he]; exact hS)⟩
  · rintro ⟨(hA | hm) | hS, hne⟩
    · exact Or.inl (Or.inl hA)
    · exact Or.inl (Or.inr ((hM x).mpr ⟨hm, hne⟩))
    · exact Or.inr hS

theorem getLastD_eq_getD_nat : ∀ (l : List Nat) (d : Nat),
    l.getLastD d = l.getD (l.length - 1) d := by
  intro l
  induction l with
  | nil => intro d; rfl
  | cons x xs ih =>
    intro d
    cases xs with
    | nil => rfl
    | cons y ys =>
      rw [List.getLastD_cons, ih x]
      have h1 : (y :: ys).length - 1 < (y :: ys).length := by simp
      rw [List.getD_eq_getElem _ _ h1]
      have hl : (x :: y :: ys).length - 1 = ((y :: ys).length - 1) + 1 := by simp
      rw [hl, List.getD_cons_succ, List.getD_eq_getElem _ _ h1]

theorem drop_pred_node : ∀ (l : List Node) (d : Node), l ≠ [] →
    l.drop (l.length - 1) = [l.getLastD d] := by
  intro l
  induction l with
  | nil => intro d h; exact absurd rfl h
  | cons x xs ih =>
    intro d h
    cases xs with
    | nil => rfl
    | cons y ys =>
      have h2 := ih d (by simp)
      have hl : (x :: y :: ys).length - 1 = ((y :: ys).length - 1) + 1 := by simp
      rw [hl, List.drop_succ_cons, h2]
      conv_rhs => rw [List.getLastD_cons, getLastD_congr_node (y :: ys) x d (by simp)]

/-- Decomposition of the in-order list at the last key and last child. -/
theorem inorder_dropLast (cs : List Node) (ks : List Nat)
    (hlen : cs.length = ks.length + 1) (hne : ks ≠ []) :
    inorder cs ks = inorder cs.dropLast ks.dropLast
      ++ ks.getLastD 0 :: (cs.getLastD (.leaf [])).toList := by
  have hkl : 0 < ks.length := List.length_pos.mpr hne
  have h0 := inorder_key_decomp cs ks hlen (ks.length - 1) (by omega)
  rw [show ks.length - 1 + 1 = ks.length from by omega] at h0
  rw [h0]
  have e1 : cs.take ks.length = cs.dropLast := by
    rw [List.dropLast_eq_take, hlen]
    rw [show ks.length + 1 - 1 = ks.length from by omega]
  have e2 : ks.take (ks.length - 1) = ks.dropLast := by
    rw [List.dropLast_eq_take]
  have e3 : ks.getD (ks.length - 1) 0 = ks.getLastD 0 :=
    (getLastD_eq_getD_nat ks 0).symm
  have e4 : cs.drop ks.length = [cs.getLastD (.leaf [])] := by
    have h5 := drop_pred_node cs (.leaf [])
      (by intro hc; rw [hc] at hlen; simp at hlen)
    rw [hlen] at h5
    rw [show ks.length + 1 - 1 = ks.length from by omega] at h5
    exact h5
  have e5 : ks.drop ks.length = [] := List.drop_length ks
  rw [e1, e2, e3, e4, e5, inorder_cons_nil]

/-- The head child contributes its list, the rest depends only on the
tail. -/
theorem inorder_cons_eq (x : Node) (cs : List Node) (ks : List Nat) :
    inorder (x :: cs) ks = x.toList ++
      (match ks with
       | [] => []
       | k :: ks2 => k :: inorder cs ks2) := by
  cases ks with
  | nil => simp
  | cons k ks2 => simp

/-- Merging the children at slots `i` and `i+1` around separator `keys[i]`
preserves the in-order list. -/
theorem inorder_merge_slot : ∀ (cs : List Node) (ks : List Nat) (i : Nat) (m : Node),
    cs.length = ks.length + 1 → i < ks.length →
    m.toList = (cs.getD i (.leaf [])).toList
        ++ ks.getD i 0 :: (cs.getD (i + 1) (.leaf [])).toList →
    inorder ((cs.set i m).eraseIdx (i + 1)) (ks.eraseIdx i) = inorder cs ks := by
  intro cs
  induction cs with
  | nil => intro ks i m h hi2 hm; simp at h
  | cons c cs2 ih =>
    intro ks i m hlen hi2 hm
    cases ks with
    | nil => simp at hi2
    | cons k ks2 =>
      cases i with
      | zero =>
        cases cs2 with
        | nil => simp at hlen
        | cons c2 cs3 =>
          simp only [List.getD_cons_zero, List.getD_cons_succ] at hm
          show inorder ((m :: c2 :: cs3).eraseIdx 1) ks2 = _
          show inorder (m :: cs3) ks2 = _
          rw [inorder_cons_eq m cs3 ks2, inorder_cons_cons,
            inorder_cons_eq c2 cs3 ks2, hm]
          simp [List.append_assoc]
      | succ i2 =>
        simp only [List.getD_cons_succ] at hm
        show inorder (c :: (cs2.set i2 m).eraseIdx (i2 + 1)) (k :: ks2.eraseIdx i2) = _
        rw [inorder_cons_cons, inorder_cons_cons,
          ih ks2 i2 m (by simpa using hlen) (by simpa using hi2) hm]

/-- Rotating a key through the separator at slot `i` (slots `i` and `i+1`
rebuilt, separator replaced) preserves the in-order list. -/
theorem inorder_steal_slot : ∀ (cs : List Node) (ks : List Nat) (i : Nat)
    (l2 c2 : Node) (L : Nat), cs.length = ks.length + 1 → i < ks.length →
    l2.toList ++ L :: c2.toList
      = (cs.getD i (.leaf [])).toList
        ++ ks.getD i 0 :: (cs.getD (i + 1) (.leaf [])).toList →
    inorder ((cs.set i l2).set (i + 1) c2) (ks.set i L) = inorder cs ks := by
  intro cs
  induction cs with
  | nil => intro ks i l2 c2 L h hi2 hm; simp at h
  | cons c cs2 ih =>
    intro ks i l2 c2 L hlen hi2 hm
    cases ks with
    | nil => simp at hi2
    | cons k ks2 =>
      cases i with
      | zero =>
        cases cs2 with
        | nil => simp at hlen
        | cons c2b cs3 =>
          simp only [List.getD_cons_zero, List.getD_cons_succ] at hm
          show inorder (l2 :: (c2b :: cs3).set 0 c2) (L :: ks2) = _
          show inorder (l2 :: c2 :: cs3) (L :: ks2) = _
          cases ks2 with
          | nil =>
            simp only [inorder_cons_cons, inorder_cons_nil]
            exact hm
          | cons k2 ks3 =>
            simp only [inorder_cons_cons]
            have h2 := congrArg (fun t => t ++ k2 :: inorder cs3 ks3) hm
            simpa [List.append_assoc] using h2
      | succ i2 =>
        simp only [List.getD_cons_succ] at hm
        show inorder (c :: (cs2.set i2 l2).set (i2 + 1) c2) (k :: ks2.set i2 L) = _
        rw [inorder_cons_cons, inorder_cons_cons,
          ih ks2 i2 l2 c2 L (by simpa using hlen) (by simpa using hi2) hm]

theorem tB_zero_cons (k : Nat) (ks : List Nat) (hi : Option Nat) :
    tB (k :: ks) hi 0 = some k := by
  rw [tB, if_pos (by simp)]
  simp

theorem tB_nil (hi : Option Nat) (j : Nat) : tB [] hi j = hi := by
  rw [tB, if_neg (by simp)]

/-- Drop the last separator and child of a valid children segment; the
dropped separator becomes the new upper bound. -/
theorem wfCs_dropLast {mk h : Nat} {lo hi : Option Nat} {ks : List Nat}
    {cs : List Node} (hcs : wfCs mk h lo ks hi cs = true)
    (hlen : cs.length = ks.length + 1) (hne : ks ≠ []) :
    wfCs mk h lo ks.dropLast (some (ks.getLastD 0)) cs.dropLast = true := by
  induction cs generalizing lo ks with
  | nil => cases ks <;> simp_all
  | cons c cs2 ih =>
    cases ks with
    | nil => exact absurd rfl hne
    | cons k ks2 =>
      simp only [wfCs_cons_cons, Bool.and_eq_true] at hcs
      cases ks2 with
      | nil =>
        cases cs2 with
        | nil => simp at hlen
        | cons c2 cs3 =>
          cases cs3 with
          | nil => simpa using hcs.1
          | cons _ _ => simp at hlen
      | cons k2 ks3 =>
        cases cs2 with
        | nil => simp at hlen
        | cons c2 cs3 =>
          rw [List.dropLast_cons_of_ne_nil (show (k2 :: ks3 : List Nat) ≠ [] by simp),
            List.dropLast_cons_of_ne_nil (show (c2 :: cs3 : List Node) ≠ [] by simp),
            List.getLastD_cons, getLastD_congr _ k 0 (by simp)]
          simp only [wfCs_cons_cons, Bool.and_eq_true]
          exact ⟨hcs.1, ih hcs.2 (by simpa using hlen) (by simp)⟩

/-- Append a separator and child to a valid children segment whose old
upper bound is that separator. -/
theorem wfCs_snoc {mk h : Nat} {S : Nat} {hi' : Option Nat} {g : Node}
    (hg : wfN mk h (some S) hi' g = true) :
    ∀ {lo : Option Nat} {ks : List Nat} {cs : List Node},
    wfCs mk h lo ks (some S) cs = true → cs.length = ks.length + 1 →
    wfCs mk h lo (ks ++ [S]) hi' (cs ++ [g]) = true := by
  intro lo ks cs hcs hlen
  induction cs generalizing lo ks with
  | nil => cases ks <;> simp_all
  | cons c cs2 ih =>
    cases ks with
    | nil =>
      cases cs2 with
      | nil =>
        simp only [wfCs_nil_single] at hcs
        simp only [List.nil_append, List.cons_append, wfCs_cons_cons,
          wfCs_nil_single, Bool.and_eq_true]
        exact ⟨hcs, hg⟩
      | cons _ _ => simp at hcs
    | cons k ks2 =>
      simp only [wfCs_cons_cons, Bool.and_eq_true] at hcs
      simp only [List.cons_append, wfCs_cons_cons, Bool.and_eq_true]
      exact ⟨hcs.1, ih hcs.2 (by simpa using hlen)⟩

/-- Replace the children at slots `i`, `i+1` by a single merged child and
drop the separator `keys[i]`: validity is preserved when the merged child
is valid across the combined bounds. -/
theorem wfCs_merge_child {mk h : Nat} {lo hi : Option Nat} {ks : List Nat}
    {cs : List Node} (hcs : wfCs mk h lo ks hi cs = true)
    (hlen : cs.length = ks.length + 1) :
    ∀ i, i < ks.length → ∀ {m : Node},
    wfN mk h (tA lo ks i) (tB ks hi (i + 1)) m = true →
    wfCs mk h lo (ks.eraseIdx i) hi ((cs.set i m).eraseIdx (i + 1)) = true := by
  induction cs generalizing lo ks with
  | nil => cases ks <;> simp_all
  | cons c cs2 ih =>
    intro i hi2 m hm
    cases ks with
    | nil => simp at hi2
    | cons k ks2 =>
      simp only [wfCs_cons_cons, Bool.and_eq_true] at hcs
      cases i with
      | zero =>
        cases cs2 with
        | nil => simp at hlen
        | cons c2 cs3 =>
          show wfCs mk h lo ks2 hi (m :: cs3) = true
          rw [tA_zero, tB_cons_succ] at hm
          cases ks2 with
          | nil =>
            cases cs3 with
            | nil =>
              rw [tB_nil] at hm
              simpa using hm
            | cons _ _ => simp at hlen
          | cons k2 ks3 =>
            rw [tB_zero_cons] at hm
            simp only [wfCs_cons_cons, Bool.and_eq_true] at hcs ⊢
            exact ⟨hm, hcs.2.2⟩
      | succ i2 =>
        show wfCs mk h lo (k :: ks2.eraseIdx i2) hi
          (c :: (cs2.set i2 m).eraseIdx (i2 + 1)) = true
        rw [tA_cons_succ, tB_cons_succ] at hm
        simp only [wfCs_cons_cons, Bool.and_eq_true]
        exact ⟨hcs.1, ih hcs.2 (by simpa using hlen) i2 (by simpa using hi2) hm⟩

/-- Replace the children at slots `i`, `i+1` and the separator between
them: validity is preserved when the new children are valid against the
new separator. -/
theorem wfCs_steal {mk h : Nat} {lo hi : Option Nat} {ks : List Nat}
    {cs : List Node} (hcs : wfCs mk h lo ks hi cs = true)
    (hlen : cs.length = ks.length + 1) :
    ∀ i, i < ks.length → ∀ {l2 c2 : Node} {L : Nat},
    wfN mk h (tA lo ks i) (some L) l2 = true →
    wfN mk h (some L) (tB ks hi (i + 1)) c2 = true →
    wfCs mk h lo (ks.set i L) hi ((cs.set i l2).set (i + 1) c2) = true := by
  induction cs generalizing lo ks with
  | nil => cases ks <;> simp_all
  | cons c cs2 ih =>
    intro i hi2 l2 c2 L hl2 hc2
    cases ks with
    | nil => simp at hi2
    | cons k ks2 =>
      simp only [wfCs_cons_cons, Bool.and_eq_true] at hcs
      cases i with
      | zero =>
        cases cs2 with
        | nil => simp at hlen
        | cons c2b cs3 =>
          show wfCs mk h lo (L :: ks2) hi (l2 :: c2 :: cs3) = true
          rw [tA_zero] at hl2
          rw [tB_cons_succ] at hc2
          simp only [wfCs_cons_cons, Bool.and_eq_true]
          refine ⟨hl2, ?rest⟩
          cases ks2 with
          | nil =>
            cases cs3 with
            | nil =>
              rw [tB_nil] at hc2
              simpa using hc2
            | cons _ _ => simp at hlen
          | cons k2 ks3 =>
            rw [tB_zero_cons] at hc2
            simp only [wfCs_cons_cons, Bool.and_eq_true] at hcs ⊢
            exact ⟨hc2, hcs.2.2⟩
      | succ i2 =>
        show wfCs mk h lo (k :: ks2.set i2 L) hi
          (c :: (cs2.set i2 l2).set (i2 + 1) c2) = true
        rw [tA_cons_succ] at hl2
        rw [tB_cons_succ] at hc2
        simp only [wfCs_cons_cons, Bool.and_eq_true]
        exact ⟨hcs.1, ih hcs.2 (by simpa using hlen) i2 (by simpa using hi2) hl2 hc2⟩

/-- In-order list of glued children/keys segments. -/
theorem inorder_glue : ∀ (cs1 : List Node) (ks1 : List Nat) (cs2 : List Node)
    (ks2 : List Nat) (s : Nat), cs1.length = ks1.length + 1 →
    inorder (cs1 ++ cs2) (ks1 ++ s :: ks2)
      = inorder cs1 ks1 ++ s :: inorder cs2 ks2 := by
  intro cs1
  induction cs1 with
  | nil => intro ks1 cs2 ks2 s h1; simp at h1
  | cons c cs ih =>
    intro ks1 cs2 ks2 s h1
    cases ks1 with
    | nil =>
      cases cs with
      | nil => simp
      | cons _ _ => simp at h1
    | cons k ks1b =>
      simp only [List.cons_append, inorder_cons_cons, ih _ _ _ _ (by simpa using h1)]
      simp

/-- `merge_children`'s success path on a valid parent whose two children
at `index`, `index+1` hold exactly `min_keys` keys each: the merged child
holds the left keys, the separator, then the right keys (`maxkeys` total),
is valid across the combined bounds, and replaces the two children while
the separator leaves the parent. -/
theorem mergeCore_spec {mk h : Nat} {lo hi : Option Nat} {ks : List Nat}
    {cs : List Node} (hcs : wfCs mk h lo ks hi cs = true)
    (hlen : cs.length = ks.length + 1) {i : Nat} (hi2 : i < ks.length)
    (hlk : (cs.getD i (.leaf [])).keys.length = mk)
    (hrk : (cs.getD (i + 1) (.leaf [])).keys.length = mk) :
    ∃ M : Node,
      mergeChildrenCore (.internal ks cs) i
        = .internal (ks.eraseIdx i) ((cs.set i M).eraseIdx (i + 1)) ∧
      M.toList = (cs.getD i (.leaf [])).toList
        ++ ks.getD i 0 :: (cs.getD (i + 1) (.leaf [])).toList ∧
      M.keys.length = 2 * mk + 1 ∧
      wfN mk h (tA lo ks i) (tB ks hi (i + 1)) M = true ∧
      M.keys = (cs.getD i (.leaf [])).keys
        ++ ks.getD i 0 :: (cs.getD (i + 1) (.leaf [])).keys := by
  have hwl := wfCs_getD hcs hlen i (by omega)
  have hwr := wfCs_getD hcs hlen (i + 1) (by omega)
  have htBi : tB ks hi i = some (ks.getD i 0) := by rw [tB, if_pos hi2]
  have htA1 : tA lo ks (i + 1) = some (ks.getD i 0) := by rw [tA_succ]
  rw [htBi] at hwl
  rw [htA1] at hwr
  rcases hL : cs.getD i (.leaf []) with lks | ⟨lks, lcs⟩
    <;> rcases hR : cs.getD (i + 1) (.leaf []) with rks | ⟨rks, rcs⟩
  · -- leaf and leaf
    rw [hL] at hwl hlk
    rw [hR] at hwr hrk
    simp only [wfN_leaf, Bool.and_eq_true, beq_iff_eq, decide_eq_true_eq] at hwl hwr
    simp only [keys_leaf] at hlk hrk
    refine ⟨.leaf (lks ++ ks.getD i 0 :: rks), ?e, ?tl, ?len, ?wf, ?keq⟩
    · simp only [mergeChildrenCore, hL, hR]
    · simp
    · simp only [keys_leaf, List.length_append, List.length_cons]
      omega
    · simp only [wfN_leaf, Bool.and_eq_true, beq_iff_eq, decide_eq_true_eq,
        List.length_append, List.length_cons]
      refine ⟨⟨⟨hwl.1.1.1, by omega⟩, by omega⟩, ?ch⟩
      exact (chainLt_append_iff _ _ _ _ _).mpr ⟨hwl.2, hwr.2⟩
    · simp [hL, hR]
  · -- leaf child next to internal sibling: impossible at equal height
    rw [hL] at hwl
    rw [hR] at hwr
    simp only [wfN_leaf, Bool.and_eq_true, beq_iff_eq] at hwl
    rw [hwl.1.1.1] at hwr
    simp at hwr
  · rw [hL] at hwl
    rw [hR] at hwr
    simp only [wfN_leaf, Bool.and_eq_true, beq_iff_eq] at hwr
    rw [hwr.1.1.1] at hwl
    simp at hwl
  · -- internal and internal
    rw [hL] at hwl hlk
    rw [hR] at hwr hrk
    cases h with
    | zero => simp at hwl
    | succ h2 =>
      simp only [wfN_internal_succ, Bool.and_eq_true, beq_iff_eq,
        decide_eq_true_eq] at hwl hwr
      simp only [keys_internal] at hlk hrk
      refine ⟨.internal (lks ++ ks.getD i 0 :: rks) (lcs ++ rcs), ?e2, ?tl2, ?len2,
        ?wf2, ?keq2⟩
      · simp only [mergeChildrenCore, hL, hR]
      · simp only [toList_internal]
        exact inorder_glue lcs lks rcs rks _ (by omega)
      · simp only [keys_internal, List.length_append, List.length_cons]
        omega
      · simp only [wfN_internal_succ, Bool.and_eq_true, beq_iff_eq,
          decide_eq_true_eq, List.length_append, List.length_cons]
        refine ⟨⟨⟨by omega, by omega⟩, by omega⟩, ?cs2⟩
        exact wfCs_join hwl.2 hwr.2
      · simp [hL, hR]

theorem ensure_eq_rich {mk : Nat} {ks : List Nat} {cs : List Node} {index : Nat}
    (h1 : mk < (cs.getD index (.leaf [])).keys.length) :
    ensureChildRemove mk (.internal ks cs) index = (.internal ks cs, index) := by
  rw [List.getD_eq_getElem?_getD] at h1
  rw [ensureChildRemove]
  simp [h1]

theorem ensure_eq_steal_left {mk : Nat} {ks : List Nat} {cs : List Node} {index : Nat}
    (h1 : ¬ mk < (cs.getD index (.leaf [])).keys.length)
    (h2 : 1 ≤ index ∧ mk < (cs.getD (index - 1) (.leaf [])).keys.length) :
    ensureChildRemove mk (.internal ks cs) index =
      (.internal (ks.set (index - 1) ((cs.getD (index - 1) (.leaf [])).keys.getLastD 0))
        ((cs.set (index - 1)
            (match cs.getD (index - 1) (.leaf []) with
             | .leaf lks => .leaf lks.dropLast
             | .internal lks lcs => .internal lks.dropLast lcs.dropLast)).set index
          (match cs.getD index (.leaf []) with
           | .leaf cks => .leaf (ks.getD (index - 1) 0 :: cks)
           | .internal cks ccs => .internal (ks.getD (index - 1) 0 :: cks)
               ((cs.getD (index - 1) (.leaf [])).children.getLastD (.leaf []) :: ccs))),
       index) := by
  rw [List.getD_eq_getElem?_getD] at h1 h2
  rw [ensureChildRemove]
  simp [h1, h2]

theorem ensure_eq_steal_right {mk : Nat} {ks : List Nat} {cs : List Node} {index : Nat}
    (h1 : ¬ mk < (cs.getD index (.leaf [])).keys.length)
    (h2 : ¬ (1 ≤ index ∧ mk < (cs.getD (index - 1) (.leaf [])).keys.length))
    (h3 : index < ks.length ∧ mk < (cs.getD (index + 1) (.leaf [])).keys.length) :
    ensureChildRemove mk (.internal ks cs) index =
      (.internal (ks.set index ((cs.getD (index + 1) (.leaf [])).keys.getD 0 0))
        ((cs.set index
            (match cs.getD index (.leaf []) with
             | .leaf cks => .leaf (cks ++ [ks.getD index 0])
             | .internal cks ccs => .internal (cks ++ [ks.getD index 0])
                 (ccs ++ [(cs.getD (index + 1) (.leaf [])).children.getD 0 (.leaf [])]))).set
          (index + 1)
          (match cs.getD (index + 1) (.leaf []) with
           | .leaf rks => .leaf rks.tail
           | .internal rks rcs => .internal rks.tail rcs.tail)),
       index) := by
  rw [List.getD_eq_getElem?_getD] at h1 h3
  rw [show (cs.getD (index - 1) (.leaf [])) = cs[index - 1]?.getD (.leaf [])
    from List.getD_eq_getElem?_getD _ _ _] at h2
  rw [ensureChildRemove]
  simp [h1, h2, h3]

theorem ensure_eq_merge_left {mk : Nat} {ks : List Nat} {cs : List Node} {index : Nat}
    (h1 : ¬ mk < (cs.getD index (.leaf [])).keys.length)
    (h2 : ¬ (1 ≤ index ∧ mk < (cs.getD (index - 1) (.leaf [])).keys.length))
    (h3 : ¬ (index < ks.length ∧ mk < (cs.getD (index + 1) (.leaf [])).keys.length))
    (h4 : 1 ≤ index) :
    ensureChildRemove mk (.internal ks cs) index =
      (mergeChildrenCore (.internal ks cs) (index - 1), index - 1) := by
  rw [List.getD_eq_getElem?_getD] at h1
  rw [show (cs.getD (index - 1) (.leaf [])) = cs[index - 1]?.getD (.leaf [])
    from List.getD_eq_getElem?_getD _ _ _] at h2
  rw [show (cs.getD (index + 1) (.leaf [])) = cs[index + 1]?.getD (.leaf [])
    from List.getD_eq_getElem?_getD _ _ _] at h3
  have h2b : ¬ mk < (cs[index - 1]?.getD (.leaf [])).keys.length := fun hc => h2 ⟨h4, hc⟩
  rw [ensureChildRemove]
  simp [h1, h2b, h3, h4]

theorem ensure_eq_merge_right {mk : Nat} {ks : List Nat} {cs : List Node} {index : Nat}
    (h1 : ¬ mk < (cs.getD index (.leaf [])).keys.length)
    (h2 : ¬ (1 ≤ index ∧ mk < (cs.getD (index - 1) (.leaf [])).keys.length))
    (h3 : ¬ (index < ks.length ∧ mk < (cs.getD (index + 1) (.leaf [])).keys.length))
    (h4 : ¬ 1 ≤ index) :
    ensureChildRemove mk (.internal ks cs) index =
      (mergeChildrenCore (.internal ks cs) index, index) := by
  rw [List.getD_eq_getElem?_getD] at h1
  rw [show (cs.getD (index - 1) (.leaf [])) = cs[index - 1]?.getD (.leaf [])
    from List.getD_eq_getElem?_getD _ _ _] at h2
  rw [show (cs.getD (index + 1) (.leaf [])) = cs[index + 1]?.getD (.leaf [])
    from List.getD_eq_getElem?_getD _ _ _] at h3
  rw [ensureChildRemove]
  simp [h1, h2, h3, h4]

theorem getD_set_self_nat (l : List Nat) (i x d : Nat) (h : i < l.length) :
    (l.set i x).getD i d = x := by
  rw [List.getD_eq_getElem _ _ (by simpa using h)]
  simp [List.getElem_set]

theorem getD_set_ne_nat (l : List Nat) (i j x d : Nat) (h : j ≠ i) :
    (l.set j x).getD i d = l.getD i d := by
  simp [List.getD_eq_getElem?_getD, List.getElem?_set_ne h]

/-- What `ensure_child_remove` guarantees about its result: the rebuilt
parent is valid with the same bounds and the same in-order keys, the
reported slot holds a child with more than `min_keys` keys, that slot's
`tempkey` bounds only widen, and precise bookkeeping of how the separator
count and slot moved. -/
def EnsureOK (mk h : Nat) (lo hi : Option Nat) (ks : List Nat) (cs : List Node)
    (index : Nat) : Prop :=
  ∃ ks' cs',
    (ensureChildRemove mk (.internal ks cs) index).1 = .internal ks' cs' ∧
    wfCs mk h lo ks' hi cs' = true ∧
    cs'.length = ks'.length + 1 ∧
    inorder cs' ks' = inorder cs ks ∧
    (ensureChildRemove mk (.internal ks cs) index).2 ≤ ks'.length ∧
    mk < (cs'.getD (ensureChildRemove mk (.internal ks cs) index).2
      (.leaf [])).keys.length ∧
    loLE (tA lo ks' (ensureChildRemove mk (.internal ks cs) index).2)
      (tA lo ks index) = true ∧
    hiLE (tB ks hi index)
      (tB ks' hi (ensureChildRemove mk (.internal ks cs) index).2) = true ∧
    (((ensureChildRemove mk (.internal ks cs) index).2 = index
        ∧ ks'.length = ks.length) ∨
      (ks'.length + 1 = ks.length ∧
        (((ensureChildRemove mk (.internal ks cs) index).2 + 1 = index ∧ 1 ≤ index) ∨
          ((ensureChildRemove mk (.internal ks cs) index).2 = index ∧ index = 0))))

theorem ensure_spec_rich {mk h : Nat} {lo hi : Option Nat} {ks : List Nat}
    {cs : List Node} (hcs : wfCs mk h lo ks hi cs = true)
    (hlen : cs.length = ks.length + 1) {index : Nat} (hidx : index ≤ ks.length)
    (hc1 : mk < (cs.getD index (.leaf [])).keys.length) :
    EnsureOK mk h lo hi ks cs index := by
  refine ⟨ks, cs, ?_, hcs, hlen, rfl, ?_, ?_, ?_, ?_, ?_⟩ <;>
    rw [ensure_eq_rich hc1]
  · exact hidx
  · exact hc1
  · exact loLE_refl _
  · exact hiLE_refl _
  · exact Or.inl ⟨rfl, rfl⟩

theorem ensure_spec_merge_left {mk h : Nat} (hmk : 1 ≤ mk) {lo hi : Option Nat}
    {ks : List Nat} {cs : List Node} (hcs : wfCs mk h lo ks hi cs = true)
    (hlen : cs.length = ks.length + 1) {index : Nat} (hidx : index ≤ ks.length)
    (hc1 : ¬ mk < (cs.getD index (.leaf [])).keys.length)
    (hc2 : ¬ (1 ≤ index ∧ mk < (cs.getD (index - 1) (.leaf [])).keys.length))
    (hc3 : ¬ (index < ks.length ∧ mk < (cs.getD (index + 1) (.leaf [])).keys.length))
    (hc4 : 1 ≤ index) :
    EnsureOK mk h lo hi ks cs index := by
  have hi1 : index - 1 < ks.length := by omega
  have hkch : chainLt lo ks hi = true := wfCs_keys_chain hcs
  have hwl := wfCs_getD hcs hlen (index - 1) (by omega)
  have hwc := wfCs_getD hcs hlen index hidx
  have hlk : (cs.getD (index - 1) (.leaf [])).keys.length = mk := by
    have h1 := (wfN_keys_le hwl).1
    have h2 : ¬ mk < (cs.getD (index - 1) (.leaf [])).keys.length :=
      fun hc => hc2 ⟨hc4, hc⟩
    omega
  have hrk : (cs.getD index (.leaf [])).keys.length = mk := by
    have h1 := (wfN_keys_le hwc).1
    omega
  have hrk2 : (cs.getD ((index - 1) + 1) (.leaf [])).keys.length = mk := by
    rw [show index - 1 + 1 = index from by omega]
    exact hrk
  obtain ⟨M, heqM, htlM, hlenM, hwfM, hkeysM⟩ := mergeCore_spec hcs hlen hi1 hlk hrk2
  have heq2 := ensure_eq_merge_left hc1 hc2 hc3 hc4
  rw [heqM] at heq2
  have hklen' : (ks.eraseIdx (index - 1)).length = ks.length - 1 :=
    length_eraseIdx_of_lt _ _ hi1
  have hcslen' : (((cs.set (index - 1) M).eraseIdx (index - 1 + 1))).length
      = cs.length - 1 := by
    rw [List.length_eraseIdx, List.length_set]
    rw [if_pos (by omega)]
  have e1 : (ensureChildRemove mk (.internal ks cs) index).1
      = .internal (ks.eraseIdx (index - 1))
        ((cs.set (index - 1) M).eraseIdx (index - 1 + 1)) := by rw [heq2]
  have e2 : (ensureChildRemove mk (.internal ks cs) index).2 = index - 1 := by
    rw [heq2]
  refine ⟨ks.eraseIdx (index - 1), (cs.set (index - 1) M).eraseIdx (index - 1 + 1),
    e1, ?_, ?_, ?_, ?_, ?_, ?_, ?_, ?_⟩ <;> try rw [e2]
  · exact wfCs_merge_child hcs hlen (index - 1) hi1 hwfM
  · rw [hcslen', hklen']
    omega
  · exact inorder_merge_slot cs ks (index - 1) M hlen hi1 htlM
  · rw [hklen']
    omega
  · rw [getD_eraseIdx_lt _ _ _ _ (by omega), getD_set_self _ _ _ _ (by omega), hlenM]
    omega
  · rw [tA_eraseIdx_eq]
    exact tA_mono hkch (by omega) hidx
  · rw [tB_eraseIdx_eq _ _ _ hi1, show index - 1 + 1 = index from by omega]
    exact hiLE_refl _
  · exact Or.inr ⟨by omega, Or.inl ⟨by omega, hc4⟩⟩

theorem ensure_spec_merge_right {mk h : Nat} (hmk : 1 ≤ mk) {lo hi : Option Nat}
    {ks : List Nat} {cs : List Node} (hcs : wfCs mk h lo ks hi cs = true)
    (hlen : cs.length = ks.length + 1) (hk1 : 1 ≤ ks.length) {index : Nat}
    (hidx : index ≤ ks.length)
    (hc1 : ¬ mk < (cs.getD index (.leaf [])).keys.length)
    (hc2 : ¬ (1 ≤ index ∧ mk < (cs.getD (index - 1) (.leaf [])).keys.length))
    (hc3 : ¬ (index < ks.length ∧ mk < (cs.getD (index + 1) (.leaf [])).keys.length))
    (hc4 : ¬ 1 ≤ index) :
    EnsureOK mk h lo hi ks cs index := by
  have hiz : index = 0 := by omega
  subst hiz
  have hi1 : 0 < ks.length := hk1
  have hkch : chainLt lo ks hi = true := wfCs_keys_chain hcs
  have hwc := wfCs_getD hcs hlen 0 (by omega)
  have hwr := wfCs_getD hcs hlen 1 (by omega)
  have hlk : (cs.getD 0 (.leaf [])).keys.length = mk := by
    have h1 := (wfN_keys_le hwc).1
    omega
  have hrk : (cs.getD 1 (.leaf [])).keys.length = mk := by
    have h1 := (wfN_keys_le hwr).1
    have h2 : ¬ mk < (cs.getD (0 + 1) (.leaf [])).keys.length :=
      fun hc => hc3 ⟨hi1, hc⟩
    simp only [Nat.zero_add] at h2
    omega
  obtain ⟨M, heqM, htlM, hlenM, hwfM, hkeysM⟩ := mergeCore_spec hcs hlen hi1 hlk hrk
  have heq2 := ensure_eq_merge_right hc1 hc2 hc3 hc4
  rw [heqM] at heq2
  have hklen' : (ks.eraseIdx 0).length = ks.length - 1 :=
    length_eraseIdx_of_lt _ _ hi1
  have hcslen' : ((cs.set 0 M).eraseIdx 1).length = cs.length - 1 := by
    rw [List.length_eraseIdx, List.length_set]
    rw [if_pos (by omega)]
  have e1 : (ensureChildRemove mk (.internal ks cs) 0).1
      = .internal (ks.eraseIdx 0) ((cs.set 0 M).eraseIdx 1) := by
    rw [heq2]
  have e2 : (ensureChildRemove mk (.internal ks cs) 0).2 = 0 := by
    rw [heq2]
  refine ⟨ks.eraseIdx 0, (cs.set 0 M).eraseIdx 1,
    e1, ?_, ?_, ?_, ?_, ?_, ?_, ?_, ?_⟩ <;> try rw [e2]
  · exact wfCs_merge_child hcs hlen 0 hi1 hwfM
  · rw [hcslen', hklen']
    omega
  · exact inorder_merge_slot cs ks 0 M hlen hi1 htlM
  · omega
  · rw [getD_eraseIdx_lt _ _ _ _ (by omega), getD_set_self _ _ _ _ (by omega), hlenM]
    omega
  · exact loLE_refl _
  · rw [tB_eraseIdx_eq _ _ _ hi1]
    exact tB_mono hkch (by omega)
  · exact Or.inr ⟨by omega, Or.inr ⟨rfl, rfl⟩⟩

theorem ensure_eq_steal_left_leaf {mk : Nat} {ks : List Nat} {cs : List Node}
    {index : Nat} (h1 : ¬ mk < (cs.getD index (.leaf [])).keys.length)
    (h2 : 1 ≤ index ∧ mk < (cs.getD (index - 1) (.leaf [])).keys.length)
    {lks cks : List Nat} (hL : cs.getD (index - 1) (.leaf []) = .leaf lks)
    (hC : cs.getD index (.leaf []) = .leaf cks) :
    ensureChildRemove mk (.internal ks cs) index =
      (.internal (ks.set (index - 1) (lks.getLastD 0))
        ((cs.set (index - 1) (.leaf lks.dropLast)).set index
          (.leaf (ks.getD (index - 1) 0 :: cks))), index) := by
  rw [ensure_eq_steal_left h1 h2, hL, hC]
  rfl

theorem ensure_eq_steal_left_int {mk : Nat} {ks : List Nat} {cs : List Node}
    {index : Nat} (h1 : ¬ mk < (cs.getD index (.leaf [])).keys.length)
    (h2 : 1 ≤ index ∧ mk < (cs.getD (index - 1) (.leaf [])).keys.length)
    {lks cks : List Nat} {lcs ccs : List Node}
    (hL : cs.getD (index - 1) (.leaf []) = .internal lks lcs)
    (hC : cs.getD index (.leaf []) = .internal cks ccs) :
    ensureChildRemove mk (.internal ks cs) index =
      (.internal (ks.set (index - 1) (lks.getLastD 0))
        ((cs.set (index - 1) (.internal lks.dropLast lcs.dropLast)).set index
          (.internal (ks.getD (index - 1) 0 :: cks)
            (lcs.getLastD (.leaf []) :: ccs))), index) := by
  rw [ensure_eq_steal_left h1 h2, hL, hC]
  rfl

theorem ensure_eq_steal_right_leaf {mk : Nat} {ks : List Nat} {cs : List Node}
    {index : Nat} (h1 : ¬ mk < (cs.getD index (.leaf [])).keys.length)
    (h2 : ¬ (1 ≤ index ∧ mk < (cs.getD (index - 1) (.leaf [])).keys.length))
    (h3 : index < ks.length ∧ mk < (cs.getD (index + 1) (.leaf [])).keys.length)
    {cks rks : List Nat} (hC : cs.getD index (.leaf []) = .leaf cks)
    (hR : cs.getD (index + 1) (.leaf []) = .leaf rks) :
    ensureChildRemove mk (.internal ks cs) index =
      (.internal (ks.set index (rks.getD 0 0))
        ((cs.set index (.leaf (cks ++ [ks.getD index 0]))).set (index + 1)
          (.leaf rks.tail)), index) := by
  rw [ensure_eq_steal_right h1 h2 h3, hC, hR]
  rfl

theorem ensure_eq_steal_right_int {mk : Nat} {ks : List Nat} {cs : List Node}
    {index : Nat} (h1 : ¬ mk < (cs.getD index (.leaf [])).keys.length)
    (h2 : ¬ (1 ≤ index ∧ mk < (cs.getD (index - 1) (.leaf [])).keys.length))
    (h3 : index < ks.length ∧ mk < (cs.getD (index + 1) (.leaf [])).keys.length)
    {cks rks : List Nat} {ccs rcs : List Node}
    (hC : cs.getD index (.leaf []) = .internal cks ccs)
    (hR : cs.getD (index + 1) (.leaf []) = .internal rks rcs) :
    ensureChildRemove mk (.internal ks cs) index =
      (.internal (ks.set index (rks.getD 0 0))
        ((cs.set index (.internal (cks ++ [ks.getD index 0])
            (ccs ++ [rcs.getD 0 (.leaf [])]))).set (index + 1)
          (.internal rks.tail rcs.tail)), index) := by
  rw [ensure_eq_steal_right h1 h2 h3, hC, hR]
  rfl

theorem ensure_spec_steal_left {mk h : Nat} (hmk : 1 ≤ mk) {lo hi : Option Nat}
    {ks : List Nat} {cs : List Node} (hcs : wfCs mk h lo ks hi cs = true)
    (hlen : cs.length = ks.length + 1) {index : Nat} (hidx : index ≤ ks.length)
    (hc1 : ¬ mk < (cs.getD index (.leaf [])).keys.length)
    (hc2 : 1 ≤ index ∧ mk < (cs.getD (index - 1) (.leaf [])).keys.length) :
    EnsureOK mk h lo hi ks cs index := by
  have hi1 : 1 ≤ index := hc2.1
  have hi1lt : index - 1 < ks.length := by omega
  have hkch : chainLt lo ks hi = true := wfCs_keys_chain hcs
  have hwl := wfCs_getD hcs hlen (index - 1) (by omega)
  have hwc := wfCs_getD hcs hlen index hidx
  have hck : (cs.getD index (.leaf [])).keys.length = mk := by
    have h2 := (wfN_keys_le hwc).1
    omega
  have htBl : tB ks hi (index - 1) = some (ks.getD (index - 1) 0) := by
    rw [tB, if_pos hi1lt]
  have htAc : tA lo ks index = some (ks.getD (index - 1) 0) := by
    cases index with
    | zero => exact absurd hi1 (by omega)
    | succ n =>
      rw [tA_succ]
      rfl
  rw [htBl] at hwl
  rw [htAc] at hwc
  have htBeq : ∀ L : Nat, tB (ks.set (index - 1) L) hi index = tB ks hi index := by
    intro L
    rw [tB, tB, List.length_set]
    by_cases hx : index < ks.length
    · rw [if_pos hx, if_pos hx, getD_set_ne_nat _ _ _ _ _ (by omega)]
    · rw [if_neg hx, if_neg hx]
  have htAnew : ∀ L : Nat, tA lo (ks.set (index - 1) L) index = some L := by
    intro L
    cases index with
    | zero => exact absurd hi1 (by omega)
    | succ n =>
      rw [tA_succ]
      rw [show n + 1 - 1 = n from rfl]
      rw [getD_set_self_nat ks n L 0 (by omega)]
  rcases hLs : cs.getD (index - 1) (.leaf []) with lks | ⟨lks, lcs⟩
    <;> rcases hCs : cs.getD index (.leaf []) with cks | ⟨cks, ccs⟩
  · -- both leaves
    have hrich := hc2.2
    rw [hLs] at hwl hrich
    rw [hCs] at hwc hck
    simp only [keys_leaf] at hrich hck
    simp only [wfN_leaf, Bool.and_eq_true, beq_iff_eq, decide_eq_true_eq] at hwl hwc
    have hlne : lks ≠ [] := by
      intro hc
      rw [hc] at hrich
      simp at hrich
    have hdec := (dropLast_append_getLastD lks 0 hlne).symm
    have hch2 : chainLt (tA lo ks (index - 1))
        (lks.dropLast ++ lks.getLastD 0 :: []) (some (ks.getD (index - 1) 0))
        = true := by
      rw [show lks.dropLast ++ lks.getLastD 0 :: [] = lks from by
        rw [← hdec]]
      exact hwl.2
    have hsplit := (chainLt_append_iff _ _ _ _ _).mp hch2
    have hLsep : optLt (some (lks.getLastD 0)) (some (ks.getD (index - 1) 0)) = true := by
      simpa using hsplit.2
    have hLmem : lks.getLastD 0 ∈ lks := by
      rw [hdec]
      simp
    have hL1 := (chainLt_mem_bounds hwl.2 hLmem).1
    have hl' : wfN mk h (tA lo ks (index - 1)) (some (lks.getLastD 0))
        (.leaf lks.dropLast) = true := by
      simp only [wfN_leaf, Bool.and_eq_true, beq_iff_eq, decide_eq_true_eq,
        List.length_dropLast]
      exact ⟨⟨⟨hwl.1.1.1, by omega⟩, by omega⟩, hsplit.1⟩
    have hc' : wfN mk h (some (lks.getLastD 0)) (tB ks hi ((index - 1) + 1))
        (.leaf (ks.getD (index - 1) 0 :: cks)) = true := by
      rw [show index - 1 + 1 = index from by omega]
      simp only [wfN_leaf, Bool.and_eq_true, beq_iff_eq, decide_eq_true_eq,
        List.length_cons, chainLt_cons]
      exact ⟨⟨⟨hwc.1.1.1, by omega⟩, by omega⟩, hLsep, hwc.2⟩
    have hwfcs' := wfCs_steal hcs hlen (index - 1) hi1lt hl' hc'
    rw [show index - 1 + 1 = index from by omega] at hwfcs'
    have hm : (Node.leaf lks.dropLast).toList ++ lks.getLastD 0
          :: (Node.leaf (ks.getD (index - 1) 0 :: cks)).toList
        = (cs.getD (index - 1) (.leaf [])).toList
          ++ ks.getD (index - 1) 0 :: (cs.getD (index - 1 + 1) (.leaf [])).toList := by
      rw [show index - 1 + 1 = index from by omega, hLs, hCs]
      simp only [toList_leaf]
      rw [hdec]
      simp
    have hinor := inorder_steal_slot cs ks (index - 1) _ _ _ hlen hi1lt hm
    rw [show index - 1 + 1 = index from by omega] at hinor
    have heq2 := @ensure_eq_steal_left_leaf mk ks cs index hc1 hc2 lks cks hLs hCs
    have e1 : (ensureChildRemove mk (.internal ks cs) index).1
        = .internal (ks.set (index - 1) (lks.getLastD 0))
          ((cs.set (index - 1) (.leaf lks.dropLast)).set index
            (.leaf (ks.getD (index - 1) 0 :: cks))) := by rw [heq2]
    have e2 : (ensureChildRemove mk (.internal ks cs) index).2 = index := by rw [heq2]
    refine ⟨_, _, e1, hwfcs', by simp [List.length_set, hlen], hinor,
      ?_, ?_, ?_, ?_, ?_⟩ <;> rw [e2]
    · simp only [List.length_set]
      omega
    · rw [getD_set_self _ _ _ _ (by simp; omega)]
      simp only [keys_leaf, List.length_cons]
      omega
    · rw [htAnew, htAc]
      exact loLE_of_optLt hLsep
    · rw [htBeq]
      exact hiLE_refl _
    · exact Or.inl ⟨rfl, by simp⟩
  · -- left leaf, child internal: impossible
    rw [hLs] at hwl
    rw [hCs] at hwc
    simp only [wfN_leaf, Bool.and_eq_true, beq_iff_eq] at hwl
    rw [hwl.1.1.1] at hwc
    simp at hwc
  · -- left internal, child leaf: impossible
    rw [hLs] at hwl
    rw [hCs] at hwc
    simp only [wfN_leaf, Bool.and_eq_true, beq_iff_eq] at hwc
    rw [hwc.1.1.1] at hwl
    simp at hwl
  · -- both internal
    have hrich := hc2.2
    rw [hLs] at hwl hrich
    rw [hCs] at hwc hck
    simp only [keys_internal] at hrich hck
    cases h with
    | zero => simp at hwl
    | succ h2 =>
      simp only [wfN_internal_succ, Bool.and_eq_true, beq_iff_eq,
        decide_eq_true_eq] at hwl hwc
      have hlne : lks ≠ [] := by
        intro hc
        rw [hc] at hrich
        simp at hrich
      have hlcsne : lcs ≠ [] := by
        intro hc
        rw [hc] at hwl
        have := hwl.1.2
        simp only [List.length_nil] at this
        omega
      have hkdec := (dropLast_append_getLastD lks 0 hlne).symm
      have hkchl : chainLt (tA lo ks (index - 1)) lks
          (some (ks.getD (index - 1) 0)) = true := wfCs_keys_chain hwl.2
      have hch2 : chainLt (tA lo ks (index - 1))
          (lks.dropLast ++ lks.getLastD 0 :: []) (some (ks.getD (index - 1) 0))
          = true := by
        rw [show lks.dropLast ++ lks.getLastD 0 :: [] = lks from by rw [← hkdec]]
        exact hkchl
      have hsplit := (chainLt_append_iff _ _ _ _ _).mp hch2
      have hLsep : optLt (some (lks.getLastD 0)) (some (ks.getD (index - 1) 0))
          = true := by simpa using hsplit.2
      have hLmem : lks.getLastD 0 ∈ lks := by
        rw [hkdec]
        simp
      have hL1 := (chainLt_mem_bounds hkchl hLmem).1
      -- the last child of the left sibling
      have hg := wfCs_getD hwl.2 (by omega) lks.length (le_refl _)
      have hgA : tA (tA lo ks (index - 1)) lks lks.length = some (lks.getLastD 0) := by
        cases hx : lks with
        | nil => exact absurd hx hlne
        | cons a as =>
          rw [← hx, show lks.length = (lks.length - 1) + 1 from by
            rw [hx]; simp, tA_succ, getLastD_eq_getD_nat]
      have hgB : tB lks (some (ks.getD (index - 1) 0)) lks.length
          = some (ks.getD (index - 1) 0) := by
        rw [tB, if_neg (by omega)]
      rw [hgA, hgB] at hg
      have hglast : lcs.getD lks.length (.leaf []) = lcs.getLastD (.leaf []) := by
        rw [getLastD_eq_getD_node]
        rw [show lcs.length - 1 = lks.length from by omega]
      rw [hglast] at hg
      have hl' : wfN mk (h2 + 1) (tA lo ks (index - 1)) (some (lks.getLastD 0))
          (.internal lks.dropLast lcs.dropLast) = true := by
        simp only [wfN_internal_succ, Bool.and_eq_true, beq_iff_eq,
          decide_eq_true_eq, List.length_dropLast]
        refine ⟨⟨⟨by omega, by omega⟩, by omega⟩, ?_⟩
        exact wfCs_dropLast hwl.2 (by omega) hlne
      have hc' : wfN mk (h2 + 1) (some (lks.getLastD 0)) (tB ks hi ((index - 1) + 1))
          (.internal (ks.getD (index - 1) 0 :: cks)
            (lcs.getLastD (.leaf []) :: ccs)) = true := by
        rw [show index - 1 + 1 = index from by omega]
        simp only [wfN_internal_succ, Bool.and_eq_true, beq_iff_eq,
          decide_eq_true_eq, List.length_cons, wfCs_cons_cons]
        exact ⟨⟨⟨by omega, by omega⟩, by omega⟩, hg, hwc.2⟩
      have hwfcs' := wfCs_steal hcs hlen (index - 1) hi1lt hl' hc'
      rw [show index - 1 + 1 = index from by omega] at hwfcs'
      have hm : (Node.internal lks.dropLast lcs.dropLast).toList ++ lks.getLastD 0
            :: (Node.internal (ks.getD (index - 1) 0 :: cks)
              (lcs.getLastD (.leaf []) :: ccs)).toList
          = (cs.getD (index - 1) (.leaf [])).toList
            ++ ks.getD (index - 1) 0 :: (cs.getD (index - 1 + 1) (.leaf [])).toList := by
        rw [show index - 1 + 1 = index from by omega, hLs, hCs]
        simp only [toList_internal, inorder_cons_cons]
        rw [inorder_dropLast lcs lks (by omega) hlne]
        simp [List.append_assoc]
      have hinor := inorder_steal_slot cs ks (index - 1) _ _ _ hlen hi1lt hm
      rw [show index - 1 + 1 = index from by omega] at hinor
      have heq2 := @ensure_eq_steal_left_int mk ks cs index hc1 hc2 lks cks lcs ccs hLs hCs
      have e1 : (ensureChildRemove mk (.internal ks cs) index).1
          = .internal (ks.set (index - 1) (lks.getLastD 0))
            ((cs.set (index - 1) (.internal lks.dropLast lcs.dropLast)).set index
              (.internal (ks.getD (index - 1) 0 :: cks)
                (lcs.getLastD (.leaf []) :: ccs))) := by rw [heq2]
      have e2 : (ensureChildRemove mk (.internal ks cs) index).2 = index := by
        rw [heq2]
      refine ⟨_, _, e1, hwfcs', by simp [List.length_set, hlen], hinor,
        ?_, ?_, ?_, ?_, ?_⟩ <;> rw [e2]
      · simp only [List.length_set]
        omega
      · rw [getD_set_self _ _ _ _ (by simp; omega)]
        simp only [keys_internal, List.length_cons]
        omega
      · rw [htAnew, htAc]
        exact loLE_of_optLt hLsep
      · rw [htBeq]
        exact hiLE_refl _
      · exact Or.inl ⟨rfl, by simp⟩

theorem ensure_spec_steal_right {mk h : Nat} (hmk : 1 ≤ mk) {lo hi : Option Nat}
    {ks : List Nat} {cs : List Node} (hcs : wfCs mk h lo ks hi cs = true)
    (hlen : cs.length = ks.length + 1) {index : Nat} (hidx : index ≤ ks.length)
    (hc1 : ¬ mk < (cs.getD index (.leaf [])).keys.length)
    (hc2 : ¬ (1 ≤ index ∧ mk < (cs.getD (index - 1) (.leaf [])).keys.length))
    (hc3 : index < ks.length ∧ mk < (cs.getD (index + 1) (.leaf [])).keys.length) :
    EnsureOK mk h lo hi ks cs index := by
  have hilt : index < ks.length := hc3.1
  have hkch : chainLt lo ks hi = true := wfCs_keys_chain hcs
  have hwc := wfCs_getD hcs hlen index hidx
  have hwr := wfCs_getD hcs hlen (index + 1) (by omega)
  have hck : (cs.getD index (.leaf [])).keys.length = mk := by
    have h2 := (wfN_keys_le hwc).1
    omega
  have htBc : tB ks hi index = some (ks.getD index 0) := by
    rw [tB, if_pos hilt]
  have htAr : tA lo ks (index + 1) = some (ks.getD index 0) := by
    rw [tA_succ]
  rw [htBc] at hwc
  rw [htAr] at hwr
  have htAeq : ∀ L : Nat, tA lo (ks.set index L) index = tA lo ks index := by
    intro L
    cases index with
    | zero => rfl
    | succ n =>
      rw [tA_succ, tA_succ, getD_set_ne_nat ks n (n + 1) L 0 (by omega)]
  have htBnew : ∀ L : Nat, tB (ks.set index L) hi index = some L := by
    intro L
    rw [tB, List.length_set, if_pos hilt, getD_set_self_nat ks index L 0 hilt]
  rcases hCs : cs.getD index (.leaf []) with cks | ⟨cks, ccs⟩
    <;> rcases hRs : cs.getD (index + 1) (.leaf []) with rks | ⟨rks, rcs⟩
  · -- both leaves
    have hrich := hc3.2
    rw [hCs] at hwc hck
    rw [hRs] at hwr hrich
    simp only [keys_leaf] at hrich hck
    simp only [wfN_leaf, Bool.and_eq_true, beq_iff_eq, decide_eq_true_eq] at hwc hwr
    cases rks with
    | nil => exact absurd hrich (by simp)
    | cons r0 rt =>
      have hrtlen : (r0 :: rt).length = rt.length + 1 := by simp
      simp only [List.length_cons] at hrich
      have hchR := hwr.2
      simp only [chainLt_cons, Bool.and_eq_true] at hchR
      have hsep_r0 : ks.getD index 0 < r0 := by simpa using hchR.1
      have hc' : wfN mk h (tA lo ks index) (some r0)
          (.leaf (cks ++ [ks.getD index 0])) = true := by
        simp only [wfN_leaf, Bool.and_eq_true, beq_iff_eq, decide_eq_true_eq,
          List.length_append, List.length_cons, List.length_nil]
        refine ⟨⟨⟨hwc.1.1.1, by omega⟩, by omega⟩, ?_⟩
        rw [show cks ++ [ks.getD index 0] = cks ++ ks.getD index 0 :: [] from rfl]
        refine (chainLt_append_iff _ _ _ _ _).mpr ⟨hwc.2, ?_⟩
        simpa using hsep_r0
      have hr' : wfN mk h (some r0) (tB ks hi (index + 1)) (.leaf rt) = true := by
        simp only [wfN_leaf, Bool.and_eq_true, beq_iff_eq, decide_eq_true_eq]
        have hr1 := hwr.1
        refine ⟨⟨⟨hwr.1.1.1, by omega⟩, by omega⟩, hchR.2⟩
      have hwfcs' := wfCs_steal hcs hlen index hilt hc' hr'
      have hm : (Node.leaf (cks ++ [ks.getD index 0])).toList ++ r0
            :: (Node.leaf rt).toList
          = (cs.getD index (.leaf [])).toList
            ++ ks.getD index 0 :: (cs.getD (index + 1) (.leaf [])).toList := by
        rw [hCs, hRs]
        simp only [toList_leaf]
        simp [List.append_assoc]
      have hinor := inorder_steal_slot cs ks index _ _ _ hlen hilt hm
      have heq2 := @ensure_eq_steal_right_leaf mk ks cs index hc1 hc2 hc3
        cks (r0 :: rt) hCs hRs
      have e1 : (ensureChildRemove mk (.internal ks cs) index).1
          = .internal (ks.set index r0)
            ((cs.set index (.leaf (cks ++ [ks.getD index 0]))).set (index + 1)
              (.leaf rt)) := by
        rw [heq2]
        rfl
      have e2 : (ensureChildRemove mk (.internal ks cs) index).2 = index := by
        rw [heq2]
      refine ⟨_, _, e1, hwfcs', by simp [List.length_set, hlen], hinor,
        ?_, ?_, ?_, ?_, ?_⟩ <;> try rw [e2]
      · simp only [List.length_set]
        omega
      · rw [getD_set_ne _ _ _ _ _ (by omega), getD_set_self _ _ _ _ (by omega)]
        simp only [keys_leaf, List.length_append, List.length_cons, List.length_nil]
        omega
      · rw [htAeq]
        exact loLE_refl _
      · rw [htBnew, htBc]
        simp only [hiLE_some_some, decide_eq_true_eq]
        omega
      · exact Or.inl ⟨rfl, by simp⟩
  · -- child leaf, right internal: impossible
    rw [hCs] at hwc
    rw [hRs] at hwr
    simp only [wfN_leaf, Bool.and_eq_true, beq_iff_eq] at hwc
    rw [hwc.1.1.1] at hwr
    simp at hwr
  · -- child internal, right leaf: impossible
    rw [hCs] at hwc
    rw [hRs] at hwr
    simp only [wfN_leaf, Bool.and_eq_true, beq_iff_eq] at hwr
    rw [hwr.1.1.1] at hwc
    simp at hwc
  · -- both internal
    have hrich := hc3.2
    rw [hCs] at hwc hck
    rw [hRs] at hwr hrich
    simp only [keys_internal] at hrich hck
    cases h with
    | zero => simp at hwc
    | succ h2 =>
      simp only [wfN_internal_succ, Bool.and_eq_true, beq_iff_eq,
        decide_eq_true_eq] at hwc hwr
      cases rks with
      | nil => exact absurd hrich (by simp)
      | cons r0 rt =>
        cases rcs with
        | nil =>
          have h3 := hwr.1.2
          simp only [List.length_nil] at h3
          omega
        | cons g0 gt =>
          simp only [List.length_cons] at hrich hwr
          have hlens_r := hwr.1.2
          simp only [List.length_cons] at hlens_r
          have hlens_c := hwc.1.2
          have hchR := hwr.2
          simp only [wfCs_cons_cons, Bool.and_eq_true] at hchR
          have hg : wfN mk h2 (some (ks.getD index 0)) (some r0) g0 = true := hchR.1
          have hrest := hchR.2
          have hsep_r0 : ks.getD index 0 < r0 := by
            have hx := wfN_keys_chain hg
            have := chainLt_optLt hx
            simpa using this
          have hc' : wfN mk (h2 + 1) (tA lo ks index) (some r0)
              (.internal (cks ++ [ks.getD index 0]) (ccs ++ [g0])) = true := by
            simp only [wfN_internal_succ, Bool.and_eq_true, beq_iff_eq,
              decide_eq_true_eq, List.length_append, List.length_cons,
              List.length_nil]
            refine ⟨⟨⟨by omega, by omega⟩, by omega⟩, ?_⟩
            exact wfCs_snoc hg hwc.2 (by omega)
          have hr' : wfN mk (h2 + 1) (some r0) (tB ks hi (index + 1))
              (.internal rt gt) = true := by
            simp only [wfN_internal_succ, Bool.and_eq_true, beq_iff_eq,
              decide_eq_true_eq]
            refine ⟨⟨⟨by omega, by omega⟩, by omega⟩, hrest⟩
          have hwfcs' := wfCs_steal hcs hlen index hilt hc' hr'
          have hsnoc : inorder (ccs ++ [g0]) (cks ++ [ks.getD index 0])
              = inorder ccs cks ++ ks.getD index 0 :: g0.toList := by
            rw [inorder_dropLast (ccs ++ [g0]) (cks ++ [ks.getD index 0])
              (by simp; omega) (by simp)]
            rw [List.dropLast_concat, List.dropLast_concat,
              List.getLastD_concat, List.getLastD_concat]
          have hm : (Node.internal (cks ++ [ks.getD index 0]) (ccs ++ [g0])).toList
                ++ r0 :: (Node.internal rt gt).toList
              = (cs.getD index (.leaf [])).toList
                ++ ks.getD index 0 :: (cs.getD (index + 1) (.leaf [])).toList := by
            rw [hCs, hRs]
            simp only [toList_internal, inorder_cons_cons, hsnoc]
            simp [List.append_assoc]
          have hinor := inorder_steal_slot cs ks index _ _ _ hlen hilt hm
          have heq2 := @ensure_eq_steal_right_int mk ks cs index hc1 hc2 hc3
            cks (r0 :: rt) ccs (g0 :: gt) hCs hRs
          have e1 : (ensureChildRemove mk (.internal ks cs) index).1
              = .internal (ks.set index r0)
                ((cs.set index (.internal (cks ++ [ks.getD index 0])
                    (ccs ++ [g0]))).set (index + 1)
                  (.internal rt gt)) := by
            rw [heq2]
            rfl
          have e2 : (ensureChildRemove mk (.internal ks cs) index).2 = index := by
            rw [heq2]
          refine ⟨_, _, e1, hwfcs', by simp [List.length_set, hlen], hinor,
            ?_, ?_, ?_, ?_, ?_⟩ <;> try rw [e2]
          · simp only [List.length_set]
            omega
          · rw [getD_set_ne _ _ _ _ _ (by omega), getD_set_self _ _ _ _ (by omega)]
            simp only [keys_internal, List.length_append, List.length_cons,
              List.length_nil]
            omega
          · rw [htAeq]
            exact loLE_refl _
          · rw [htBnew, htBc]
            simp only [hiLE_some_some, decide_eq_true_eq]
            omega
          · exact Or.inl ⟨rfl, by simp⟩

/-- The full `ensure_child_remove` specification, dispatching the source's
four rebalancing strategies in priority order. -/
theorem ensureChildRemove_spec {mk h : Nat} (hmk : 1 ≤ mk) {lo hi : Option Nat}
    {ks : List Nat} {cs : List Node} (hcs : wfCs mk h lo ks hi cs = true)
    (hlen : cs.length = ks.length + 1) (hk1 : 1 ≤ ks.length) {index : Nat}
    (hidx : index ≤ ks.length) :
    EnsureOK mk h lo hi ks cs index := by
  by_cases hc1 : mk < (cs.getD index (.leaf [])).keys.length
  · exact ensure_spec_rich hcs hlen hidx hc1
  · by_cases hc2 : 1 ≤ index ∧ mk < (cs.getD (index - 1) (.leaf [])).keys.length
    · exact ensure_spec_steal_left hmk hcs hlen hidx hc1 hc2
    · by_cases hc3 : index < ks.length ∧ mk < (cs.getD (index + 1) (.leaf [])).keys.length
      · exact ensure_spec_steal_right hmk hcs hlen hidx hc1 hc2 hc3
      · by_cases hc4 : 1 ≤ index
        · exact ensure_spec_merge_left hmk hcs hlen hidx hc1 hc2 hc3 hc4
        · exact ensure_spec_merge_right hmk hcs hlen hk1 hidx hc1 hc2 hc3 hc4

theorem removeMax_leaf_eq (mk : Nat) (ks : List Nat) :
    removeMax mk (.leaf ks)
      = (.leaf (ks.eraseIdx (ks.length - 1)), ks.getD (ks.length - 1) 0) := by
  rw [removeMax]

theorem removeMax_internal_eq (mk : Nat) (ks : List Nat) (cs : List Node) :
    removeMax mk (.internal ks cs) =
      (setChildAt (ensureChildRemove mk (.internal ks cs) (cs.length - 1)).1
        (ensureChildRemove mk (.internal ks cs) (cs.length - 1)).2
        (removeMax mk
          ((ensureChildRemove mk (.internal ks cs) (cs.length - 1)).1.children.getD
            (ensureChildRemove mk (.internal ks cs) (cs.length - 1)).2 (.leaf []))).1,
       (removeMax mk
          ((ensureChildRemove mk (.internal ks cs) (cs.length - 1)).1.children.getD
            (ensureChildRemove mk (.internal ks cs) (cs.length - 1)).2 (.leaf []))).2) := by
  rw [removeMax]

theorem removeMin_leaf_eq (mk : Nat) (ks : List Nat) :
    removeMin mk (.leaf ks) = (.leaf (ks.eraseIdx 0), ks.getD 0 0) := by
  rw [removeMin]

theorem removeMin_internal_eq (mk : Nat) (ks : List Nat) (cs : List Node) :
    removeMin mk (.internal ks cs) =
      (setChildAt (ensureChildRemove mk (.internal ks cs) 0).1
        (ensureChildRemove mk (.internal ks cs) 0).2
        (removeMin mk
          ((ensureChildRemove mk (.internal ks cs) 0).1.children.getD
            (ensureChildRemove mk (.internal ks cs) 0).2 (.leaf []))).1,
       (removeMin mk
          ((ensureChildRemove mk (.internal ks cs) 0).1.children.getD
            (ensureChildRemove mk (.internal ks cs) 0).2 (.leaf []))).2) := by
  rw [removeMin]

/-- `Node.remove_max()` on a valid node with more than `min_keys` keys:
validity is preserved and exactly the largest key is split off the end of
the in-order list. -/
theorem removeMax_spec {mk : Nat} (hmk : 1 ≤ mk) : ∀ (h : Nat) {lo hi : Option Nat}
    {n : Node}, wfN mk h lo hi n = true → mk < n.keys.length →
    wfN mk h lo hi (removeMax mk n).1 = true ∧
    n.toList = (removeMax mk n).1.toList ++ [(removeMax mk n).2] := by
  intro h
  induction h with
  | zero =>
    intro lo hi n hwf hrich
    cases n with
    | internal ks cs => simp at hwf
    | leaf ks =>
      simp only [keys_leaf] at hrich
      rw [removeMax_leaf_eq]
      simp only [wfN_leaf, Bool.and_eq_true, beq_iff_eq, decide_eq_true_eq] at hwf
      have hdec := getD_decomp ks (ks.length - 1) 0 (by omega)
      rw [show ks.length - 1 + 1 = ks.length from by omega, List.drop_length] at hdec
      have herase : ks.eraseIdx (ks.length - 1) = ks.take (ks.length - 1) := by
        rw [List.eraseIdx_eq_take_drop_succ,
          show ks.length - 1 + 1 = ks.length from by omega, List.drop_length,
          List.append_nil]
      have hch2 : chainLt lo (ks.take (ks.length - 1)
          ++ ks.getD (ks.length - 1) 0 :: []) hi = true := by
        rw [← hdec]
        exact hwf.2
      have hsplit := (chainLt_append_iff _ _ _ _ _).mp hch2
      refine ⟨?_, ?_⟩
      · simp only [wfN_leaf, Bool.and_eq_true, beq_iff_eq, decide_eq_true_eq]
        rw [herase]
        refine ⟨⟨⟨hwf.1.1.1, by simp [List.length_take]; omega⟩,
          by simp [List.length_take]; omega⟩, ?_⟩
        refine chainLt_weaken_hi hsplit.1 ?_
        exact hiLE_of_optLt (by simpa using hsplit.2)
      · simp only [toList_leaf]
        rw [herase]
        conv_lhs => rw [hdec]
  | succ h ih =>
    intro lo hi n hwf hrich
    cases n with
    | leaf ks => simp at hwf
    | internal ks cs =>
      simp only [wfN_internal_succ, Bool.and_eq_true, beq_iff_eq,
        decide_eq_true_eq] at hwf
      obtain ⟨⟨⟨hk1, hk2⟩, hlen⟩, hcs⟩ := hwf
      simp only [keys_internal] at hrich
      obtain ⟨ks', cs', e1, hcs', hlen', hinor, hjle, hrich', hlo, hhi, hjrel⟩ :=
        ensureChildRemove_spec hmk hcs hlen (by omega) (show cs.length - 1 ≤ ks.length
          from by omega)
      have hj : (ensureChildRemove mk (.internal ks cs) (cs.length - 1)).2
          = ks'.length := by
        rcases hjrel with ⟨he, hl⟩ | ⟨hl, ⟨he, h1i⟩ | ⟨he, h0⟩⟩
        · omega
        · omega
        · omega
      rw [hj] at hrich'
      have hwc := wfCs_getD hcs' hlen' ks'.length (le_refl _)
      have htB : tB ks' hi ks'.length = hi := by rw [tB, if_neg (by omega)]
      rw [htB] at hwc
      have hrec := ih hwc hrich'
      rw [removeMax_internal_eq, e1, hj]
      simp only [children_internal, setChildAt_internal]
      have hset := wfCs_set hcs' hlen' ks'.length (le_refl _)
        (by rw [htB]; exact hrec.1)
      have hdecomp := inorder_slot cs' ks' ks'.length hlen' (le_refl _)
      have hdecset := inorder_slot_set cs' ks' ks'.length
        (removeMax mk (cs'.getD ks'.length (.leaf []))).1 hlen' (le_refl _)
      rw [sfxJ_of_ge (le_refl _), List.append_nil] at hdecomp hdecset
      refine ⟨?_, ?_⟩
      · simp only [wfN_internal_succ, Bool.and_eq_true, beq_iff_eq,
          decide_eq_true_eq, List.length_set]
        refine ⟨⟨⟨?_, ?_⟩, by omega⟩, hset⟩
        · rcases hjrel with ⟨he, hl⟩ | ⟨hl, h2⟩ <;> omega
        · rcases hjrel with ⟨he, hl⟩ | ⟨hl, h2⟩ <;> omega
      · simp only [toList_internal]
        rw [← hinor, hdecomp, hdecset, hrec.2]
        simp [List.append_assoc]

/-- `Node.remove_min()` on a valid node with more than `min_keys` keys:
validity is preserved and exactly the smallest key is split off the front
of the in-order list. -/
theorem removeMin_spec {mk : Nat} (hmk : 1 ≤ mk) : ∀ (h : Nat) {lo hi : Option Nat}
    {n : Node}, wfN mk h lo hi n = true → mk < n.keys.length →
    wfN mk h lo hi (removeMin mk n).1 = true ∧
    n.toList = (removeMin mk n).2 :: (removeMin mk n).1.toList := by
  intro h
  induction h with
  | zero =>
    intro lo hi n hwf hrich
    cases n with
    | internal ks cs => simp at hwf
    | leaf ks =>
      simp only [keys_leaf] at hrich
      rw [removeMin_leaf_eq]
      simp only [wfN_leaf, Bool.and_eq_true, beq_iff_eq, decide_eq_true_eq] at hwf
      cases ks with
      | nil => exact absurd hrich (by simp)
      | cons k0 kt =>
        refine ⟨?_, by simp⟩
        have hchain := hwf.2
        have hlen2 : (k0 :: kt).length ≤ 2 * mk + 1 := hwf.1.2
        simp only [chainLt_cons, Bool.and_eq_true] at hchain
        simp only [List.length_cons] at hrich hlen2
        have h1 : mk ≤ kt.length := by omega
        have h2 : kt.length ≤ 2 * mk + 1 := by omega
        have h3 := chainLt_weaken_lo hchain.2 (loLE_of_optLt hchain.1)
        simp [wfN_leaf, h1, h2, h3]
  | succ h ih =>
    intro lo hi n hwf hrich
    cases n with
    | leaf ks => simp at hwf
    | internal ks cs =>
      simp only [wfN_internal_succ, Bool.and_eq_true, beq_iff_eq,
        decide_eq_true_eq] at hwf
      obtain ⟨⟨⟨hk1, hk2⟩, hlen⟩, hcs⟩ := hwf
      simp only [keys_internal] at hrich
      obtain ⟨ks', cs', e1, hcs', hlen', hinor, hjle, hrich', hlo, hhi, hjrel⟩ :=
        ensureChildRemove_spec hmk hcs hlen (by omega) (show (0 : Nat) ≤ ks.length
          from by omega)
      have hj : (ensureChildRemove mk (.internal ks cs) 0).2 = 0 := by
        rcases hjrel with ⟨he, hl⟩ | ⟨hl, ⟨he, h1i⟩ | ⟨he, h0⟩⟩
        · omega
        · omega
        · omega
      rw [hj] at hrich'
      have hwc := wfCs_getD hcs' hlen' 0 (by omega)
      rw [tA_zero] at hwc
      have hrec := ih hwc hrich'
      rw [removeMin_internal_eq, e1, hj]
      simp only [children_internal, setChildAt_internal]
      have hset := wfCs_set hcs' hlen' 0 (by omega)
        (by rw [tA_zero]; exact hrec.1)
      have hdecomp := inorder_slot cs' ks' 0 hlen' (by omega)
      have hdecset := inorder_slot_set cs' ks' 0
        (removeMin mk (cs'.getD 0 (.leaf []))).1 hlen' (by omega)
      simp only [List.take_zero, inorder_nil, List.nil_append] at hdecomp hdecset
      refine ⟨?_, ?_⟩
      · simp only [wfN_internal_succ, Bool.and_eq_true, beq_iff_eq,
          decide_eq_true_eq, List.length_set]
        refine ⟨⟨⟨?_, ?_⟩, by omega⟩, hset⟩
        · rcases hjrel with ⟨he, hl⟩ | ⟨hl, h2⟩ <;> omega
        · rcases hjrel with ⟨he, hl⟩ | ⟨hl, h2⟩ <;> omega
      · simp only [toList_internal]
        rw [← hinor, hdecomp, hdecset, hrec.2]
        simp

theorem not_mem_of_search_miss {lo hi : Option Nat} {ks : List Nat}
    (hch : chainLt lo ks hi = true) {obj index : Nat}
    (hbefore : ∀ i, i < index → ks.getD i 0 < obj)
    (hafter : index < ks.length → obj < ks.getD index 0) : obj ∉ ks := by
  intro hm
  obtain ⟨i, hi2, hiv⟩ := List.getElem_of_mem hm
  rcases Nat.lt_or_ge i index with hc | hc
  · have h2 := hbefore i hc
    rw [List.getD_eq_getElem _ _ hi2] at h2
    omega
  · have h1 := hafter (by omega)
    rcases Nat.lt_or_ge index i with hc2 | hc2
    · have h3 := chain_getD_lt_getD hch hc2 hi2
      rw [List.getD_eq_getElem _ _ hi2] at h3
      omega
    · have hie : index = i := by omega
      subst hie
      rw [List.getD_eq_getElem _ _ hi2] at h1
      omega


theorem del_left_prop {A L2 Mp R O : Prop}
    (ha : O → ¬A) (h2 : O → ¬L2) (hm : O → ¬Mp) (hr : O → ¬R) :
    ((A ∨ L2) ∨ (Mp ∨ R)) ↔ (((A ∨ (L2 ∨ Mp)) ∨ (O ∨ R)) ∧ ¬O) := by
  tauto

theorem del_right_prop {A L Mp R2 S O : Prop}
    (ha : O → ¬A) (hl : O → ¬L) (hm : O → ¬Mp) (h2 : O → ¬R2) (hs : O → ¬S) :
    ((A ∨ L) ∨ (Mp ∨ (R2 ∨ S))) ↔ (((A ∨ L) ∨ (O ∨ ((Mp ∨ R2) ∨ S))) ∧ ¬O) := by
  tauto

set_option maxHeartbeats 3200000 in
/-- The walk-down loop body of `BTreeSet._remove` below the root: on any
valid subtree with more than `minkeys` keys, given a correct search state
`(found, index)` for `obj` and `obj` strictly inside the bounds, the loop
body preserves well-formedness at the same height, reports exactly whether
`obj` was present, and the resulting in-order key list is the original with
`obj` removed. -/
theorem removeAux_spec {mk : Nat} (hmk : 1 ≤ mk) : ∀ (h : Nat) {lo hi : Option Nat}
    {n : Node} {obj : Nat} {found : Bool} {index : Nat},
    wfN mk h lo hi n = true → mk < n.keys.length →
    optLt lo (some obj) = true → optLt (some obj) hi = true →
    (found = true → index < n.keys.length ∧ n.keys.getD index 0 = obj) →
    (found = false → index ≤ n.keys.length ∧
      (∀ i, i < index → n.keys.getD i 0 < obj) ∧
      (index < n.keys.length → obj < n.keys.getD index 0)) →
    wfN mk h lo hi (removeAux mk n found index obj).1 = true ∧
    ((removeAux mk n found index obj).2 = true ↔ obj ∈ n.toList) ∧
    (∀ x, x ∈ (removeAux mk n found index obj).1.toList ↔
      x ∈ n.toList ∧ x ≠ obj) := by
  intro h
  induction h with
  | zero =>
    intro lo hi n obj found index hwf hrich hlo hhi hfs hns
    cases n with
    | internal ks cs => simp at hwf
    | leaf ks =>
      simp only [keys_leaf] at hrich hfs hns
      have hwf0 := hwf
      simp only [wfN_leaf, Bool.and_eq_true, beq_iff_eq, decide_eq_true_eq] at hwf
      rw [removeAux_leaf_eq]
      cases found with
      | false =>
        rw [if_neg (by simp)]
        obtain ⟨hle, hbef, haft⟩ := hns rfl
        have hnot : obj ∉ ks := not_mem_of_search_miss hwf.2 hbef haft
        refine ⟨hwf0, by simp [hnot], ?miff⟩
        intro x
        simp only [toList_leaf]
        exact ⟨fun hx => ⟨hx, fun he => hnot (he ▸ hx)⟩, fun hx => hx.1⟩
      | true =>
        rw [if_pos rfl]
        obtain ⟨hilt, hiv⟩ := hfs rfl
        have hdec := getD_decomp ks index 0 hilt
        rw [hiv] at hdec
        have herase : ks.eraseIdx index = ks.take index ++ ks.drop (index + 1) :=
          List.eraseIdx_eq_take_drop_succ ks index
        have hch2 : chainLt lo (ks.take index ++ obj :: ks.drop (index + 1)) hi
            = true := by
          rw [← hdec]
          exact hwf.2
        have hsplit := (chainLt_append_iff _ _ _ _ _).mp hch2
        have hobjmem : obj ∈ ks := by
          rw [hdec]
          simp
        have hlen3 : (ks.eraseIdx index).length = ks.length - 1 :=
          length_eraseIdx_of_lt ks index hilt
        refine ⟨?wf, by simp [hobjmem], ?miff2⟩
        · have f1 : mk ≤ (ks.eraseIdx index).length := by omega
          have f2 : (ks.eraseIdx index).length ≤ 2 * mk + 1 := by omega
          have f3 : chainLt lo (ks.eraseIdx index) hi = true := by
            rw [herase]
            exact chainLt_append_glue hsplit.1 hsplit.2
          simp [wfN_leaf, f1, f2, f3]
        · intro x
          simp only [toList_leaf]
          rw [herase]
          conv_rhs => rw [hdec]
          exact mem_remove_middle (not_mem_of_chain_hi hsplit.1)
            (not_mem_of_chain_lo hsplit.2) x
  | succ h ih =>
    intro lo hi n obj found index hwf hrich hlo hhi hfs hns
    cases n with
    | leaf ks => simp at hwf
    | internal ks cs =>
      simp only [wfN_internal_succ, Bool.and_eq_true, beq_iff_eq,
        decide_eq_true_eq] at hwf
      obtain ⟨⟨⟨hk1, hk2⟩, hlen⟩, hcs⟩ := hwf
      simp only [keys_internal] at hrich hfs hns
      have hkch : chainLt lo ks hi = true := wfCs_keys_chain hcs
      cases found with
      | true =>
        obtain ⟨hilt, hiv⟩ := hfs rfl
        have hwL := wfCs_getD hcs hlen index (by omega)
        have hwR := wfCs_getD hcs hlen (index + 1) (by omega)
        have htBL : tB ks hi index = some obj := by
          rw [tB, if_pos hilt, hiv]
        have htAR : tA lo ks (index + 1) = some obj := by rw [tA_succ, hiv]
        rw [htBL] at hwL
        rw [htAR] at hwR
        have hold := inorder_slot cs ks index hlen (by omega)
        have hsfx : sfxJ cs ks index
            = obj :: inorder (cs.drop (index + 1)) (ks.drop (index + 1)) := by
          rw [sfxJ_of_lt hilt, hiv]
        have hchold : chainLt lo (inorder cs ks) hi = true := wfCs_chain hcs
        rw [hold, hsfx] at hchold
        have hsplitO := (chainLt_append_iff _ _ _ _ _).mp hchold
        have hnotAL := not_mem_of_chain_hi hsplitO.1
        have hnotRD := not_mem_of_chain_lo hsplitO.2
        have hobjmem : obj ∈ inorder cs ks := by
          rw [← hiv]
          exact getD_mem_inorder hlen hilt
        by_cases hrichL : mk < (cs.getD index (.leaf [])).keys.length
        · -- replace the key by its predecessor from the rich left child
          rw [removeAux_found_left hrichL]
          obtain ⟨hwl2, htll⟩ := removeMax_spec hmk h hwL hrichL
          have hchL := wfN_chain h hwL
          rw [htll] at hchL
          have hsplitL := (chainLt_append_iff _ _ _ _ _).mp hchL
          have hMlt : (removeMax mk (cs.getD index (.leaf []))).2 < obj := by
            have h2 := hsplitL.2
            simp only [chainLt_nil, optLt_some_some, decide_eq_true_eq] at h2
            exact h2
          have hl2 : wfN mk h (tA lo ks index)
              (some (removeMax mk (cs.getD index (.leaf []))).2)
              (removeMax mk (cs.getD index (.leaf []))).1 = true := by
            refine wfN_rebound_hi hmk h hwl2 ?_
            intro x hx
            exact (chainLt_mem_bounds hsplitL.1 hx).2
          have hr2 : wfN mk h (some (removeMax mk (cs.getD index (.leaf []))).2)
              (tB ks hi (index + 1)) (cs.getD (index + 1) (.leaf [])) = true := by
            refine wfN_rebound_lo hmk h hwR ?_
            intro x hx
            have hx2 := (chainLt_mem_bounds (wfN_chain h hwR) hx).1
            simp only [optLt_some_some, decide_eq_true_eq] at hx2 ⊢
            omega
          have hcs2 := wfCs_steal hcs hlen index hilt hl2 hr2
          have hcollapse : ((cs.set index
              (removeMax mk (cs.getD index (.leaf []))).1).set
              (index + 1) (cs.getD (index + 1) (.leaf [])))
              = cs.set index (removeMax mk (cs.getD index (.leaf []))).1 := by
            rw [show cs.getD (index + 1) (.leaf [])
                = (cs.set index
                    (removeMax mk (cs.getD index (.leaf []))).1).getD
                  (index + 1) (.leaf []) from
              (getD_set_ne cs (index + 1) index _ (.leaf []) (by omega)).symm]
            exact set_getD_self_any _ _ _ (by simp only [List.length_set]; omega)
          rw [hcollapse] at hcs2
          have hmemL2 : ∀ y, y ∈ (cs.getD index (.leaf [])).toList
              ↔ (y ∈ (removeMax mk (cs.getD index (.leaf []))).1.toList
                 ∨ y = (removeMax mk (cs.getD index (.leaf []))).2) := by
            intro y
            rw [htll]
            simp
          have hd1 : (cs.set index
              (removeMax mk (cs.getD index (.leaf []))).1).drop (index + 1)
              = cs.drop (index + 1) :=
            List.drop_set_of_lt _ _ (by omega)
          have hd2 : (ks.set index
              (removeMax mk (cs.getD index (.leaf []))).2).drop (index + 1)
              = ks.drop (index + 1) :=
            List.drop_set_of_lt _ _ (by omega)
          have hnew : inorder
              (cs.set index (removeMax mk (cs.getD index (.leaf []))).1)
              (ks.set index (removeMax mk (cs.getD index (.leaf []))).2)
              = inorder (cs.take index) (ks.take index)
                ++ (removeMax mk (cs.getD index (.leaf []))).1.toList
                ++ ((removeMax mk (cs.getD index (.leaf []))).2
                    :: inorder (cs.drop (index + 1)) (ks.drop (index + 1))) := by
            rw [inorder_slot
              (cs.set index (removeMax mk (cs.getD index (.leaf []))).1)
              (ks.set index (removeMax mk (cs.getD index (.leaf []))).2) index
              (by simp [hlen]) (by simp only [List.length_set]; omega)]
            rw [take_set_of_le cs index index _ (Nat.le_refl _),
              take_set_of_le ks index index _ (Nat.le_refl _)]
            rw [getD_set_self cs index _ (.leaf []) (by omega)]
            rw [sfxJ_of_lt (show index < (ks.set index
              (removeMax mk (cs.getD index (.leaf []))).2).length
              from by simp only [List.length_set]; omega)]
            rw [getD_set_self_nat ks index _ 0 hilt]
            rw [hd1, hd2]
          refine ⟨?wfL, ?flagL, ?memL⟩
          · simp only [wfN_internal_succ, Bool.and_eq_true, beq_iff_eq,
              decide_eq_true_eq, List.length_set]
            exact ⟨⟨⟨hk1, hk2⟩, hlen⟩, hcs2⟩
          · simp only [toList_internal]
            exact ⟨fun _ => hobjmem, fun _ => trivial⟩
          · intro x
            simp only [toList_internal]
            rw [hnew, hold, hsfx]
            simp only [List.mem_append, List.mem_cons, hmemL2]
            exact del_left_prop
              (fun he hc => hnotAL (by
                rw [he] at hc
                exact List.mem_append.mpr (Or.inl hc)))
              (fun he hc => hnotAL (by
                rw [he] at hc
                exact List.mem_append.mpr (Or.inr ((hmemL2 obj).mpr (Or.inl hc)))))
              (fun he hc => by
                rw [he] at hc
                omega)
              (fun he hc => hnotRD (by
                rw [he] at hc
                exact hc))
        · by_cases hrichR : mk < (cs.getD (index + 1) (.leaf [])).keys.length
          · -- replace the key by its successor from the rich right child
            rw [removeAux_found_right hrichL hrichR]
            obtain ⟨hwr2, htlr⟩ := removeMin_spec hmk h hwR hrichR
            have hchR := wfN_chain h hwR
            rw [htlr] at hchR
            simp only [chainLt_cons, Bool.and_eq_true] at hchR
            have hMgt : obj < (removeMin mk (cs.getD (index + 1) (.leaf []))).2 := by
              have h2 := hchR.1
              simp only [optLt_some_some, decide_eq_true_eq] at h2
              exact h2
            have hr2w : wfN mk h
                (some (removeMin mk (cs.getD (index + 1) (.leaf []))).2)
                (tB ks hi (index + 1))
                (removeMin mk (cs.getD (index + 1) (.leaf []))).1 = true := by
              refine wfN_rebound_lo hmk h hwr2 ?_
              intro x hx
              exact (chainLt_mem_bounds hchR.2 hx).1
            have hl2w : wfN mk h (tA lo ks index)
                (some (removeMin mk (cs.getD (index + 1) (.leaf []))).2)
                (cs.getD index (.leaf [])) = true := by
              refine wfN_rebound_hi hmk h hwL ?_
              intro x hx
              have hx2 := (chainLt_mem_bounds (wfN_chain h hwL) hx).2
              simp only [optLt_some_some, decide_eq_true_eq] at hx2 ⊢
              omega
            have hcs2 := wfCs_steal hcs hlen index hilt hl2w hr2w
            have hcollapse : cs.set index (cs.getD index (.leaf [])) = cs :=
              set_getD_self_any cs index (.leaf []) (by omega)
            rw [hcollapse] at hcs2
            have hRD : inorder (cs.drop (index + 1)) (ks.drop (index + 1))
                = (cs.getD (index + 1) (.leaf [])).toList
                  ++ sfxJ cs ks (index + 1) :=
              inorder_drop_eq (index + 1) (by omega)
            have hmemR : ∀ y, y ∈ (cs.getD (index + 1) (.leaf [])).toList
                ↔ (y = (removeMin mk (cs.getD (index + 1) (.leaf []))).2
                   ∨ y ∈ (removeMin mk (cs.getD (index + 1) (.leaf []))).1.toList) := by
              intro y
              rw [htlr]
              simp
            have hd2 : (ks.set index
                (removeMin mk (cs.getD (index + 1) (.leaf []))).2).drop (index + 1)
                = ks.drop (index + 1) :=
              List.drop_set_of_lt _ _ (by omega)
            have hd1 : (cs.set (index + 1)
                (removeMin mk (cs.getD (index + 1) (.leaf []))).1).drop (index + 1)
                = (removeMin mk (cs.getD (index + 1) (.leaf []))).1
                  :: cs.drop (index + 1 + 1) :=
              drop_set_self cs (index + 1) _ (by omega)
            have hnew : inorder
                (cs.set (index + 1)
                  (removeMin mk (cs.getD (index + 1) (.leaf []))).1)
                (ks.set index (removeMin mk (cs.getD (index + 1) (.leaf []))).2)
                = inorder (cs.take index) (ks.take index)
                  ++ (cs.getD index (.leaf [])).toList
                  ++ ((removeMin mk (cs.getD (index + 1) (.leaf []))).2
                      :: ((removeMin mk (cs.getD (index + 1) (.leaf []))).1.toList
                          ++ sfxJ cs ks (index + 1))) := by
              rw [inorder_slot
                (cs.set (index + 1)
                  (removeMin mk (cs.getD (index + 1) (.leaf []))).1)
                (ks.set index (removeMin mk (cs.getD (index + 1) (.leaf []))).2)
                index (by simp [hlen]) (by simp only [List.length_set]; omega)]
              rw [take_set_of_le cs (index + 1) index _ (by omega),
                take_set_of_le ks index index _ (Nat.le_refl _)]
              rw [getD_set_ne cs index (index + 1) _ (.leaf []) (by omega)]
              rw [sfxJ_of_lt (show index < (ks.set index
                (removeMin mk (cs.getD (index + 1) (.leaf []))).2).length
                from by simp only [List.length_set]; omega)]
              rw [getD_set_self_nat ks index _ 0 hilt]
              rw [hd1, hd2]
              rw [inorder_cons_sfx]
            refine ⟨?wfR, ?flagR, ?memR⟩
            · simp only [wfN_internal_succ, Bool.and_eq_true, beq_iff_eq,
                decide_eq_true_eq, List.length_set]
              exact ⟨⟨⟨hk1, hk2⟩, hlen⟩, hcs2⟩
            · simp only [toList_internal]
              exact ⟨fun _ => hobjmem, fun _ => trivial⟩
            · intro x
              simp only [toList_internal]
              rw [hnew, hold, hsfx, hRD]
              simp only [List.mem_append, List.mem_cons, hmemR]
              exact del_right_prop
                (fun he hc => hnotAL (by
                  rw [he] at hc
                  exact List.mem_append.mpr (Or.inl hc)))
                (fun he hc => hnotAL (by
                  rw [he] at hc
                  exact List.mem_append.mpr (Or.inr hc)))
                (fun he hc => by
                  rw [he] at hc
                  omega)
                (fun he hc => hnotRD (by
                  rw [he] at hc
                  rw [hRD]
                  exact List.mem_append.mpr
                    (Or.inl ((hmemR obj).mpr (Or.inr hc)))))
                (fun he hc => hnotRD (by
                  rw [he] at hc
                  rw [hRD]
                  exact List.mem_append.mpr (Or.inr hc)))
          · -- both children have exactly minkeys keys: merge, then recurse
            rw [removeAux_found_merge hrichL hrichR]
            have hlk : (cs.getD index (.leaf [])).keys.length = mk := by
              have hx := (wfN_keys_le hwL).1
              omega
            have hrk : (cs.getD (index + 1) (.leaf [])).keys.length = mk := by
              have hx := (wfN_keys_le hwR).1
              omega
            obtain ⟨M, heqM, htlM, hlenM, hwfM, hkeysM⟩ :=
              mergeCore_spec hcs hlen hilt hlk hrk
            rw [hiv] at hkeysM
            rw [heqM]
            simp only [children_internal, setChildAt_internal]
            have hMget : ((cs.set index M).eraseIdx (index + 1)).getD index
                (.leaf []) = M := by
              rw [getD_eraseIdx_lt _ _ _ _ (by omega),
                getD_set_self _ _ _ _ (by omega)]
            rw [hMget]
            have hbeforeM : ∀ i, i < index → ks.getD i 0 < obj := by
              intro i hi2
              have hx := chain_getD_lt_getD hkch hi2 hilt
              omega
            have hafterM : index + 1 < ks.length → obj < ks.getD (index + 1) 0 := by
              intro hlt
              have hx := chain_getD_lt_getD hkch
                (show index < index + 1 from by omega) hlt
              omega
            have hMgetD : M.keys.getD mk 0 = obj := by
              rw [hkeysM,
                show mk = (cs.getD index (.leaf [])).keys.length from hlk.symm]
              exact getD_append_cons_length _ _ _ _
            have hrecM := ih hwfM (by omega)
              (optLt_tA_obj hbeforeM hlo) (optLt_obj_tB hafterM hhi)
              (fun _ => ⟨by omega, hMgetD⟩)
              (fun (hc : true = false) => absurd hc (by simp))
            have hcsM := wfCs_merge_child hcs hlen index hilt hwfM
            have hcslenE : ((cs.set index M).eraseIdx (index + 1)).length
                = cs.length - 1 := by
              rw [List.length_eraseIdx, List.length_set]
              rw [if_pos (by omega)]
            have hkslenE : (ks.eraseIdx index).length = ks.length - 1 :=
              length_eraseIdx_of_lt _ _ hilt
            have hlenM2 : ((cs.set index M).eraseIdx (index + 1)).length
                = (ks.eraseIdx index).length + 1 := by
              rw [hcslenE, hkslenE]
              omega
            have hrecwf : wfN mk h (tA lo (ks.eraseIdx index) index)
                (tB (ks.eraseIdx index) hi index)
                (removeAux mk M true mk obj).1 = true := by
              rw [tA_eraseIdx_eq, tB_eraseIdx_eq _ _ _ hilt]
              exact hrecM.1
            have hcsOut := wfCs_set hcsM hlenM2 index (by omega) hrecwf
            have hbefore2 : ∀ i, i < index → (ks.eraseIdx index).getD i 0 < obj := by
              intro i hi2
              rw [getD_eraseIdx_lt_nat ks index i 0 hi2]
              exact hbeforeM i hi2
            have hafter2 : index < (ks.eraseIdx index).length →
                obj < (ks.eraseIdx index).getD index 0 := by
              intro hlt
              rw [getD_eraseIdx_ge_nat ks index index 0 (Nat.le_refl _)]
              exact hafterM (by omega)
            have hnotA2 := not_mem_slot_take hcsM hlenM2 (show index ≤
              (ks.eraseIdx index).length from by omega) hbefore2
            have hnotS2 := not_mem_sfxJ hcsM hlenM2 hafter2
            have hslot2 := inorder_slot ((cs.set index M).eraseIdx (index + 1))
              (ks.eraseIdx index) index hlenM2 (by omega)
            rw [hMget] at hslot2
            have hslotset := inorder_slot_set
              ((cs.set index M).eraseIdx (index + 1)) (ks.eraseIdx index) index
              (removeAux mk M true mk obj).1 hlenM2 (by omega)
            have hmrg := inorder_merge_slot cs ks index M hlen hilt htlM
            refine ⟨?wfm, ?flagm, ?memm⟩
            · simp only [wfN_internal_succ, Bool.and_eq_true, beq_iff_eq,
                decide_eq_true_eq, List.length_set]
              refine ⟨⟨⟨by omega, by omega⟩, by omega⟩, hcsOut⟩
            · simp only [toList_internal]
              have hobjM : obj ∈ M.toList := by
                rw [htlM, hiv]
                simp
              exact ⟨fun _ => hobjmem, fun _ => hrecM.2.1.mpr hobjM⟩
            · intro x
              simp only [toList_internal]
              rw [hslotset, ← hmrg, hslot2]
              exact mem_update_middle hnotA2 hnotS2 hrecM.2.2 x
      | false =>
        obtain ⟨hle, hbef, haft⟩ := hns rfl
        rw [removeAux_notfound]
        obtain ⟨ks2, cs2, e1, hcs2, hlen2, hinor2, hjle, hrich2, hloE, hhiE, hjrel⟩ :=
          ensureChildRemove_spec hmk hcs hlen (by omega) hle
        rw [e1]
        simp only [children_internal, setChildAt_internal]
        have hA2 : optLt (tA lo ks2
            (ensureChildRemove mk (.internal ks cs) index).2) (some obj) = true :=
          optLt_trans_loLE hloE (optLt_tA_obj hbef hlo)
        have hB2 : optLt (some obj) (tB ks2 hi
            (ensureChildRemove mk (.internal ks cs) index).2) = true :=
          optLt_trans_hiLE (optLt_obj_tB haft hhi) hhiE
        have hwC := wfCs_getD hcs2 hlen2
          ((ensureChildRemove mk (.internal ks cs) index).2) hjle
        have hsp := searchGo_props obj
          ((cs2.getD (ensureChildRemove mk (.internal ks cs) index).2
            (.leaf [])).keys)
        have hse : (cs2.getD (ensureChildRemove mk (.internal ks cs) index).2
            (.leaf [])).search obj
            = searchGo obj
              (cs2.getD (ensureChildRemove mk (.internal ks cs) index).2
                (.leaf [])).keys 0 := rfl
        rw [← hse] at hsp
        have hrec := ih hwC hrich2 hA2 hB2 hsp.2.2.1
          (fun hf => ⟨hsp.1, hsp.2.1, hsp.2.2.2 hf⟩)
        have hbef2 := before_of_tA (wfCs_keys_chain hcs2) hjle hA2
        have haft2 := @after_of_tB lo hi ks2
          ((ensureChildRemove mk (.internal ks cs) index).2) obj hB2
        have hnotT := not_mem_slot_take hcs2 hlen2 hjle hbef2
        have hnotS := not_mem_sfxJ hcs2 hlen2 haft2
        have hslot := inorder_slot cs2 ks2
          ((ensureChildRemove mk (.internal ks cs) index).2) hlen2 hjle
        refine ⟨?wfn, ?flagn, ?memn⟩
        · simp only [wfN_internal_succ, Bool.and_eq_true, beq_iff_eq,
            decide_eq_true_eq, List.length_set]
          have hklen2 : mk ≤ ks2.length ∧ ks2.length ≤ 2 * mk + 1 := by
            rcases hjrel with ⟨_, he⟩ | ⟨he, _⟩ <;> omega
          exact ⟨⟨⟨hklen2.1, hklen2.2⟩, hlen2⟩,
            wfCs_set hcs2 hlen2 _ hjle hrec.1⟩
        · simp only [toList_internal]
          rw [← hinor2, hslot]
          rw [hrec.2.1]
          simp only [List.mem_append]
          constructor
          · intro hm2
            exact Or.inl (Or.inr hm2)
          · rintro ((hA | hC) | hS)
            · exact absurd hA hnotT
            · exact hC
            · exact absurd hS hnotS
        · intro x
          simp only [toList_internal]
          have hnew := inorder_slot_set cs2 ks2
            ((ensureChildRemove mk (.internal ks cs) index).2)
            (removeAux mk
              (cs2.getD (ensureChildRemove mk (.internal ks cs) index).2
                (.leaf []))
              ((cs2.getD (ensureChildRemove mk (.internal ks cs) index).2
                (.leaf [])).search obj).1
              ((cs2.getD (ensureChildRemove mk (.internal ks cs) index).2
                (.leaf [])).search obj).2 obj).1 hlen2 hjle
          rw [hnew, ← hinor2, hslot]
          exact mem_update_middle hnotT hnotS hrec.2.2 x


set_option maxHeartbeats 3200000 in
/-- The first iteration of the `BTreeSet._remove` loop, acting on the root:
well-formedness is preserved at the (possibly decreased) resulting height,
the returned flag reports exactly whether `obj` was present, and the
resulting in-order key list is the original with `obj` removed. -/
theorem removeRoot_spec {mk : Nat} (hmk : 1 ≤ mk) {h : Nat} {n : Node} {obj : Nat}
    (hwf : wfTop mk h none none n = true) :
    wfTop mk (removeRoot mk n obj).1.height none none (removeRoot mk n obj).1
      = true ∧
    (removeRoot mk n obj).1.height ≤ h ∧
    ((removeRoot mk n obj).2 = true ↔ obj ∈ n.toList) ∧
    (∀ x, x ∈ (removeRoot mk n obj).1.toList ↔ x ∈ n.toList ∧ x ≠ obj) := by
  cases n with
  | leaf ks =>
    simp only [wfTop_leaf, Bool.and_eq_true, beq_iff_eq, decide_eq_true_eq] at hwf
    obtain ⟨⟨hh0, hk2⟩, hch⟩ := hwf
    have hsp := searchGo_props obj ks
    rw [removeRoot_leaf_eq]
    cases hfv : (searchGo obj ks 0).1 with
    | false =>
      rw [if_neg (by simp [hfv])]
      have hnot : obj ∉ ks :=
        not_mem_of_search_miss hch hsp.2.1 (hsp.2.2.2 hfv)
      refine ⟨?_, ?_, by simp [hnot], ?_⟩
      · simp [hk2, hch]
      · simp
      · intro x
        simp only [toList_leaf]
        exact ⟨fun hx => ⟨hx, fun he => hnot (he ▸ hx)⟩, fun hx => hx.1⟩
    | true =>
      rw [if_pos rfl]
      obtain ⟨hilt, hiv⟩ := hsp.2.2.1 hfv
      have hdec := getD_decomp ks ((searchGo obj ks 0).2) 0 hilt
      rw [hiv] at hdec
      have herase : ks.eraseIdx ((searchGo obj ks 0).2)
          = ks.take ((searchGo obj ks 0).2)
            ++ ks.drop ((searchGo obj ks 0).2 + 1) :=
        List.eraseIdx_eq_take_drop_succ ks _
      have hch2 : chainLt none (ks.take ((searchGo obj ks 0).2)
          ++ obj :: ks.drop ((searchGo obj ks 0).2 + 1)) none = true := by
        rw [← hdec]
        exact hch
      have hsplit := (chainLt_append_iff _ _ _ _ _).mp hch2
      have hobjmem : obj ∈ ks := by
        rw [hdec]
        simp
      have hlen3 : (ks.eraseIdx ((searchGo obj ks 0).2)).length = ks.length - 1 :=
        length_eraseIdx_of_lt ks _ hilt
      refine ⟨?_, ?_, by simp [hobjmem], ?_⟩
      · have f2 : (ks.eraseIdx ((searchGo obj ks 0).2)).length ≤ 2 * mk + 1 := by
          omega
        have f3 : chainLt none (ks.eraseIdx ((searchGo obj ks 0).2)) none = true := by
          rw [herase]
          exact chainLt_append_glue hsplit.1 hsplit.2
        simp [f2, f3]
      · simp
      · intro x
        simp only [toList_leaf]
        rw [herase]
        conv_rhs => rw [hdec]
        exact mem_remove_middle (not_mem_of_chain_hi hsplit.1)
          (not_mem_of_chain_lo hsplit.2) x
  | internal ks cs =>
    cases h with
    | zero => simp at hwf
    | succ h2 =>
      simp only [wfTop_internal, Bool.and_eq_true, beq_iff_eq,
        decide_eq_true_eq] at hwf
      obtain ⟨⟨⟨hk1, hk2⟩, hlen⟩, hcs⟩ := hwf
      have hkch : chainLt none ks none = true := wfCs_keys_chain hcs
      have hsp := searchGo_props obj ks
      cases hfv : (searchGo obj ks 0).1 with
      | true =>
        obtain ⟨hilt, hiv⟩ := hsp.2.2.1 hfv
        have hwL := wfCs_getD hcs hlen ((searchGo obj ks 0).2) (by omega)
        have hwR := wfCs_getD hcs hlen ((searchGo obj ks 0).2 + 1) (by omega)
        have htBL : tB ks none ((searchGo obj ks 0).2) = some obj := by
          rw [tB, if_pos hilt, hiv]
        have htAR : tA none ks ((searchGo obj ks 0).2 + 1) = some obj := by
          rw [tA_succ, hiv]
        rw [htBL] at hwL
        rw [htAR] at hwR
        have hold := inorder_slot cs ks ((searchGo obj ks 0).2) hlen (by omega)
        have hsfx : sfxJ cs ks ((searchGo obj ks 0).2)
            = obj :: inorder (cs.drop ((searchGo obj ks 0).2 + 1))
              (ks.drop ((searchGo obj ks 0).2 + 1)) := by
          rw [sfxJ_of_lt hilt, hiv]
        have hchold : chainLt none (inorder cs ks) none = true := wfCs_chain hcs
        rw [hold, hsfx] at hchold
        have hsplitO := (chainLt_append_iff _ _ _ _ _).mp hchold
        have hnotAL := not_mem_of_chain_hi hsplitO.1
        have hnotRD := not_mem_of_chain_lo hsplitO.2
        have hobjmem : obj ∈ inorder cs ks := by
          rw [← hiv]
          exact getD_mem_inorder hlen hilt
        by_cases hrichL : mk < (cs.getD ((searchGo obj ks 0).2)
            (.leaf [])).keys.length
        · -- predecessor replacement at the root
          rw [removeRoot_found_left hfv hrichL]
          obtain ⟨hwl2, htll⟩ := removeMax_spec hmk h2 hwL hrichL
          have hchL := wfN_chain h2 hwL
          rw [htll] at hchL
          have hsplitL := (chainLt_append_iff _ _ _ _ _).mp hchL
          have hMlt : (removeMax mk (cs.getD ((searchGo obj ks 0).2)
              (.leaf []))).2 < obj := by
            have hx := hsplitL.2
            simp only [chainLt_nil, optLt_some_some, decide_eq_true_eq] at hx
            exact hx
          have hl2 : wfN mk h2 (tA none ks ((searchGo obj ks 0).2))
              (some (removeMax mk (cs.getD ((searchGo obj ks 0).2)
                (.leaf []))).2)
              (removeMax mk (cs.getD ((searchGo obj ks 0).2)
                (.leaf []))).1 = true := by
            refine wfN_rebound_hi hmk h2 hwl2 ?_
            intro x hx
            exact (chainLt_mem_bounds hsplitL.1 hx).2
          have hr2 : wfN mk h2
              (some (removeMax mk (cs.getD ((searchGo obj ks 0).2)
                (.leaf []))).2)
              (tB ks none ((searchGo obj ks 0).2 + 1))
              (cs.getD ((searchGo obj ks 0).2 + 1) (.leaf [])) = true := by
            refine wfN_rebound_lo hmk h2 hwR ?_
            intro x hx
            have hx2 := (chainLt_mem_bounds (wfN_chain h2 hwR) hx).1
            simp only [optLt_some_some, decide_eq_true_eq] at hx2 ⊢
            omega
          have hcs2 := wfCs_steal hcs hlen ((searchGo obj ks 0).2) hilt hl2 hr2
          have hcollapse : ((cs.set ((searchGo obj ks 0).2)
              (removeMax mk (cs.getD ((searchGo obj ks 0).2) (.leaf []))).1).set
              ((searchGo obj ks 0).2 + 1)
              (cs.getD ((searchGo obj ks 0).2 + 1) (.leaf [])))
              = cs.set ((searchGo obj ks 0).2)
                (removeMax mk (cs.getD ((searchGo obj ks 0).2)
                  (.leaf []))).1 := by
            rw [show cs.getD ((searchGo obj ks 0).2 + 1) (.leaf [])
                = (cs.set ((searchGo obj ks 0).2)
                    (removeMax mk (cs.getD ((searchGo obj ks 0).2)
                      (.leaf []))).1).getD
                  ((searchGo obj ks 0).2 + 1) (.leaf []) from
              (getD_set_ne cs ((searchGo obj ks 0).2 + 1) ((searchGo obj ks 0).2)
                _ (.leaf []) (by omega)).symm]
            exact set_getD_self_any _ _ _ (by simp only [List.length_set]; omega)
          rw [hcollapse] at hcs2
          have hmemL2 : ∀ y, y ∈ (cs.getD ((searchGo obj ks 0).2)
              (.leaf [])).toList
              ↔ (y ∈ (removeMax mk (cs.getD ((searchGo obj ks 0).2)
                  (.leaf []))).1.toList
                 ∨ y = (removeMax mk (cs.getD ((searchGo obj ks 0).2)
                  (.leaf []))).2) := by
            intro y
            rw [htll]
            simp
          have hd1 : (cs.set ((searchGo obj ks 0).2)
              (removeMax mk (cs.getD ((searchGo obj ks 0).2)
                (.leaf []))).1).drop ((searchGo obj ks 0).2 + 1)
              = cs.drop ((searchGo obj ks 0).2 + 1) :=
            List.drop_set_of_lt _ _ (by omega)
          have hd2 : (ks.set ((searchGo obj ks 0).2)
              (removeMax mk (cs.getD ((searchGo obj ks 0).2)
                (.leaf []))).2).drop ((searchGo obj ks 0).2 + 1)
              = ks.drop ((searchGo obj ks 0).2 + 1) :=
            List.drop_set_of_lt _ _ (by omega)
          have hnew : inorder
              (cs.set ((searchGo obj ks 0).2)
                (removeMax mk (cs.getD ((searchGo obj ks 0).2) (.leaf []))).1)
              (ks.set ((searchGo obj ks 0).2)
                (removeMax mk (cs.getD ((searchGo obj ks 0).2) (.leaf []))).2)
              = inorder (cs.take ((searchGo obj ks 0).2))
                  (ks.take ((searchGo obj ks 0).2))
                ++ (removeMax mk (cs.getD ((searchGo obj ks 0).2)
                    (.leaf []))).1.toList
                ++ ((removeMax mk (cs.getD ((searchGo obj ks 0).2)
                    (.leaf []))).2
                    :: inorder (cs.drop ((searchGo obj ks 0).2 + 1))
                      (ks.drop ((searchGo obj ks 0).2 + 1))) := by
            rw [inorder_slot
              (cs.set ((searchGo obj ks 0).2)
                (removeMax mk (cs.getD ((searchGo obj ks 0).2) (.leaf []))).1)
              (ks.set ((searchGo obj ks 0).2)
                (removeMax mk (cs.getD ((searchGo obj ks 0).2) (.leaf []))).2)
              ((searchGo obj ks 0).2)
              (by simp [hlen]) (by simp only [List.length_set]; omega)]
            rw [take_set_of_le cs ((searchGo obj ks 0).2) ((searchGo obj ks 0).2)
                _ (Nat.le_refl _),
              take_set_of_le ks ((searchGo obj ks 0).2) ((searchGo obj ks 0).2)
                _ (Nat.le_refl _)]
            rw [getD_set_self cs ((searchGo obj ks 0).2) _ (.leaf []) (by omega)]
            rw [sfxJ_of_lt (show (searchGo obj ks 0).2 < (ks.set
              ((searchGo obj ks 0).2)
              (removeMax mk (cs.getD ((searchGo obj ks 0).2)
                (.leaf []))).2).length
              from by simp only [List.length_set]; omega)]
            rw [getD_set_self_nat ks ((searchGo obj ks 0).2) _ 0 hilt]
            rw [hd1, hd2]
          have hTop : wfTop mk (h2 + 1) none none
              (.internal
                (ks.set ((searchGo obj ks 0).2)
                  (removeMax mk (cs.getD ((searchGo obj ks 0).2)
                    (.leaf []))).2)
                (cs.set ((searchGo obj ks 0).2)
                  (removeMax mk (cs.getD ((searchGo obj ks 0).2)
                    (.leaf []))).1)) = true := by
            simp only [wfTop_internal, Bool.and_eq_true, beq_iff_eq,
              decide_eq_true_eq, List.length_set]
            exact ⟨⟨⟨hk1, hk2⟩, hlen⟩, hcs2⟩
          have hhe := wfTop_height hTop
          refine ⟨?_, ?_, ?_, ?_⟩
          · simp only [hhe]
            exact hTop
          · simp only [hhe]
            exact Nat.le_refl _
          · simp only [toList_internal]
            exact ⟨fun _ => hobjmem, fun _ => trivial⟩
          · intro x
            simp only [toList_internal]
            rw [hnew, hold, hsfx]
            simp only [List.mem_append, List.mem_cons, hmemL2]
            exact del_left_prop
              (fun he hc => hnotAL (by
                rw [he] at hc
                exact List.mem_append.mpr (Or.inl hc)))
              (fun he hc => hnotAL (by
                rw [he] at hc
                exact List.mem_append.mpr (Or.inr ((hmemL2 obj).mpr (Or.inl hc)))))
              (fun he hc => by
                rw [he] at hc
                omega)
              (fun he hc => hnotRD (by
                rw [he] at hc
                exact hc))
        · by_cases hrichR : mk < (cs.getD ((searchGo obj ks 0).2 + 1)
              (.leaf [])).keys.length
          · -- successor replacement at the root
            rw [removeRoot_found_right hfv hrichL hrichR]
            obtain ⟨hwr2, htlr⟩ := removeMin_spec hmk h2 hwR hrichR
            have hchR := wfN_chain h2 hwR
            rw [htlr] at hchR
            simp only [chainLt_cons, Bool.and_eq_true] at hchR
            have hMgt : obj < (removeMin mk (cs.getD ((searchGo obj ks 0).2 + 1)
                (.leaf []))).2 := by
              have hx := hchR.1
              simp only [optLt_some_some, decide_eq_true_eq] at hx
              exact hx
            have hr2w : wfN mk h2
                (some (removeMin mk (cs.getD ((searchGo obj ks 0).2 + 1)
                  (.leaf []))).2)
                (tB ks none ((searchGo obj ks 0).2 + 1))
                (removeMin mk (cs.getD ((searchGo obj ks 0).2 + 1)
                  (.leaf []))).1 = true := by
              refine wfN_rebound_lo hmk h2 hwr2 ?_
              intro x hx
              exact (chainLt_mem_bounds hchR.2 hx).1
            have hl2w : wfN mk h2 (tA none ks ((searchGo obj ks 0).2))
                (some (removeMin mk (cs.getD ((searchGo obj ks 0).2 + 1)
                  (.leaf []))).2)
                (cs.getD ((searchGo obj ks 0).2) (.leaf [])) = true := by
              refine wfN_rebound_hi hmk h2 hwL ?_
              intro x hx
              have hx2 := (chainLt_mem_bounds (wfN_chain h2 hwL) hx).2
              simp only [optLt_some_some, decide_eq_true_eq] at hx2 ⊢
              omega
            have hcs2 := wfCs_steal hcs hlen ((searchGo obj ks 0).2) hilt
              hl2w hr2w
            have hcollapse : cs.set ((searchGo obj ks 0).2)
                (cs.getD ((searchGo obj ks 0).2) (.leaf [])) = cs :=
              set_getD_self_any cs ((searchGo obj ks 0).2) (.leaf []) (by omega)
            rw [hcollapse] at hcs2
            have hRD : inorder (cs.drop ((searchGo obj ks 0).2 + 1))
                (ks.drop ((searchGo obj ks 0).2 + 1))
                = (cs.getD ((searchGo obj ks 0).2 + 1) (.leaf [])).toList
                  ++ sfxJ cs ks ((searchGo obj ks 0).2 + 1) :=
              inorder_drop_eq ((searchGo obj ks 0).2 + 1) (by omega)
            have hmemR : ∀ y, y ∈ (cs.getD ((searchGo obj ks 0).2 + 1)
                (.leaf [])).toList
                ↔ (y = (removeMin mk (cs.getD ((searchGo obj ks 0).2 + 1)
                    (.leaf []))).2
                   ∨ y ∈ (removeMin mk (cs.getD ((searchGo obj ks 0).2 + 1)
                    (.leaf []))).1.toList) := by
              intro y
              rw [htlr]
              simp
            have hd2 : (ks.set ((searchGo obj ks 0).2)
                (removeMin mk (cs.getD ((searchGo obj ks 0).2 + 1)
                  (.leaf []))).2).drop ((searchGo obj ks 0).2 + 1)
                = ks.drop ((searchGo obj ks 0).2 + 1) :=
              List.drop_set_of_lt _ _ (by omega)
            have hd1 : (cs.set ((searchGo obj ks 0).2 + 1)
                (removeMin mk (cs.getD ((searchGo obj ks 0).2 + 1)
                  (.leaf []))).1).drop ((searchGo obj ks 0).2 + 1)
                = (removeMin mk (cs.getD ((searchGo obj ks 0).2 + 1)
                    (.leaf []))).1
                  :: cs.drop ((searchGo obj ks 0).2 + 1 + 1) :=
              drop_set_self cs ((searchGo obj ks 0).2 + 1) _ (by omega)
            have hnew : inorder
                (cs.set ((searchGo obj ks 0).2 + 1)
                  (removeMin mk (cs.getD ((searchGo obj ks 0).2 + 1)
                    (.leaf []))).1)
                (ks.set ((searchGo obj ks 0).2)
                  (removeMin mk (cs.getD ((searchGo obj ks 0).2 + 1)
                    (.leaf []))).2)
                = inorder (cs.take ((searchGo obj ks 0).2))
                    (ks.take ((searchGo obj ks 0).2))
                  ++ (cs.getD ((searchGo obj ks 0).2) (.leaf [])).toList
                  ++ ((removeMin mk (cs.getD ((searchGo obj ks 0).2 + 1)
                      (.leaf []))).2
                      :: ((removeMin mk (cs.getD ((searchGo obj ks 0).2 + 1)
                          (.leaf []))).1.toList
                          ++ sfxJ cs ks ((searchGo obj ks 0).2 + 1))) := by
              rw [inorder_slot
                (cs.set ((searchGo obj ks 0).2 + 1)
                  (removeMin mk (cs.getD ((searchGo obj ks 0).2 + 1)
                    (.leaf []))).1)
                (ks.set ((searchGo obj ks 0).2)
                  (removeMin mk (cs.getD ((searchGo obj ks 0).2 + 1)
                    (.leaf []))).2)
                ((searchGo obj ks 0).2)
                (by simp [hlen]) (by simp only [List.length_set]; omega)]
              rw [take_set_of_le cs ((searchGo obj ks 0).2 + 1)
                  ((searchGo obj ks 0).2) _ (by omega),
                take_set_of_le ks ((searchGo obj ks 0).2) ((searchGo obj ks 0).2)
                  _ (Nat.le_refl _)]
              rw [getD_set_ne cs ((searchGo obj ks 0).2) ((searchGo obj ks 0).2 + 1)
                _ (.leaf []) (by omega)]
              rw [sfxJ_of_lt (show (searchGo obj ks 0).2 < (ks.set
                ((searchGo obj ks 0).2)
                (removeMin mk (cs.getD ((searchGo obj ks 0).2 + 1)
                  (.leaf []))).2).length
                from by simp only [List.length_set]; omega)]
              rw [getD_set_self_nat ks ((searchGo obj ks 0).2) _ 0 hilt]
              rw [hd1, hd2]
              rw [inorder_cons_sfx]
            have hTop : wfTop mk (h2 + 1) none none
                (.internal
                  (ks.set ((searchGo obj ks 0).2)
                    (removeMin mk (cs.getD ((searchGo obj ks 0).2 + 1)
                      (.leaf []))).2)
                  (cs.set ((searchGo obj ks 0).2 + 1)
                    (removeMin mk (cs.getD ((searchGo obj ks 0).2 + 1)
                      (.leaf []))).1)) = true := by
              simp only [wfTop_internal, Bool.and_eq_true, beq_iff_eq,
                decide_eq_true_eq, List.length_set]
              exact ⟨⟨⟨hk1, hk2⟩, hlen⟩, hcs2⟩
            have hhe := wfTop_height hTop
            refine ⟨?_, ?_, ?_, ?_⟩
            · simp only [hhe]
              exact hTop
            · simp only [hhe]
              exact Nat.le_refl _
            · simp only [toList_internal]
              exact ⟨fun _ => hobjmem, fun _ => trivial⟩
            · intro x
              simp only [toList_internal]
              rw [hnew, hold, hsfx, hRD]
              simp only [List.mem_append, List.mem_cons, hmemR]
              exact del_right_prop
                (fun he hc => hnotAL (by
                  rw [he] at hc
                  exact List.mem_append.mpr (Or.inl hc)))
                (fun he hc => hnotAL (by
                  rw [he] at hc
                  exact List.mem_append.mpr (Or.inr hc)))
                (fun he hc => by
                  rw [he] at hc
                  omega)
                (fun he hc => hnotRD (by
                  rw [he] at hc
                  rw [hRD]
                  exact List.mem_append.mpr
                    (Or.inl ((hmemR obj).mpr (Or.inr hc)))))
                (fun he hc => hnotRD (by
                  rw [he] at hc
                  rw [hRD]
                  exact List.mem_append.mpr (Or.inr hc)))
          · -- both children poor at the root: merge, maybe collapse
            have hlk : (cs.getD ((searchGo obj ks 0).2)
                (.leaf [])).keys.length = mk := by
              have hx := (wfN_keys_le hwL).1
              omega
            have hrk : (cs.getD ((searchGo obj ks 0).2 + 1)
                (.leaf [])).keys.length = mk := by
              have hx := (wfN_keys_le hwR).1
              omega
            obtain ⟨M, heqM, htlM, hlenM, hwfM, hkeysM⟩ :=
              mergeCore_spec hcs hlen hilt hlk hrk
            rw [hiv] at hkeysM
            have hMget : ((cs.set ((searchGo obj ks 0).2) M).eraseIdx
                ((searchGo obj ks 0).2 + 1)).getD ((searchGo obj ks 0).2)
                (.leaf []) = M := by
              rw [getD_eraseIdx_lt _ _ _ _ (by omega),
                getD_set_self _ _ _ _ (by omega)]
            have hbeforeM : ∀ i, i < (searchGo obj ks 0).2 →
                ks.getD i 0 < obj := by
              intro i hi2
              have hx := chain_getD_lt_getD hkch hi2 hilt
              omega
            have hafterM : (searchGo obj ks 0).2 + 1 < ks.length →
                obj < ks.getD ((searchGo obj ks 0).2 + 1) 0 := by
              intro hlt
              have hx := chain_getD_lt_getD hkch
                (show (searchGo obj ks 0).2 < (searchGo obj ks 0).2 + 1
                  from by omega) hlt
              omega
            have hMgetD : M.keys.getD mk 0 = obj := by
              rw [hkeysM,
                show mk = (cs.getD ((searchGo obj ks 0).2)
                  (.leaf [])).keys.length from hlk.symm]
              exact getD_append_cons_length _ _ _ _
            have hrecM := removeAux_spec hmk h2 hwfM (by omega)
              (optLt_tA_obj hbeforeM (by simp))
              (optLt_obj_tB hafterM (by simp))
              (fun _ => ⟨by omega, hMgetD⟩)
              (fun (hc : true = false) => absurd hc (by simp))
            have hcsM := wfCs_merge_child hcs hlen ((searchGo obj ks 0).2)
              hilt hwfM
            have hcslenE : ((cs.set ((searchGo obj ks 0).2) M).eraseIdx
                ((searchGo obj ks 0).2 + 1)).length = cs.length - 1 := by
              rw [List.length_eraseIdx, List.length_set]
              rw [if_pos (by omega)]
            have hkslenE : (ks.eraseIdx ((searchGo obj ks 0).2)).length
                = ks.length - 1 :=
              length_eraseIdx_of_lt _ _ hilt
            have hlenM2 : ((cs.set ((searchGo obj ks 0).2) M).eraseIdx
                ((searchGo obj ks 0).2 + 1)).length
                = (ks.eraseIdx ((searchGo obj ks 0).2)).length + 1 := by
              rw [hcslenE, hkslenE]
              omega
            have hmrg := inorder_merge_slot cs ks ((searchGo obj ks 0).2) M
              hlen hilt htlM
            have hobjM : obj ∈ M.toList := by
              rw [htlM, hiv]
              simp
            by_cases hz : (mergeChildrenCore (.internal ks cs)
                (searchGo obj ks 0).2).keys.length = 0
            · -- the merge consumed the last root key: root collapses
              rw [removeRoot_found_merge_collapse hfv hrichL hrichR hz]
              rw [heqM]
              simp only [children_internal]
              rw [hMget]
              rw [heqM] at hz
              simp only [keys_internal] at hz
              have hks1 : ks.length = 1 := by omega
              have hidx0 : (searchGo obj ks 0).2 = 0 := by omega
              have hwrec : wfN mk h2 none none
                  (removeAux mk M true mk obj).1 = true := by
                have hx := hrecM.1
                rw [hidx0] at hx
                rw [tA_zero] at hx
                rw [show tB ks none (0 + 1) = none from by
                  rw [tB]
                  rw [if_neg (by omega)]] at hx
                exact hx
              have hTop := wfTop_of_wfN hmk hwrec
              have hhe := wfN_height h2 hwrec
              have hslot2 := inorder_slot ((cs.set ((searchGo obj ks 0).2)
                  M).eraseIdx ((searchGo obj ks 0).2 + 1))
                (ks.eraseIdx ((searchGo obj ks 0).2)) ((searchGo obj ks 0).2)
                hlenM2 (by omega)
              rw [hMget] at hslot2
              rw [hidx0] at hslot2
              rw [sfxJ_of_ge (show (ks.eraseIdx 0).length ≤ 0 from by
                rw [hidx0] at hkslenE
                omega)] at hslot2
              simp only [List.take_zero, inorder_nil, List.append_nil,
                List.nil_append] at hslot2
              have hMtl : M.toList = inorder cs ks := by
                rw [← hmrg]
                rw [hidx0]
                exact hslot2.symm
              refine ⟨?_, ?_, ?_, ?_⟩
              · simp only [hhe]
                exact hTop
              · simp only [hhe]
                omega
              · simp only [toList_internal]
                exact ⟨fun _ => hobjmem, fun _ => hrecM.2.1.mpr hobjM⟩
              · intro x
                simp only [toList_internal]
                rw [← hMtl]
                exact hrecM.2.2 x
            · -- the root keeps at least one key
              rw [removeRoot_found_merge_keep hfv hrichL hrichR hz]
              rw [heqM]
              simp only [children_internal, setChildAt_internal]
              rw [hMget]
              rw [heqM] at hz
              simp only [keys_internal] at hz
              have hrecwf : wfN mk h2
                  (tA none (ks.eraseIdx ((searchGo obj ks 0).2))
                    ((searchGo obj ks 0).2))
                  (tB (ks.eraseIdx ((searchGo obj ks 0).2)) none
                    ((searchGo obj ks 0).2))
                  (removeAux mk M true mk obj).1 = true := by
                rw [tA_eraseIdx_eq, tB_eraseIdx_eq _ _ _ hilt]
                exact hrecM.1
              have hcsOut := wfCs_set hcsM hlenM2 ((searchGo obj ks 0).2)
                (by omega) hrecwf
              have hbefore2 : ∀ i, i < (searchGo obj ks 0).2 →
                  (ks.eraseIdx ((searchGo obj ks 0).2)).getD i 0 < obj := by
                intro i hi2
                rw [getD_eraseIdx_lt_nat ks ((searchGo obj ks 0).2) i 0 hi2]
                exact hbeforeM i hi2
              have hafter2 : (searchGo obj ks 0).2
                  < (ks.eraseIdx ((searchGo obj ks 0).2)).length →
                  obj < (ks.eraseIdx ((searchGo obj ks 0).2)).getD
                    ((searchGo obj ks 0).2) 0 := by
                intro hlt
                rw [getD_eraseIdx_ge_nat ks ((searchGo obj ks 0).2)
                  ((searchGo obj ks 0).2) 0 (Nat.le_refl _)]
                exact hafterM (by omega)
              have hnotA2 := not_mem_slot_take hcsM hlenM2
                (show (searchGo obj ks 0).2
                  ≤ (ks.eraseIdx ((searchGo obj ks 0).2)).length from by omega)
                hbefore2
              have hnotS2 := not_mem_sfxJ hcsM hlenM2 hafter2
              have hslot2 := inorder_slot ((cs.set ((searchGo obj ks 0).2)
                  M).eraseIdx ((searchGo obj ks 0).2 + 1))
                (ks.eraseIdx ((searchGo obj ks 0).2)) ((searchGo obj ks 0).2)
                hlenM2 (by omega)
              rw [hMget] at hslot2
              have hslotset := inorder_slot_set
                ((cs.set ((searchGo obj ks 0).2) M).eraseIdx
                  ((searchGo obj ks 0).2 + 1))
                (ks.eraseIdx ((searchGo obj ks 0).2)) ((searchGo obj ks 0).2)
                (removeAux mk M true mk obj).1 hlenM2 (by omega)
              have hTop : wfTop mk (h2 + 1) none none
                  (.internal (ks.eraseIdx ((searchGo obj ks 0).2))
                    (((cs.set ((searchGo obj ks 0).2) M).eraseIdx
                      ((searchGo obj ks 0).2 + 1)).set ((searchGo obj ks 0).2)
                      (removeAux mk M true mk obj).1)) = true := by
                simp only [wfTop_internal, Bool.and_eq_true, beq_iff_eq,
                  decide_eq_true_eq, List.length_set]
                refine ⟨⟨⟨by omega, by omega⟩, by omega⟩, hcsOut⟩
              have hhe := wfTop_height hTop
              refine ⟨?_, ?_, ?_, ?_⟩
              · simp only [hhe]
                exact hTop
              · simp only [hhe]
                exact Nat.le_refl _
              · simp only [toList_internal]
                exact ⟨fun _ => hobjmem, fun _ => hrecM.2.1.mpr hobjM⟩
              · intro x
                simp only [toList_internal]
                rw [hslotset, ← hmrg, hslot2]
                exact mem_update_middle hnotA2 hnotS2 hrecM.2.2 x
      | false =>
        obtain ⟨ks2, cs2, e1, hcs2, hlen2, hinor2, hjle, hrich2, hloE, hhiE, hjrel⟩ :=
          ensureChildRemove_spec hmk hcs hlen (by omega) hsp.1
        have hA2 : optLt (tA none ks2
            (ensureChildRemove mk (.internal ks cs) (searchGo obj ks 0).2).2)
            (some obj) = true :=
          optLt_trans_loLE hloE (optLt_tA_obj hsp.2.1 (by simp))
        have hB2 : optLt (some obj) (tB ks2 none
            (ensureChildRemove mk (.internal ks cs) (searchGo obj ks 0).2).2)
            = true :=
          optLt_trans_hiLE (optLt_obj_tB (hsp.2.2.2 hfv) (by simp)) hhiE
        have hwC := wfCs_getD hcs2 hlen2
          ((ensureChildRemove mk (.internal ks cs) (searchGo obj ks 0).2).2) hjle
        have hspC := searchGo_props obj
          ((cs2.getD (ensureChildRemove mk (.internal ks cs)
            (searchGo obj ks 0).2).2 (.leaf [])).keys)
        have hse : (cs2.getD (ensureChildRemove mk (.internal ks cs)
            (searchGo obj ks 0).2).2 (.leaf [])).search obj
            = searchGo obj
              (cs2.getD (ensureChildRemove mk (.internal ks cs)
                (searchGo obj ks 0).2).2 (.leaf [])).keys 0 := rfl
        rw [← hse] at hspC
        have hrec := removeAux_spec hmk h2 hwC hrich2 hA2 hB2 hspC.2.2.1
          (fun hf => ⟨hspC.1, hspC.2.1, hspC.2.2.2 hf⟩)
        have hbef2 := before_of_tA (wfCs_keys_chain hcs2) hjle hA2
        have haft2 := @after_of_tB none none ks2
          ((ensureChildRemove mk (.internal ks cs) (searchGo obj ks 0).2).2)
          obj hB2
        have hnotT := not_mem_slot_take hcs2 hlen2 hjle hbef2
        have hnotS := not_mem_sfxJ hcs2 hlen2 haft2
        have hslot := inorder_slot cs2 ks2
          ((ensureChildRemove mk (.internal ks cs) (searchGo obj ks 0).2).2)
          hlen2 hjle
        by_cases hz : (ensureChildRemove mk (.internal ks cs)
            (searchGo obj ks 0).2).1.keys.length = 0
        · -- the ensuring step consumed the last root key: root collapses
          rw [removeRoot_notfound_collapse hfv hz]
          rw [e1]
          simp only [children_internal]
          rw [e1] at hz
          simp only [keys_internal] at hz
          have hks2nil : ks2 = [] := List.length_eq_zero.mp hz
          subst hks2nil
          simp only [List.length_nil] at hjle
          have hj0 : (ensureChildRemove mk (.internal ks cs)
              (searchGo obj ks 0).2).2 = 0 := by omega
          rw [hj0] at hrec hslot
          rw [hj0]
          have hwrec : wfN mk h2 none none
              (removeAux mk (cs2.getD 0 (.leaf []))
                ((cs2.getD 0 (.leaf [])).search obj).1
                ((cs2.getD 0 (.leaf [])).search obj).2 obj).1 = true := by
            have hx := hrec.1
            rw [tA_zero, tB_nil] at hx
            exact hx
          have hTop := wfTop_of_wfN hmk hwrec
          have hhe := wfN_height h2 hwrec
          have hCtl : inorder cs2 ([] : List Nat)
              = (cs2.getD 0 (.leaf [])).toList := by
            rw [hslot]
            rw [sfxJ_of_ge (show List.length ([] : List Nat) ≤ 0 from by simp)]
            simp
          refine ⟨?_, ?_, ?_, ?_⟩
          · simp only [hhe]
            exact hTop
          · simp only [hhe]
            omega
          · rw [show (Node.internal ks cs).toList = inorder cs2 [] from by
              rw [toList_internal, ← hinor2]]
            rw [hCtl]
            exact hrec.2.1
          · intro x
            rw [show (Node.internal ks cs).toList = inorder cs2 [] from by
              rw [toList_internal, ← hinor2]]
            rw [hCtl]
            exact hrec.2.2 x
        · -- the root keeps at least one key after ensuring
          rw [removeRoot_notfound_keep hfv hz]
          rw [e1]
          simp only [children_internal, setChildAt_internal]
          rw [e1] at hz
          simp only [keys_internal] at hz
          have hklen2 : 1 ≤ ks2.length ∧ ks2.length ≤ 2 * mk + 1 := by
            rcases hjrel with ⟨_, he⟩ | ⟨he, _⟩ <;> omega
          have hTop : wfTop mk (h2 + 1) none none
              (.internal ks2 (cs2.set
                (ensureChildRemove mk (.internal ks cs) (searchGo obj ks 0).2).2
                (removeAux mk
                  (cs2.getD (ensureChildRemove mk (.internal ks cs)
                    (searchGo obj ks 0).2).2 (.leaf []))
                  ((cs2.getD (ensureChildRemove mk (.internal ks cs)
                    (searchGo obj ks 0).2).2 (.leaf [])).search obj).1
                  ((cs2.getD (ensureChildRemove mk (.internal ks cs)
                    (searchGo obj ks 0).2).2 (.leaf [])).search obj).2
                  obj).1)) = true := by
            simp only [wfTop_internal, Bool.and_eq_true, beq_iff_eq,
              decide_eq_true_eq, List.length_set]
            exact ⟨⟨⟨hklen2.1, hklen2.2⟩, hlen2⟩,
              wfCs_set hcs2 hlen2 _ hjle hrec.1⟩
          have hhe := wfTop_height hTop
          refine ⟨?_, ?_, ?_, ?_⟩
          · simp only [hhe]
            exact hTop
          · simp only [hhe]
            exact Nat.le_refl _
          · simp only [toList_internal]
            rw [← hinor2, hslot]
            rw [hrec.2.1]
            simp only [List.mem_append]
            constructor
            · intro hm2
              exact Or.inl (Or.inr hm2)
            · rintro ((hA | hC) | hS)
              · exact absurd hA hnotT
              · exact hC
              · exact absurd hS hnotS
          · intro x
            simp only [toList_internal]
            have hnew := inorder_slot_set cs2 ks2
              ((ensureChildRemove mk (.internal ks cs) (searchGo obj ks 0).2).2)
              (removeAux mk
                (cs2.getD (ensureChildRemove mk (.internal ks cs)
                  (searchGo obj ks 0).2).2 (.leaf []))
                ((cs2.getD (ensureChildRemove mk (.internal ks cs)
                  (searchGo obj ks 0).2).2 (.leaf [])).search obj).1
                ((cs2.getD (ensureChildRemove mk (.internal ks cs)
                  (searchGo obj ks 0).2).2 (.leaf [])).search obj).2
                obj).1 hlen2 hjle
            rw [hnew, ← hinor2, hslot]
            exact mem_update_middle hnotT hnotS hrec.2.2 x


/-- `BTreeSet._remove(obj)`: the state stays well-formed with unchanged
configuration, the flag reports presence, the key list is `erase`d, the
stored size is decremented exactly on successful removal, and the tree
height never grows. -/
theorem removeCore_spec {s : BTreeSet} (hs : WFS s) (obj : Nat) :
    WFS (s.removeCore obj).1 ∧
    (s.removeCore obj).1.minkeys = s.minkeys ∧
    (s.removeCore obj).1.maxkeys = s.maxkeys ∧
    ((s.removeCore obj).2 = true ↔ obj ∈ s.root.toList) ∧
    (s.removeCore obj).1.root.toList = s.root.toList.erase obj ∧
    (s.removeCore obj).1.size
      = (if obj ∈ s.root.toList then s.size - 1 else s.size) ∧
    (s.removeCore obj).1.root.height ≤ s.root.height := by
  obtain ⟨hmk, hmax, hwf, hsize⟩ := hs
  obtain ⟨hTop, hhle, hflag, hmem⟩ :=
    @removeRoot_spec s.minkeys hmk s.root.height s.root obj hwf
  have hpair0 : s.root.toList.Pairwise (· < ·) :=
    chainLt_pairwise (wfTop_chain hwf)
  have hpair1 : (removeRoot s.minkeys s.root obj).1.toList.Pairwise (· < ·) :=
    chainLt_pairwise (wfTop_chain hTop)
  have herase : (removeRoot s.minkeys s.root obj).1.toList
      = s.root.toList.erase obj := by
    refine sorted_mem_ext hpair1 (hpair0.sublist (s.root.toList.erase_sublist obj)) ?_
    intro x
    rw [hmem x, List.Nodup.mem_erase_iff (chainLt_nodup (wfTop_chain hwf))]
    exact ⟨fun hx => ⟨hx.2, hx.1⟩, fun hx => ⟨hx.2, hx.1⟩⟩
  have hcore1 : (s.removeCore obj).1.root = (removeRoot s.minkeys s.root obj).1 :=
    rfl
  have hcore2 : (s.removeCore obj).2 = (removeRoot s.minkeys s.root obj).2 := rfl
  have hcoresz : (s.removeCore obj).1.size
      = (if (removeRoot s.minkeys s.root obj).2 then s.size - 1 else s.size) := rfl
  have hsz : (s.removeCore obj).1.size
      = (if obj ∈ s.root.toList then s.size - 1 else s.size) := by
    rw [hcoresz]
    by_cases hmo : obj ∈ s.root.toList
    · rw [if_pos (hflag.mpr hmo), if_pos hmo]
    · rw [if_neg ?hc, if_neg hmo]
      intro hb
      exact hmo (hflag.mp hb)
  refine ⟨⟨hmk, hmax, ?hw, ?hsz2⟩, rfl, rfl, ?hfl, ?her, hsz, ?hh⟩
  · rw [hcore1]
    exact hTop
  · rw [hsz, hcore1, herase]
    by_cases hmo : obj ∈ s.root.toList
    · rw [if_pos hmo, List.length_erase_of_mem hmo]
      omega
    · rw [if_neg hmo, List.erase_of_not_mem hmo]
      omega
  · rw [hcore2]
    exact hflag
  · rw [hcore1]
    exact herase
  · rw [hcore1]
    exact hhle


theorem length_inorder_ge : ∀ (cs : List Node) (ks : List Nat),
    ks.length ≤ (inorder cs ks).length := by
  intro cs
  induction cs with
  | nil => intro ks; simp
  | cons c cs2 ih =>
    intro ks
    cases ks with
    | nil => simp
    | cons k ks2 =>
      rw [inorder_cons_cons]
      simp only [List.length_append, List.length_cons]
      have hx := ih ks2
      omega

/-- Every valid (non-root) subtree holds at least `minkeys` keys overall. -/
theorem wfN_toList_ge {mk h : Nat} {lo hi : Option Nat} {n : Node}
    (hwf : wfN mk h lo hi n = true) : mk ≤ n.toList.length := by
  cases n with
  | leaf ks =>
    simp only [wfN_leaf, Bool.and_eq_true, beq_iff_eq, decide_eq_true_eq] at hwf
    simpa using hwf.1.1.2
  | internal ks cs =>
    cases h with
    | zero => simp at hwf
    | succ h2 =>
      simp only [wfN_internal_succ, Bool.and_eq_true, beq_iff_eq,
        decide_eq_true_eq] at hwf
      have hx := length_inorder_ge cs ks
      simp only [toList_internal]
      have hy := hwf.1.1.1
      omega

/-- A valid internal root holds at least `2 * minkeys + 1` keys overall. -/
theorem wfTop_internal_size {mk h : Nat} {ks : List Nat} {cs : List Node}
    (hmk : 1 ≤ mk) (hwf : wfTop mk h none none (.internal ks cs) = true) :
    2 * mk + 1 ≤ (inorder cs ks).length := by
  cases h with
  | zero => simp at hwf
  | succ h2 =>
    simp only [wfTop_internal, Bool.and_eq_true, beq_iff_eq,
      decide_eq_true_eq] at hwf
    obtain ⟨⟨⟨hk1, hk2⟩, hlen⟩, hcs⟩ := hwf
    have hc0 := wfCs_getD hcs hlen 0 (by omega)
    have hc1 := wfCs_getD hcs hlen 1 (by omega)
    have hl0 := wfN_toList_ge hc0
    have hl1 := wfN_toList_ge hc1
    rw [inorder_slot cs ks 0 hlen (by omega)]
    rw [sfxJ_of_lt (by omega)]
    rw [inorder_drop_eq 1 (by omega)]
    simp only [List.take_zero, inorder_nil, List.nil_append, List.length_append,
      List.length_cons]
    omega

/-- `check_structure` on a valid non-root subtree returns its key count. -/
theorem check_wfN {mk : Nat} (hmk : 1 ≤ mk) : ∀ (h : Nat) {lo hi : Option Nat}
    {n : Node}, wfN mk h lo hi n = true →
    checkStructure mk false h lo hi n = some n.toList.length := by
  intro h
  induction h with
  | zero =>
    intro lo hi n hwf
    cases n with
    | internal ks cs => simp at hwf
    | leaf ks =>
      simp only [wfN_leaf, Bool.and_eq_true, beq_iff_eq, decide_eq_true_eq] at hwf
      have hcb : checkNodeBasic mk false 0 lo hi (.leaf ks) = true := by
        have h1 := hwf.1.1.2
        have h2 := hwf.1.2
        simp [checkNodeBasic, hwf.2]
        omega
      rw [checkStructure, if_pos hcb]
      simp
  | succ h ih =>
    intro lo hi n hwf
    cases n with
    | leaf ks => simp at hwf
    | internal ks cs =>
      simp only [wfN_internal_succ, Bool.and_eq_true, beq_iff_eq,
        decide_eq_true_eq] at hwf
      obtain ⟨⟨⟨hk1, hk2⟩, hlen⟩, hcs⟩ := hwf
      have hcb : checkNodeBasic mk false (h + 1) lo hi (.internal ks cs)
          = true := by
        simp [checkNodeBasic, wfCs_keys_chain hcs]
        omega
      have haux : ∀ (cs2 : List Node) (ks2 : List Nat) (lo2 hi2 : Option Nat),
          wfCs mk h lo2 ks2 hi2 cs2 = true → cs2.length = ks2.length + 1 →
          ∃ c, checkChildren mk h lo2 ks2 hi2 cs2 = some c
            ∧ ks2.length + c = (inorder cs2 ks2).length := by
        intro cs2
        induction cs2 with
        | nil => intro ks2 lo2 hi2 _ hl; simp at hl
        | cons c cs3 ihc =>
          intro ks2 lo2 hi2 hw hl
          cases ks2 with
          | nil =>
            cases cs3 with
            | cons c2 cs4 => simp at hl
            | nil =>
              simp only [wfCs_nil_single] at hw
              refine ⟨c.toList.length, ?_, by simp⟩
              rw [checkChildren]
              exact ih hw
          | cons k ks3 =>
            cases cs3 with
            | nil => simp at hl
            | cons c2 cs4 =>
              simp only [wfCs_cons_cons, Bool.and_eq_true] at hw
              obtain ⟨b, hb, hbsum⟩ := ihc ks3 (some k) hi2 hw.2 (by
                simp only [List.length_cons] at hl ⊢
                omega)
              refine ⟨c.toList.length + b, ?_, ?_⟩
              · rw [checkChildren, ih hw.1, hb]
              · rw [inorder_cons_cons]
                simp only [List.length_append, List.length_cons]
                omega
      obtain ⟨c, hc, hcsum⟩ := haux cs ks lo hi hcs hlen
      rw [checkStructure, if_pos hcb, if_pos hlen]
      simp only [Nat.add_sub_cancel]
      rw [hc]
      simp only [toList_internal, Option.some.injEq]
      omega

/-- `check_structure` over a valid children list returns the total key
count of the children. -/
theorem checkChildren_wfCs {mk : Nat} (hmk : 1 ≤ mk) {h : Nat} :
    ∀ {cs : List Node} {ks : List Nat} {lo hi : Option Nat},
    wfCs mk h lo ks hi cs = true → cs.length = ks.length + 1 →
    ∃ c, checkChildren mk h lo ks hi cs = some c
      ∧ ks.length + c = (inorder cs ks).length := by
  intro cs
  induction cs with
  | nil => intro ks lo hi _ hl; simp at hl
  | cons c cs3 ihc =>
    intro ks lo hi hw hl
    cases ks with
    | nil =>
      cases cs3 with
      | cons c2 cs4 => simp at hl
      | nil =>
        simp only [wfCs_nil_single] at hw
        refine ⟨c.toList.length, ?_, by simp⟩
        rw [checkChildren]
        exact check_wfN hmk h hw
    | cons k ks3 =>
      cases cs3 with
      | nil => simp at hl
      | cons c2 cs4 =>
        simp only [wfCs_cons_cons, Bool.and_eq_true] at hw
        obtain ⟨b, hb, hbsum⟩ := ihc hw.2 (by
          simp only [List.length_cons] at hl ⊢
          omega)
        refine ⟨c.toList.length + b, ?_, ?_⟩
        · rw [checkChildren, check_wfN hmk h hw.1, hb]
        · rw [inorder_cons_cons]
          simp only [List.length_append, List.length_cons]
          omega

/-- `check_structure` on a valid root returns its key count. -/
theorem check_wfTop {mk : Nat} (hmk : 1 ≤ mk) {h : Nat} {n : Node}
    (hwf : wfTop mk h none none n = true) :
    checkStructure mk true h none none n = some n.toList.length := by
  cases n with
  | leaf ks =>
    simp only [wfTop_leaf, Bool.and_eq_true, beq_iff_eq, decide_eq_true_eq] at hwf
    obtain ⟨⟨hh0, hk2⟩, hch⟩ := hwf
    subst hh0
    have hcb : checkNodeBasic mk true 0 none none (.leaf ks) = true := by
      simp [checkNodeBasic, hch]
      omega
    rw [checkStructure, if_pos hcb]
    simp
  | internal ks cs =>
    cases h with
    | zero => simp at hwf
    | succ h2 =>
      simp only [wfTop_internal, Bool.and_eq_true, beq_iff_eq,
        decide_eq_true_eq] at hwf
      obtain ⟨⟨⟨hk1, hk2⟩, hlen⟩, hcs⟩ := hwf
      have hcb : checkNodeBasic mk true (h2 + 1) none none (.internal ks cs)
          = true := by
        simp [checkNodeBasic, wfCs_keys_chain hcs]
        exact ⟨by omega, List.ne_nil_of_length_pos (by omega)⟩
      obtain ⟨c, hc, hcsum⟩ := checkChildren_wfCs hmk hcs hlen
      rw [checkStructure, if_pos hcb, if_pos hlen]
      simp only [Nat.add_sub_cancel]
      rw [hc]
      simp only [toList_internal, Option.some.injEq]
      omega

/-- The leftmost-descent height computation agrees with the height of any
valid subtree. -/
theorem leftHeight_wfN {mk : Nat} : ∀ (h : Nat) {lo hi : Option Nat} {n : Node},
    wfN mk h lo hi n = true → leftHeight n = h := by
  intro h
  induction h with
  | zero =>
    intro lo hi n hwf
    cases n with
    | internal ks cs => simp at hwf
    | leaf ks => rw [leftHeight]
  | succ h ih =>
    intro lo hi n hwf
    cases n with
    | leaf ks => simp at hwf
    | internal ks cs =>
      simp only [wfN_internal_succ, Bool.and_eq_true, beq_iff_eq,
        decide_eq_true_eq] at hwf
      obtain ⟨⟨⟨hk1, hk2⟩, hlen⟩, hcs⟩ := hwf
      rw [leftHeight]
      rw [ih (wfCs_getD hcs hlen 0 (by omega))]

/-- Same agreement on a valid root. -/
theorem leftHeight_wfTop {mk h : Nat} {n : Node}
    (hwf : wfTop mk h none none n = true) : leftHeight n = h := by
  cases n with
  | leaf ks =>
    simp only [wfTop_leaf, Bool.and_eq_true, beq_iff_eq] at hwf
    rw [leftHeight, hwf.1.1]
  | internal ks cs =>
    cases h with
    | zero => simp at hwf
    | succ h2 =>
      simp only [wfTop_internal, Bool.and_eq_true, beq_iff_eq,
        decide_eq_true_eq] at hwf
      obtain ⟨⟨⟨hk1, hk2⟩, hlen⟩, hcs⟩ := hwf
      rw [leftHeight]
      rw [leftHeight_wfN h2 (wfCs_getD hcs hlen 0 (by omega))]


/-- A tree whose key count fits `2 * minkeys` keys must be a leaf root
holding exactly that many keys (the preemptive root split never triggers
before then, and the root collapse undoes it). -/
theorem size_le_root_leaf {s : BTreeSet} (hs : WFS s)
    (hsz : s.size ≤ 2 * s.minkeys) :
    s.root.isLeaf = true ∧ s.root.keys.length = s.size := by
  obtain ⟨hmk, hmax, hwf, hsize⟩ := hs
  cases hroot : s.root with
  | leaf ks =>
    rw [hroot] at hsize
    simp only [toList_leaf] at hsize
    exact ⟨by simp, by simp [hsize]⟩
  | internal ks cs =>
    rw [hroot] at hwf hsize
    have hx := wfTop_internal_size hmk hwf
    simp only [toList_internal] at hsize
    exact absurd hsz (by omega)

/-- `BTreeSet.check_structure()` succeeds on every well-formed state. -/
theorem checkStructure_WFS {s : BTreeSet} (hs : WFS s) :
    s.checkStructure = true := by
  obtain ⟨hmk, hmax, hwf, hsize⟩ := hs
  have hle : s.root.isLeaf = true → s.size ≤ s.maxkeys := by
    intro hl
    cases hroot : s.root with
    | internal ks cs =>
      rw [hroot] at hl
      simp at hl
    | leaf ks =>
      rw [hroot] at hsize hwf
      simp only [toList_leaf] at hsize
      have hx := wfTop_keys_le hwf
      simp only [keys_leaf] at hx
      omega
  rw [BTreeSet.checkStructure]
  rw [if_neg ?g1]
  case g1 =>
    simp only [Bool.and_eq_true, decide_eq_true_eq, not_and, gt_iff_lt]
    intro h1 h2
    have hx := hle h2
    omega
  rw [if_neg ?g2]
  case g2 =>
    simp only [Bool.and_eq_true, Bool.or_eq_true, Bool.not_eq_true',
      bne_iff_ne, decide_eq_true_eq, ne_eq, not_and]
    intro h1 h2
    obtain ⟨hleaf, hkeq⟩ := size_le_root_leaf ⟨hmk, hmax, hwf, hsize⟩ (by omega)
    rcases h2 with h2 | h2
    · rw [hleaf] at h2
      cases h2
    · exact h2 hkeq
  rw [show Node.leftHeight s.root = s.root.height from leftHeight_wfTop hwf]
  rw [check_wfTop hmk hwf]
  simp [hsize]

/-- What a frame on the iterator stack will still yield. -/
def frameRest : Node × Nat → List Nat
  | (.leaf ks, _) => ks
  | (.internal ks cs, i) => sfxJ cs ks i

/-- What the whole iterator stack will still yield. -/
def stackRest : List (Node × Nat) → List Nat
  | [] => []
  | f :: st => frameRest f ++ stackRest st

@[simp] theorem stackRest_nil : stackRest [] = [] := rfl
@[simp] theorem stackRest_cons (f : Node × Nat) (st : List (Node × Nat)) :
    stackRest (f :: st) = frameRest f ++ stackRest st := rfl
@[simp] theorem frameRest_leaf (ks : List Nat) (i : Nat) :
    frameRest (.leaf ks, i) = ks := rfl
@[simp] theorem frameRest_internal (ks : List Nat) (cs : List Node) (i : Nat) :
    frameRest (.internal ks cs, i) = sfxJ cs ks i := rfl

/-- Stack invariant of `__iter__`: every internal frame still has a key to
yield, and its children list is that of a valid node. -/
def StOK (mk : Nat) (st : List (Node × Nat)) : Prop :=
  ∀ f ∈ st, ∀ ks cs, f.1 = Node.internal ks cs →
    f.2 < ks.length ∧ cs.length = ks.length + 1 ∧
    ∃ h lo hi, wfCs mk h lo ks hi cs = true

theorem pushLeftPath_stackRest {mk : Nat} (hmk : 1 ≤ mk) :
    ∀ (h : Nat) {lo hi : Option Nat} {n : Node}, wfN mk h lo hi n = true →
    ∀ st : List (Node × Nat),
      stackRest (pushLeftPath n st) = n.toList ++ stackRest st ∧
      (StOK mk st → StOK mk (pushLeftPath n st)) := by
  intro h
  induction h with
  | zero =>
    intro lo hi n hwf st
    cases n with
    | internal ks cs => simp at hwf
    | leaf ks =>
      rw [pushLeftPath]
      refine ⟨by simp, ?_⟩
      intro hok f hf ks2 cs2 hfi
      rcases List.mem_cons.mp hf with rfl | hf2
      · cases hfi
      · exact hok f hf2 ks2 cs2 hfi
  | succ h ih =>
    intro lo hi n hwf st
    cases n with
    | leaf ks => simp at hwf
    | internal ks cs =>
      simp only [wfN_internal_succ, Bool.and_eq_true, beq_iff_eq,
        decide_eq_true_eq] at hwf
      obtain ⟨⟨⟨hk1, hk2⟩, hlen⟩, hcs⟩ := hwf
      rw [pushLeftPath]
      have hch := wfCs_getD hcs hlen 0 (by omega)
      obtain ⟨hrest, hok2⟩ := ih hch ((.internal ks cs, 0) :: st)
      refine ⟨?_, ?_⟩
      · rw [hrest]
        rw [stackRest_cons, frameRest_internal, toList_internal]
        have hdec := @inorder_drop_eq cs ks 0 (by omega)
        simp only [List.drop_zero] at hdec
        rw [hdec, List.append_assoc]
      · intro hok
        apply hok2
        intro f hf ks2 cs2 hfi
        rcases List.mem_cons.mp hf with rfl | hf2
        · simp only [Node.internal.injEq] at hfi
          obtain ⟨rfl, rfl⟩ := hfi
          exact ⟨by omega, hlen, h, lo, hi, hcs⟩
        · exact hok f hf2 ks2 cs2 hfi

set_option maxHeartbeats 800000 in
/-- The iterator loop yields exactly the pending contents of its stack. -/
theorem iterGo_stackRest {mk : Nat} (hmk : 1 ≤ mk) :
    ∀ (N : Nat) (st : List (Node × Nat)), stackM st ≤ N → StOK mk st →
      iterGo st = stackRest st := by
  intro N
  induction N with
  | zero =>
    intro st hN hok
    cases st with
    | nil =>
      rw [iterGo]
      rfl
    | cons f st2 =>
      exfalso
      have hfm : 1 ≤ frameM f := by
        obtain ⟨n0, i0⟩ := f
        cases n0 <;> simp [frameM] <;> omega
      rw [stackM_cons] at hN
      omega
  | succ N ihN =>
    intro st hN hok
    cases st with
    | nil =>
      rw [iterGo]
      rfl
    | cons f st2 =>
      obtain ⟨n0, i0⟩ := f
      have hok2 : StOK mk st2 := fun f2 hf2 => hok f2 (List.mem_cons_of_mem _ hf2)
      cases n0 with
      | leaf ks =>
        rw [iterGo]
        rw [ihN st2 (by
          rw [stackM_cons] at hN
          simp only [frameM] at hN
          omega) hok2]
        simp
      | internal ks cs =>
        obtain ⟨hi0, hlen, hh, hlo, hhi, hcs⟩ :=
          hok (.internal ks cs, i0) (by simp) ks cs rfl
        have hch := wfCs_getD hcs hlen (i0 + 1) (by omega)
        have hmm := measureSL_drop_getD cs (i0 + 1) (by omega)
        rw [iterGo]
        rw [stackM_cons] at hN
        simp only [frameM] at hN
        rw [stackRest_cons, frameRest_internal, sfxJ_of_lt hi0]
        have hdec := @inorder_drop_eq cs ks (i0 + 1) (by omega)
        by_cases hlt : i0 + 1 < ks.length
        · rw [if_pos hlt]
          have hokS : StOK mk ((.internal ks cs, i0 + 1) :: st2) := by
            intro f hf ks2 cs2 hfi
            rcases List.mem_cons.mp hf with rfl | hf2
            · simp only [Node.internal.injEq] at hfi
              obtain ⟨rfl, rfl⟩ := hfi
              exact ⟨hlt, hlen, hh, hlo, hhi, hcs⟩
            · exact hok2 f hf2 ks2 cs2 hfi
          obtain ⟨hrest, hokP⟩ :=
            pushLeftPath_stackRest hmk hh hch ((.internal ks cs, i0 + 1) :: st2)
          rw [ihN _ (by
            rw [stackM_pushLeftPath, stackM_cons]
            simp only [frameM]
            omega) (hokP hokS)]
          rw [hrest]
          rw [stackRest_cons, frameRest_internal]
          rw [hdec]
          simp
        · rw [if_neg hlt]
          obtain ⟨hrest, hokP⟩ := pushLeftPath_stackRest hmk hh hch st2
          rw [ihN _ (by
            rw [stackM_pushLeftPath]
            have hms := measureS_pos (cs.getD (i0 + 1) (.leaf []))
            omega) (hokP hok2)]
          rw [hrest]
          rw [hdec]
          rw [sfxJ_of_ge (show ks.length ≤ i0 + 1 from by omega)]
          simp

/-- Iterating a well-formed root yields exactly its in-order key list. -/
theorem iterGo_push_wfTop {mk h : Nat} (hmk : 1 ≤ mk) {n : Node}
    (hwf : wfTop mk h none none n = true) :
    iterGo (pushLeftPath n []) = n.toList := by
  cases n with
  | leaf ks =>
    rw [pushLeftPath, iterGo, iterGo]
    simp
  | internal ks cs =>
    cases h with
    | zero => simp at hwf
    | succ h2 =>
      simp only [wfTop_internal, Bool.and_eq_true, beq_iff_eq,
        decide_eq_true_eq] at hwf
      obtain ⟨⟨⟨hk1, hk2⟩, hlen⟩, hcs⟩ := hwf
      rw [pushLeftPath]
      have hch := wfCs_getD hcs hlen 0 (by omega)
      have hok : StOK mk [(.internal ks cs, 0)] := by
        intro f hf ks2 cs2 hfi
        rcases List.mem_cons.mp hf with rfl | hf2
        · simp only [Node.internal.injEq] at hfi
          obtain ⟨rfl, rfl⟩ := hfi
          exact ⟨by omega, hlen, h2, none, none, hcs⟩
        · cases hf2
      obtain ⟨hrest, hokP⟩ :=
        pushLeftPath_stackRest hmk h2 hch [(.internal ks cs, 0)]
      rw [iterGo_stackRest hmk _ _ (Nat.le_refl _) (hokP hok)]
      rw [hrest]
      rw [stackRest_cons, frameRest_internal, toList_internal]
      have hdec := @inorder_drop_eq cs ks 0 (by omega)
      simp only [List.drop_zero] at hdec
      rw [hdec]
      simp

/-- `BTreeSet.__iter__` yields exactly the in-order key list of the root. -/
theorem iter_toList {s : BTreeSet} (hs : WFS s) : s.iter = s.root.toList := by
  obtain ⟨hmk, hmax, hwf, hsize⟩ := hs
  exact iterGo_push_wfTop hmk hwf

/-- A freshly constructed set of degree `≥ 2` is well-formed. -/
theorem WFS_new {degree : Nat} (hdeg : 2 ≤ degree) : WFS (BTreeSet.new degree) := by
  refine ⟨?_, ?_, ?_, ?_⟩
  · simp [BTreeSet.new]
    omega
  · simp [BTreeSet.new]
    omega
  · simp [BTreeSet.new]
  · simp [BTreeSet.new]

/-- `clear` restores a well-formed empty state. -/
theorem WFS_clear {s : BTreeSet} (hs : WFS s) :
    WFS s.clear ∧ s.clear.minkeys = s.minkeys ∧ s.clear.maxkeys = s.maxkeys := by
  obtain ⟨hmk, hmax, hwf, hsize⟩ := hs
  exact ⟨⟨hmk, hmax, by simp [BTreeSet.clear], by simp [BTreeSet.clear]⟩, rfl, rfl⟩

/-- Every public operation preserves well-formedness and the degree
configuration. -/
theorem applyOp_WFS {s : BTreeSet} (hs : WFS s) (op : Op) :
    WFS (applyOp s op) ∧ (applyOp s op).minkeys = s.minkeys ∧
      (applyOp s op).maxkeys = s.maxkeys := by
  cases op with
  | add k =>
    obtain ⟨h1, h2, h3, _, _, _⟩ := add_spec hs k
    exact ⟨h1, h2, h3⟩
  | remove k =>
    obtain ⟨h1, h2, h3, _, _, _, _⟩ := removeCore_spec hs k
    exact ⟨h1, h2, h3⟩
  | discard k =>
    obtain ⟨h1, h2, h3, _, _, _, _⟩ := removeCore_spec hs k
    exact ⟨h1, h2, h3⟩
  | clear => exact WFS_clear hs

theorem applyOps_WFS : ∀ (ops : List Op) {s : BTreeSet}, WFS s →
    WFS (applyOps s ops) ∧ (applyOps s ops).minkeys = s.minkeys ∧
      (applyOps s ops).maxkeys = s.maxkeys := by
  intro ops
  induction ops with
  | nil => intro s hs; exact ⟨hs, rfl, rfl⟩
  | cons op ops2 ih =>
    intro s hs
    rw [applyOps]
    obtain ⟨h1, h2, h3⟩ := applyOp_WFS hs op
    obtain ⟨g1, g2, g3⟩ := ih h1
    exact ⟨g1, by rw [g2, h2], by rw [g3, h3]⟩

/-- Every reachable state is well-formed. -/
theorem Reachable_WFS {s : BTreeSet} (hr : Reachable s) : WFS s := by
  obtain ⟨degree, ops, hdeg, heq⟩ := hr
  rw [heq]
  exact (applyOps_WFS ops (WFS_new hdeg)).1


/-- `__contains__` decides membership of the in-order key list. -/
theorem contains_iff {s : BTreeSet} (hs : WFS s) (k : Nat) :
    s.contains k = true ↔ k ∈ s.root.toList := by
  obtain ⟨hmk, hmax, hwf, hsize⟩ := hs
  rw [BTreeSet.contains, containsGo_wfTop hmk hwf]
  simp

theorem insertKey_of_mem {l : List Nat} {k : Nat} (hch : chainLt none l none = true)
    (hm : k ∈ l) : insertKey k l = l := by
  refine sorted_mem_ext
    (chainLt_pairwise (chainLt_insertKey hch (by simp) (by simp)))
    (chainLt_pairwise hch) ?_
  intro x
  rw [mem_insertKey]
  exact ⟨fun hx => hx.elim (fun he => he ▸ hm) id, fun hx => Or.inr hx⟩

/-- `clear` makes every key absent. -/
theorem contains_clear (s : BTreeSet) (k : Nat) : s.clear.contains k = false := by
  rw [BTreeSet.contains]
  show containsGo (.leaf []) k = false
  rw [containsGo_leaf_eq, searchGo]

/-- The net insertion count of the claimed membership ledger: an `add`
counts when it actually inserts (duplicates collapse), a `remove` or
`discard` counts when it actually removes, `clear` resets the ledger. -/
def specNetCount (k : Nat) : BTreeSet → Int → List Op → Int
  | _, acc, [] => acc
  | s, acc, op :: ops =>
      specNetCount k (applyOp s op)
        (match op with
         | .add k2 => if k2 = k ∧ s.contains k = false then acc + 1 else acc
         | .remove k2 => if k2 = k ∧ (s.removeCore k2).2 = true then acc - 1 else acc
         | .discard k2 => if k2 = k ∧ (s.removeCore k2).2 = true then acc - 1 else acc
         | .clear => 0) ops

theorem specNetCount_nil (k : Nat) (s : BTreeSet) (acc : Int) :
    specNetCount k s acc [] = acc := rfl

theorem specNetCount_add (k : Nat) (s : BTreeSet) (acc : Int) (k2 : Nat)
    (ops : List Op) :
    specNetCount k s acc (Op.add k2 :: ops)
      = specNetCount k (applyOp s (Op.add k2))
          (if k2 = k ∧ s.contains k = false then acc + 1 else acc) ops := rfl

theorem specNetCount_remove (k : Nat) (s : BTreeSet) (acc : Int) (k2 : Nat)
    (ops : List Op) :
    specNetCount k s acc (Op.remove k2 :: ops)
      = specNetCount k (applyOp s (Op.remove k2))
          (if k2 = k ∧ (s.removeCore k2).2 = true then acc - 1 else acc) ops := rfl

theorem specNetCount_discard (k : Nat) (s : BTreeSet) (acc : Int) (k2 : Nat)
    (ops : List Op) :
    specNetCount k s acc (Op.discard k2 :: ops)
      = specNetCount k (applyOp s (Op.discard k2))
          (if k2 = k ∧ (s.removeCore k2).2 = true then acc - 1 else acc) ops := rfl

theorem specNetCount_clear (k : Nat) (s : BTreeSet) (acc : Int) (ops : List Op) :
    specNetCount k s acc (Op.clear :: ops)
      = specNetCount k (applyOp s Op.clear) 0 ops := rfl

theorem specNetCount_invariant (k : Nat) : ∀ (ops : List Op) {s : BTreeSet}
    {acc : Int}, WFS s → acc = (if s.contains k = true then 1 else 0) →
    specNetCount k s acc ops
      = (if (applyOps s ops).contains k = true then 1 else 0) := by
  intro ops
  induction ops with
  | nil =>
    intro s acc hs hacc
    rw [specNetCount_nil, applyOps]
    exact hacc
  | cons op ops2 ih =>
    intro s acc hs hacc
    have hwf2 := (applyOp_WFS hs op).1
    obtain ⟨hmk, hmax, hwf, hsize⟩ := hs
    have hnod : s.root.toList.Nodup := chainLt_nodup (wfTop_chain hwf)
    cases op with
    | add k2 =>
      rw [specNetCount_add, applyOps]
      refine ih hwf2 ?_
      have htl := (add_spec ⟨hmk, hmax, hwf, hsize⟩ k2).2.2.2.1
      have hc2 : (applyOp s (.add k2)).contains k = true ↔ k ∈ s.root.toList
          ∨ k = k2 := by
        rw [show applyOp s (.add k2) = s.add k2 from rfl]
        rw [contains_iff (add_spec ⟨hmk, hmax, hwf, hsize⟩ k2).1 k, htl,
          mem_insertKey]
        tauto
      by_cases hk2 : k2 = k
      · by_cases hmem : s.contains k = true
        · rw [if_neg (by simp [hmem]), hacc, if_pos hmem]
          rw [if_pos (hc2.mpr (Or.inr hk2.symm))]
        · rw [if_pos ⟨hk2, by simpa using hmem⟩, hacc, if_neg hmem]
          rw [if_pos (hc2.mpr (Or.inr hk2.symm))]
          omega
      · rw [if_neg (by simp [hk2]), hacc]
        have hcc : (applyOp s (.add k2)).contains k = true
            ↔ s.contains k = true := by
          rw [hc2, contains_iff ⟨hmk, hmax, hwf, hsize⟩ k]
          constructor
          · rintro (hx | rfl)
            · exact hx
            · exact absurd rfl hk2
          · exact Or.inl
        by_cases hmem : s.contains k = true
        · rw [if_pos hmem, if_pos (hcc.mpr hmem)]
        · rw [if_neg hmem, if_neg (by rw [hcc]; exact hmem)]
    | clear =>
      rw [specNetCount_clear, applyOps]
      refine ih hwf2 ?_
      rw [show applyOp s .clear = s.clear from rfl]
      rw [contains_clear]
      simp
    | remove k2 =>
      rw [specNetCount_remove, applyOps]
      refine ih hwf2 ?_
      obtain ⟨hw2, -, -, hflag, herase, -, -⟩ :=
        removeCore_spec ⟨hmk, hmax, hwf, hsize⟩ k2
      have hc2 : (applyOp s (.remove k2)).contains k = true
          ↔ k ≠ k2 ∧ k ∈ s.root.toList := by
        rw [show applyOp s (.remove k2) = (s.removeCore k2).1 from rfl]
        rw [contains_iff hw2 k, herase, List.Nodup.mem_erase_iff hnod]
      by_cases hk2 : k2 = k
      · by_cases hmem : s.contains k = true
        · rw [if_pos ⟨hk2, hflag.mpr (by
            rw [hk2]
            exact (contains_iff ⟨hmk, hmax, hwf, hsize⟩ k).mp hmem)⟩,
            hacc, if_pos hmem]
          rw [if_neg (by
            rw [hc2]
            rintro ⟨hne, -⟩
            exact hne hk2.symm)]
          omega
        · rw [if_neg ?hng, hacc, if_neg hmem,
            if_neg (by
              rw [hc2]
              rintro ⟨hne, -⟩
              exact hne hk2.symm)]
          case hng =>
            rintro ⟨-, hfl⟩
            refine hmem ((contains_iff ⟨hmk, hmax, hwf, hsize⟩ k).mpr ?_)
            rw [← hk2]
            exact hflag.mp hfl
      · rw [if_neg (by simp [hk2]), hacc]
        have hcc : (applyOp s (.remove k2)).contains k = true
            ↔ s.contains k = true := by
          rw [hc2, contains_iff ⟨hmk, hmax, hwf, hsize⟩ k]
          exact ⟨fun hx => hx.2, fun hx => ⟨fun he => hk2 he.symm, hx⟩⟩
        by_cases hmem : s.contains k = true
        · rw [if_pos hmem, if_pos (hcc.mpr hmem)]
        · rw [if_neg hmem, if_neg (by rw [hcc]; exact hmem)]
    | discard k2 =>
      rw [specNetCount_discard, applyOps]
      refine ih hwf2 ?_
      obtain ⟨hw2, -, -, hflag, herase, -, -⟩ :=
        removeCore_spec ⟨hmk, hmax, hwf, hsize⟩ k2
      have hc2 : (applyOp s (.discard k2)).contains k = true
          ↔ k ≠ k2 ∧ k ∈ s.root.toList := by
        rw [show applyOp s (.discard k2) = (s.removeCore k2).1 from rfl]
        rw [contains_iff hw2 k, herase, List.Nodup.mem_erase_iff hnod]
      by_cases hk2 : k2 = k
      · by_cases hmem : s.contains k = true
        · rw [if_pos ⟨hk2, hflag.mpr (by
            rw [hk2]
            exact (contains_iff ⟨hmk, hmax, hwf, hsize⟩ k).mp hmem)⟩,
            hacc, if_pos hmem]
          rw [if_neg (by
            rw [hc2]
            rintro ⟨hne, -⟩
            exact hne hk2.symm)]
          omega
        · rw [if_neg ?hng2, hacc, if_neg hmem,
            if_neg (by
              rw [hc2]
              rintro ⟨hne, -⟩
              exact hne hk2.symm)]
          case hng2 =>
            rintro ⟨-, hfl⟩
            refine hmem ((contains_iff ⟨hmk, hmax, hwf, hsize⟩ k).mpr ?_)
            rw [← hk2]
            exact hflag.mp hfl
      · rw [if_neg (by simp [hk2]), hacc]
        have hcc : (applyOp s (.discard k2)).contains k = true
            ↔ s.contains k = true := by
          rw [hc2, contains_iff ⟨hmk, hmax, hwf, hsize⟩ k]
          exact ⟨fun hx => hx.2, fun hx => ⟨fun he => hk2 he.symm, hx⟩⟩
        by_cases hmem : s.contains k = true
        · rw [if_pos hmem, if_pos (hcc.mpr hmem)]
        · rw [if_neg hmem, if_neg (by rw [hcc]; exact hmem)]


/-! ## The claims -/

/-- C1: Membership correctness — after any finite sequence of public
operations on a freshly constructed set of degree `≥ 2`, `contains k`
holds exactly when the net ledger count for `k` — `add(k)` calls counted
under set semantics (duplicates collapse), minus successful removals of
`k`, reset by `clear` — is greater than zero. -/
theorem claim_C1 {degree : Nat} (hdeg : 2 ≤ degree) (ops : List Op) (k : Nat) :
    (applyOps (BTreeSet.new degree) ops).contains k = true
      ↔ 0 < specNetCount k (BTreeSet.new degree) 0 ops := by
  have hcnew : (BTreeSet.new degree).contains k = false := by
    rw [BTreeSet.contains]
    show containsGo (.leaf []) k = false
    rw [containsGo_leaf_eq, searchGo]
  have hinv := @specNetCount_invariant k ops (BTreeSet.new degree) 0
    (WFS_new hdeg) (by rw [hcnew]; simp)
  rw [hinv]
  by_cases hc : (applyOps (BTreeSet.new degree) ops).contains k = true
  · rw [if_pos hc]
    exact ⟨fun _ => by omega, fun _ => hc⟩
  · rw [if_neg hc]
    exact ⟨fun hcc => absurd hcc hc, fun hlt => absurd hlt (by omega)⟩

theorem claim_C1_witness :
    (applyOps (BTreeSet.new 2) [Op.add 5]).contains 5 = true
      ↔ 0 < specNetCount 5 (BTreeSet.new 2) 0 [Op.add 5] :=
  claim_C1 (by omega) [Op.add 5] 5

/-- C2: Invariant preservation — `check_structure()` succeeds (raises no
assertion, modelled as returning `true`) on every state reachable from a
freshly constructed set by the public `add`/`remove`/`discard`/`clear`
operations; in particular the balanced-depth, ordering, occupancy, child
count and size checks it performs all hold. -/
theorem claim_C2 {s : BTreeSet} (hr : Reachable s) : s.checkStructure = true :=
  checkStructure_WFS (Reachable_WFS hr)

theorem claim_C2_witness :
    (applyOps (BTreeSet.new 2) [Op.add 1, Op.add 2, Op.add 3, Op.add 4,
      Op.remove 2]).checkStructure = true :=
  claim_C2 ⟨2, [Op.add 1, Op.add 2, Op.add 3, Op.add 4, Op.remove 2],
    by omega, rfl⟩

/-- C3: Iteration order and count — on every reachable state, iterating
the set yields a strictly increasing (hence duplicate-free) finite key
sequence whose length equals the stored size. -/
theorem claim_C3 {s : BTreeSet} (hr : Reachable s) :
    s.iter.Pairwise (· < ·) ∧ s.iter.length = s.size := by
  have hs := Reachable_WFS hr
  obtain ⟨hmk, hmax, hwf, hsize⟩ := hs
  rw [iter_toList ⟨hmk, hmax, hwf, hsize⟩]
  exact ⟨chainLt_pairwise (wfTop_chain hwf), hsize.symm⟩

theorem claim_C3_witness :
    (applyOps (BTreeSet.new 2) [Op.add 4, Op.add 1]).iter.Pairwise (· < ·) ∧
    (applyOps (BTreeSet.new 2) [Op.add 4, Op.add 1]).iter.length
      = (applyOps (BTreeSet.new 2) [Op.add 4, Op.add 1]).size :=
  claim_C3 ⟨2, [Op.add 4, Op.add 1], by omega, rfl⟩

/-- C4: Removal error contract — `remove k` reports the not-found error
(`none`) exactly when `k` is absent, while `discard` makes the same state
change and signals nothing; a present key is no longer contained afterwards
and the size drops by exactly one; an absent key leaves size, membership
and iteration output unchanged with `check_structure()` still passing. -/
theorem claim_C4 {s : BTreeSet} (hr : Reachable s) (k : Nat) :
    (s.remove k = none ↔ s.contains k = false) ∧
    (s.contains k = true →
      (s.discard k).contains k = false ∧
      (s.discard k).size + 1 = s.size ∧
      s.remove k = some (s.discard k)) ∧
    (s.contains k = false →
      (s.discard k).size = s.size ∧
      (s.discard k).iter = s.iter ∧
      (∀ x, (s.discard k).contains x = s.contains x) ∧
      (s.discard k).checkStructure = true) := by
  have hs := Reachable_WFS hr
  obtain ⟨hmk, hmax, hwf, hsize⟩ := hs
  have hs2 : WFS s := ⟨hmk, hmax, hwf, hsize⟩
  obtain ⟨hw2, -, -, hflag, herase, hsz, -⟩ := removeCore_spec hs2 k
  have hcm := contains_iff hs2 k
  have hnod : s.root.toList.Nodup := chainLt_nodup (wfTop_chain hwf)
  have hrm : s.remove k
      = (if (s.removeCore k).2 then some (s.removeCore k).1 else none) := rfl
  have hdis : s.discard k = (s.removeCore k).1 := rfl
  refine ⟨?_, ?_, ?_⟩
  · rw [hrm]
    by_cases hf : (s.removeCore k).2 = true
    · rw [if_pos hf]
      refine ⟨fun hcon => absurd hcon (by simp), fun hcf => ?_⟩
      exact absurd (hcm.mpr (hflag.mp hf)) (by simp [hcf])
    · rw [if_neg hf]
      refine ⟨fun _ => ?_, fun _ => rfl⟩
      have hx : ¬ s.contains k = true := fun hc => hf (hflag.mpr (hcm.mp hc))
      simpa using hx
  · intro hctrue
    have hmem := hcm.mp hctrue
    have hf : (s.removeCore k).2 = true := hflag.mpr hmem
    refine ⟨?_, ?_, ?_⟩
    · have hx : ¬ ((s.discard k).contains k = true) := by
        rw [hdis, contains_iff hw2 k, herase]
        rw [List.Nodup.mem_erase_iff hnod]
        rintro ⟨hne, -⟩
        exact hne rfl
      simpa using hx
    · rw [hdis]
      rw [show (s.removeCore k).1.size
          = (if k ∈ s.root.toList then s.size - 1 else s.size) from hsz]
      rw [if_pos hmem]
      have hpos : 0 < s.root.toList.length :=
        List.length_pos.mpr (List.ne_nil_of_mem hmem)
      omega
    · rw [hrm, if_pos hf, hdis]
  · intro hcfalse
    have hnmem : k ∉ s.root.toList := fun hm => by
      simp [hcm.mpr hm] at hcfalse
    have herase2 : (s.removeCore k).1.root.toList = s.root.toList := by
      rw [herase, List.erase_of_not_mem hnmem]
    refine ⟨?_, ?_, ?_, ?_⟩
    · rw [hdis, hsz, if_neg hnmem]
    · rw [hdis, iter_toList hw2, herase2, ← iter_toList hs2]
    · intro x
      have e1 := contains_iff hw2 x
      have e2 := contains_iff hs2 x
      rw [herase2] at e1
      rw [hdis]
      cases hb : (s.removeCore k).1.contains x with
      | true => exact (e2.mpr (e1.mp hb)).symm
      | false =>
        cases hb2 : s.contains x with
        | false => rfl
        | true => exact absurd (e1.mpr (e2.mp hb2)) (by simp [hb])
    · rw [hdis]
      exact checkStructure_WFS hw2

theorem claim_C4_witness :
    (applyOps (BTreeSet.new 2) [Op.add 1, Op.add 2]).remove 7 = none
      ↔ (applyOps (BTreeSet.new 2) [Op.add 1, Op.add 2]).contains 7 = false :=
  (claim_C4 ⟨2, [Op.add 1, Op.add 2], by omega, rfl⟩ 7).1

/-- C5: `ensure_child_remove` policy and postcondition — on a valid
internal parent the branches fire in the source's priority order: a child
already holding more than `minkeys` keys is returned unchanged in place;
else, if a left sibling exists with more than `minkeys` keys, its last key
(and, for internal children, its last child) is rotated through the
separator into the front of the child, which stays at position `index`;
else the symmetric right rotation, again at position `index`; else, if a
left sibling exists, the child is merged into it via `merge_children`
at `index - 1` and the left sibling, at position `index - 1`, is
returned; else the right sibling is merged into the child, returned at
position `index`.  In every case the result is an internal node whose
returned position holds a node with more than `minkeys` keys, with the
subtree's in-order key sequence unchanged and validity preserved. -/
theorem claim_C5 {mk h : Nat} (hmk : 1 ≤ mk) {lo hi : Option Nat}
    {ks : List Nat} {cs : List Node} (hcs : wfCs mk h lo ks hi cs = true)
    (hlen : cs.length = ks.length + 1) (hk1 : 1 ≤ ks.length) {index : Nat}
    (hidx : index ≤ ks.length) :
    (mk < (cs.getD index (.leaf [])).keys.length →
      ensureChildRemove mk (.internal ks cs) index = (.internal ks cs, index)) ∧
    ((¬ mk < (cs.getD index (.leaf [])).keys.length) →
      1 ≤ index ∧ mk < (cs.getD (index - 1) (.leaf [])).keys.length →
      ensureChildRemove mk (.internal ks cs) index =
        (.internal
          (ks.set (index - 1)
            ((cs.getD (index - 1) (.leaf [])).keys.getLastD 0))
          ((cs.set (index - 1)
              (match cs.getD (index - 1) (.leaf []) with
               | .leaf lks => .leaf lks.dropLast
               | .internal lks lcs => .internal lks.dropLast lcs.dropLast)).set
            index
            (match cs.getD index (.leaf []) with
             | .leaf cks => .leaf (ks.getD (index - 1) 0 :: cks)
             | .internal cks ccs => .internal (ks.getD (index - 1) 0 :: cks)
                 ((cs.getD (index - 1) (.leaf [])).children.getLastD (.leaf [])
                   :: ccs))),
         index)) ∧
    ((¬ mk < (cs.getD index (.leaf [])).keys.length) →
      (¬ (1 ≤ index ∧ mk < (cs.getD (index - 1) (.leaf [])).keys.length)) →
      index < ks.length ∧ mk < (cs.getD (index + 1) (.leaf [])).keys.length →
      ensureChildRemove mk (.internal ks cs) index =
        (.internal
          (ks.set index ((cs.getD (index + 1) (.leaf [])).keys.getD 0 0))
          ((cs.set index
              (match cs.getD index (.leaf []) with
               | .leaf cks => .leaf (cks ++ [ks.getD index 0])
               | .internal cks ccs => .internal (cks ++ [ks.getD index 0])
                   (ccs ++ [(cs.getD (index + 1)
                     (.leaf [])).children.getD 0 (.leaf [])]))).set
            (index + 1)
            (match cs.getD (index + 1) (.leaf []) with
             | .leaf rks => .leaf rks.tail
             | .internal rks rcs => .internal rks.tail rcs.tail)),
         index)) ∧
    ((¬ mk < (cs.getD index (.leaf [])).keys.length) →
      (¬ (1 ≤ index ∧ mk < (cs.getD (index - 1) (.leaf [])).keys.length)) →
      (¬ (index < ks.length
          ∧ mk < (cs.getD (index + 1) (.leaf [])).keys.length)) →
      1 ≤ index →
      ensureChildRemove mk (.internal ks cs) index =
        (mergeChildrenCore (.internal ks cs) (index - 1), index - 1)) ∧
    ((¬ mk < (cs.getD index (.leaf [])).keys.length) →
      (¬ (1 ≤ index ∧ mk < (cs.getD (index - 1) (.leaf [])).keys.length)) →
      (¬ (index < ks.length
          ∧ mk < (cs.getD (index + 1) (.leaf [])).keys.length)) →
      index = 0 →
      ensureChildRemove mk (.internal ks cs) index =
        (mergeChildrenCore (.internal ks cs) index, index)) ∧
    (∃ ks2 cs2,
      (ensureChildRemove mk (.internal ks cs) index).1 = .internal ks2 cs2 ∧
      (ensureChildRemove mk (.internal ks cs) index).2 ≤ ks2.length ∧
      cs2.length = ks2.length + 1 ∧
      mk < (cs2.getD (ensureChildRemove mk (.internal ks cs) index).2
        (.leaf [])).keys.length ∧
      inorder cs2 ks2 = inorder cs ks ∧
      wfCs mk h lo ks2 hi cs2 = true) := by
  refine ⟨fun hc1 => ensure_eq_rich hc1,
    fun hc1 hc2 => ensure_eq_steal_left hc1 hc2,
    fun hc1 hc2 hc3 => ensure_eq_steal_right hc1 hc2 hc3,
    fun hc1 hc2 hc3 hc4 => ensure_eq_merge_left hc1 hc2 hc3 hc4,
    fun hc1 hc2 hc3 hc4 =>
      ensure_eq_merge_right hc1 hc2 hc3 (by omega), ?_⟩
  obtain ⟨ks2, cs2, e1, hw, hl, hino, hle2, hrich, -, -, -⟩ :=
    ensureChildRemove_spec hmk hcs hlen hk1 hidx
  exact ⟨ks2, cs2, e1, hle2, hl, hrich, hino, hw⟩

theorem claim_C5_witness :
    ensureChildRemove 1 (.internal [5] [Node.leaf [3, 4], Node.leaf [7]]) 0
      = (.internal [5] [Node.leaf [3, 4], Node.leaf [7]], 0) :=
  (@claim_C5 1 0 (by omega) none none [5] [Node.leaf [3, 4], Node.leaf [7]]
    (by decide) (by decide) (by decide) 0 (by decide)).1 (by decide)

/-- C6: `split` postcondition — a valid node holding exactly
`maxkeys = 2*minkeys + 1` keys splits at the median index `minkeys`: the
median key is promoted, a newly created right sibling of the same
leaf/internal kind receives the keys after the median (exactly `minkeys`
of them, plus the trailing `minkeys + 1` children when internal), the
original node keeps the first `minkeys` keys (and leading `minkeys + 1`
children), both halves are valid against the promoted key as separator,
and the original key sequence is left ++ promoted :: right. -/
theorem claim_C6 {mk h : Nat} {lo hi : Option Nat} {n : Node} (hmk : 1 ≤ mk)
    (hw : wfN mk h lo hi n = true) (hfull : n.keys.length = 2 * mk + 1) :
    split mk n = some (splitNode mk n) ∧
    (splitNode mk n).2.1 = n.keys.getD mk 0 ∧
    (splitNode mk n).1.keys = n.keys.take mk ∧
    (splitNode mk n).2.2.keys = n.keys.drop (mk + 1) ∧
    (splitNode mk n).2.2.isLeaf = n.isLeaf ∧
    (splitNode mk n).1.keys.length = mk ∧
    (splitNode mk n).2.2.keys.length = mk ∧
    (n.isLeaf = false →
      (splitNode mk n).1.children = n.children.take (mk + 1) ∧
      (splitNode mk n).2.2.children = n.children.drop (mk + 1) ∧
      (splitNode mk n).2.2.children.length = mk + 1) ∧
    wfN mk h lo (some (splitNode mk n).2.1) (splitNode mk n).1 = true ∧
    wfN mk h (some (splitNode mk n).2.1) hi (splitNode mk n).2.2 = true ∧
    n.keys = (splitNode mk n).1.keys
      ++ (splitNode mk n).2.1 :: (splitNode mk n).2.2.keys := by
  obtain ⟨hwl, hwr, htl⟩ := splitNode_spec hmk hw hfull
  obtain ⟨hl1, hl2⟩ := splitNode_keys_len mk n hfull
  refine ⟨?_, ?_, ?_, ?_, ?_, hl1, hl2, ?_, hwl, hwr, ?_⟩
  · rw [split, if_pos hfull]
  · cases n <;> rfl
  · cases n <;> rfl
  · cases n <;> rfl
  · cases n <;> rfl
  · intro hleaf
    cases n with
    | leaf ks => simp at hleaf
    | internal ks cs =>
      refine ⟨rfl, rfl, ?_⟩
      cases h with
      | zero => simp at hw
      | succ h2 =>
        simp only [wfN_internal_succ, Bool.and_eq_true, beq_iff_eq,
          decide_eq_true_eq] at hw
        simp only [keys_internal] at hfull
        simp only [splitNode, children_internal, List.length_drop]
        omega
  · have hdec := getD_decomp n.keys mk 0 (by omega)
    cases n with
    | leaf ks => simpa [splitNode] using hdec
    | internal ks cs => simpa [splitNode] using hdec

theorem claim_C6_witness :
    split 1 (Node.leaf [1, 2, 3]) = some (splitNode 1 (Node.leaf [1, 2, 3])) :=
  (@claim_C6 1 0 none none (Node.leaf [1, 2, 3]) (by omega) (by decide)
    (by decide)).1

/-- C7: `merge_children` postcondition — on a valid internal, non-empty
node whose children at `index` and `index + 1` both hold exactly `minkeys`
keys, the call succeeds and removes the separator key and the right child
slot, the left child absorbing its own keys, the separator, and the right
child's keys (with children lists concatenated for internal children) for
a total of exactly `2*minkeys + 1 = maxkeys` keys — full to capacity,
never overflowing; the guarded entry point errors (`none`) on a leaf, on
a key-empty node, and whenever either child does not hold exactly
`minkeys` keys. -/
theorem claim_C7 {mk h : Nat} {lo hi : Option Nat} {ks : List Nat}
    {cs : List Node} (hcs : wfCs mk h lo ks hi cs = true)
    (hlen : cs.length = ks.length + 1) {i : Nat} (hi2 : i < ks.length)
    (hlk : (cs.getD i (.leaf [])).keys.length = mk)
    (hrk : (cs.getD (i + 1) (.leaf [])).keys.length = mk) :
    (mergeChildren mk (.internal ks cs) i
      = some (mergeChildrenCore (.internal ks cs) i)) ∧
    (∃ M : Node,
      mergeChildrenCore (.internal ks cs) i
        = .internal (ks.eraseIdx i) ((cs.set i M).eraseIdx (i + 1)) ∧
      M.keys = (cs.getD i (.leaf [])).keys
        ++ ks.getD i 0 :: (cs.getD (i + 1) (.leaf [])).keys ∧
      M.toList = (cs.getD i (.leaf [])).toList
        ++ ks.getD i 0 :: (cs.getD (i + 1) (.leaf [])).toList ∧
      M.keys.length = 2 * mk + 1) ∧
    (∀ (ks0 : List Nat) (i0 : Nat), mergeChildren mk (.leaf ks0) i0 = none) ∧
    (∀ (cs0 : List Node) (i0 : Nat),
      mergeChildren mk (.internal [] cs0) i0 = none) ∧
    (∀ (ks0 : List Nat) (cs0 : List Node) (i0 : Nat),
      ¬ ((cs0.getD i0 (.leaf [])).keys.length = mk
         ∧ (cs0.getD (i0 + 1) (.leaf [])).keys.length = mk) →
      mergeChildren mk (.internal ks0 cs0) i0 = none) := by
  obtain ⟨M, heq, htl, hlenM, hwfM, hkeys⟩ := mergeCore_spec hcs hlen hi2 hlk hrk
  refine ⟨?_, ⟨M, heq, hkeys, htl, hlenM⟩, ?_, ?_, ?_⟩
  · rw [mergeChildren]
    rw [if_neg (by simp; exact List.ne_nil_of_length_pos (by omega))]
    rw [if_neg (by simp; omega)]
    rw [if_neg (by simp only [children_internal, Bool.not_eq_true',
      Bool.not_eq_false, Bool.and_eq_true, beq_iff_eq]; exact ⟨hlk, hrk⟩)]
    rw [if_neg (by simp; omega)]
  · intro ks0 i0
    rw [mergeChildren]
    simp
  · intro cs0 i0
    rw [mergeChildren]
    simp
  · intro ks0 cs0 i0 hbad
    rw [mergeChildren]
    by_cases h1 : ((Node.internal ks0 cs0).isLeaf
        || (Node.internal ks0 cs0).keys.length == 0) = true
    · rw [if_pos h1]
    · rw [if_neg h1]
      by_cases h2 : (Node.internal ks0 cs0).children.length < i0 + 2
      · rw [if_pos h2]
      · rw [if_neg h2]
        rw [if_pos (by
          simp only [children_internal, Bool.not_eq_true', Bool.not_eq_false,
            Bool.and_eq_true, beq_iff_eq]
          simpa using hbad)]

theorem claim_C7_witness :
    mergeChildren 1 (.internal [5] [Node.leaf [3], Node.leaf [7]]) 0
      = some (mergeChildrenCore (.internal [5] [Node.leaf [3], Node.leaf [7]]) 0) :=
  (@claim_C7 1 0 none none [5] [Node.leaf [3], Node.leaf [7]] (by decide)
    (by decide) 0 (by decide) (by decide) (by decide)).1

/-- C8: `Node.search` postcondition — on a node with strictly increasing
keys, `search obj` returns `(true, i)` with `keys[i] = obj` exactly when
`obj` occurs among the keys, and otherwise `(false, i)` where `i` is the
index of the first key strictly greater than `obj` (every earlier key is
smaller, and the key at `i` — when one exists — is greater), with
`i = len(keys)` when no key exceeds `obj`; the embedding is a pure
function, so the node itself is untouched. -/
theorem claim_C8 {n : Node} (hs : n.keys.Pairwise (· < ·)) (obj : Nat) :
    ((n.search obj).1 = true ↔ obj ∈ n.keys) ∧
    (n.search obj).2 ≤ n.keys.length ∧
    ((n.search obj).1 = true →
      (n.search obj).2 < n.keys.length ∧
      n.keys.getD (n.search obj).2 0 = obj) ∧
    (∀ i, i < (n.search obj).2 → n.keys.getD i 0 < obj) ∧
    ((n.search obj).1 = false → (n.search obj).2 < n.keys.length →
      obj < n.keys.getD (n.search obj).2 0) := by
  have hse : n.search obj = searchGo obj n.keys 0 := rfl
  have hp := searchGo_props obj n.keys
  rw [hse]
  exact ⟨searchGo_found_iff_mem obj n.keys hs, hp.1, hp.2.2.1, hp.2.1, hp.2.2.2⟩

theorem claim_C8_witness :
    (Node.search (Node.leaf [1, 2, 3]) 2).2 ≤ (Node.leaf [1, 2, 3]).keys.length :=
  (@claim_C8 (Node.leaf [1, 2, 3]) (by decide) 2).2.1

/-- C9: Idempotence at the public interface — on any reachable state, a
second `add k` immediately after a first changes none of the observables
(size, membership of every key, full iteration sequence), and `discard k`
of an absent key is likewise a no-op for all three observables. -/
theorem claim_C9 {s : BTreeSet} (hr : Reachable s) (k : Nat) :
    ((s.add k).add k).size = (s.add k).size ∧
    ((s.add k).add k).iter = (s.add k).iter ∧
    (∀ x, ((s.add k).add k).contains x = (s.add k).contains x) ∧
    (s.contains k = false →
      (s.discard k).size = s.size ∧
      (s.discard k).iter = s.iter ∧
      (∀ x, (s.discard k).contains x = s.contains x)) := by
  have hs := Reachable_WFS hr
  obtain ⟨hmk, hmax, hwf, hsize⟩ := hs
  have hs2 : WFS s := ⟨hmk, hmax, hwf, hsize⟩
  obtain ⟨hw1, -, -, htl1, hsz1, -⟩ := add_spec hs2 k
  obtain ⟨hw2, -, -, htl2, hsz2, -⟩ := add_spec hw1 k
  have hch1 : chainLt none (s.add k).root.toList none = true :=
    wfTop_chain hw1.2.2.1
  have hmem1 : k ∈ (s.add k).root.toList := by
    rw [htl1, mem_insertKey]
    exact Or.inl rfl
  have htlE : ((s.add k).add k).root.toList = (s.add k).root.toList := by
    rw [htl2]
    exact insertKey_of_mem hch1 hmem1
  refine ⟨?_, ?_, ?_, ?_⟩
  · rw [hsz2, if_pos hmem1]
  · rw [iter_toList hw2, iter_toList hw1, htlE]
  · intro x
    have e1 := contains_iff hw2 x
    have e2 := contains_iff hw1 x
    rw [htlE] at e1
    cases hb : ((s.add k).add k).contains x with
    | true => exact (e2.mpr (e1.mp hb)).symm
    | false =>
      cases hb2 : (s.add k).contains x with
      | false => rfl
      | true => exact absurd (e1.mpr (e2.mp hb2)) (by simp [hb])
  · intro hcf
    obtain ⟨hwd, -, -, hflagd, herased, hszd, -⟩ := removeCore_spec hs2 k
    have hnmem : k ∉ s.root.toList := fun hm => by
      simp [(contains_iff hs2 k).mpr hm] at hcf
    have herase2 : (s.removeCore k).1.root.toList = s.root.toList := by
      rw [herased, List.erase_of_not_mem hnmem]
    have hdis : s.discard k = (s.removeCore k).1 := rfl
    refine ⟨?_, ?_, ?_⟩
    · rw [hdis, hszd, if_neg hnmem]
    · rw [hdis, iter_toList hwd, herase2, ← iter_toList hs2]
    · intro x
      have e1 := contains_iff hwd x
      have e2 := contains_iff hs2 x
      rw [herase2] at e1
      rw [hdis]
      cases hb : (s.removeCore k).1.contains x with
      | true => exact (e2.mpr (e1.mp hb)).symm
      | false =>
        cases hb2 : s.contains x with
        | false => rfl
        | true => exact absurd (e1.mpr (e2.mp hb2)) (by simp [hb])

theorem claim_C9_witness :
    ((applyOps (BTreeSet.new 2) [Op.add 1]).add 9 |>.add 9).size
      = ((applyOps (BTreeSet.new 2) [Op.add 1]).add 9).size :=
  (claim_C9 ⟨2, [Op.add 1], by omega, rfl⟩ 9).1

/-- C10: Root–size coupling — on every reachable state: a size of at most
`2*minkeys` forces a leaf root holding exactly `size` keys; a size above
`maxkeys` forces an internal root; an internal root holds at least
`2*minkeys + 1` keys overall; the tree height grows (by exactly one) on
`add` precisely when the root is full — the preemptive root split — and
never grows on `_remove` (it can only shrink, by the root collapse). -/
theorem claim_C10 {s : BTreeSet} (hr : Reachable s) (k : Nat) :
    (s.size ≤ 2 * s.minkeys →
      s.root.isLeaf = true ∧ s.root.keys.length = s.size) ∧
    (s.maxkeys < s.size → s.root.isLeaf = false) ∧
    (s.root.isLeaf = false → 2 * s.minkeys + 1 ≤ s.size) ∧
    ((s.add k).root.height
      = (if s.root.keys.length = s.maxkeys
         then s.root.height + 1 else s.root.height)) ∧
    (s.removeCore k).1.root.height ≤ s.root.height := by
  have hs := Reachable_WFS hr
  obtain ⟨hmk, hmax, hwf, hsize⟩ := hs
  have hs2 : WFS s := ⟨hmk, hmax, hwf, hsize⟩
  refine ⟨size_le_root_leaf hs2, ?_, ?_,
    (add_spec hs2 k).2.2.2.2.2, (removeCore_spec hs2 k).2.2.2.2.2.2⟩
  · intro hgt
    cases hroot : s.root with
    | internal ks cs => rfl
    | leaf ks =>
      rw [hroot] at hwf hsize
      have hb := wfTop_keys_le hwf
      simp only [keys_leaf] at hb
      simp only [toList_leaf] at hsize
      exact absurd hgt (by omega)
  · intro hleaf
    cases hroot : s.root with
    | leaf ks =>
      rw [hroot] at hleaf
      simp at hleaf
    | internal ks cs =>
      rw [hroot] at hwf hsize
      have hx := wfTop_internal_size hmk hwf
      simp only [toList_internal] at hsize
      omega

theorem claim_C10_witness :
    ((applyOps (BTreeSet.new 2) [Op.add 1]).removeCore 1).1.root.height
      ≤ (applyOps (BTreeSet.new 2) [Op.add 1]).root.height :=
  (claim_C10 ⟨2, [Op.add 1], by omega, rfl⟩ 1).2.2.2.2

end Node

end BTree
